import Mathlib

/-!
# zreader4: lexer, parser, resolver and generator of the restricted Zanzibar schema language

Shallow embedding of `zinterpreter/zinterpreter.go` and of the pipeline of `zreader.go`.

* A Go `string` is a sequence of bytes: `GoString := List Nat`, one number below 256 per byte.
  The string literals of the source are ASCII, but for the `é` of two messages of
  `writeOutFile`, which is its two bytes in the source; `bytes` turns an ASCII literal into
  its bytes.
* The lexer is the record `Lexer` of the source; `NextToken` returns the lexer whose
  `currentItem` has been overwritten (the source returns the pointer to that item).
* Pointers to definitions (`*ZDef`) are positions in `Zdefs`.
* A Go `map[string]T` is an association list; an insertion is put in front, so a later
  insertion for a key hides an earlier one, and a lookup returns the first hit.
* Loops of the source are recursive functions; the loops of the parser run on a fuel that
  is computed from the part of the input not read yet, and `none` stands for "fuel ran out".
* `fmt.Printf` diagnostics do not change any state and are left out.
-/

namespace Zreader

/-- A Go string: its bytes. -/
abbrev GoString := List Nat

/-- The bytes of an ASCII literal of the source. -/
def bytes (s : String) : GoString := s.toList.map Char.toNat

/-! ## Go library functions used by the source -/

/-- Go `unicode.IsSpace(rune(b))` for a byte `b`: in the Latin-1 range the white space
characters are tab, line feed, vertical tab, form feed, carriage return, space, U+0085 and
U+00A0. -/
def isSpace (b : Nat) : Bool :=
  b == 9 || b == 10 || b == 11 || b == 12 || b == 13 || b == 32 || b == 133 || b == 160

/-- Go `unicode.IsLetter(rune(b))` for a byte `b`: in the Latin-1 range the letters are
`A`-`Z`, `a`-`z`, U+00AA, U+00B5, U+00BA, U+00C0-U+00D6, U+00D8-U+00F6 and U+00F8-U+00FF. -/
def isLetter (b : Nat) : Bool :=
  (65 ≤ b && b ≤ 90) || (97 ≤ b && b ≤ 122) || b == 170 || b == 181 || b == 186 ||
  (192 ≤ b && b ≤ 214) || (216 ≤ b && b ≤ 246) || (248 ≤ b && b ≤ 255)

/-- Go `unicode.IsDigit(rune(b))` for a byte `b`: in the Latin-1 range only `0`-`9`. -/
def isDigit (b : Nat) : Bool := 48 ≤ b && b ≤ 57

/-- Go `strings.HasPrefix(s, p)`. -/
def hasPrefix (s p : GoString) : Bool := p.isPrefixOf s

/-- Go `strings.Join(xs, sep)`. -/
def join : List GoString → GoString → GoString
  | [], _ => []
  | [x], _ => x
  | x :: y :: rest, sep => x ++ sep ++ join (y :: rest) sep

/-- The decimal digits of `n`, as `%d` of `fmt` prints a non-negative integer. -/
def decimal (n : Nat) : GoString := (Nat.toDigits 10 n).map Char.toNat

/-! ## Tokens and lexer -/

/-- Token represents the different tokens. -/
inductive Token where
  | DefinitionToken
  | RelationToken
  | ColonToken
  | OrToken
  | LeftBraceToken
  | RightBraceToken
  | HashToken
  | IdentifierToken
  | WildCard
  | EOFToken
  | InvalidToken
  deriving DecidableEq, Repr

open Token

/-- A token with its value. -/
structure Item where
  Token : Token
  Value : GoString
  deriving DecidableEq, Repr

/-- Lexer parses input text and generates tokens. -/
structure Lexer where
  input : GoString
  pos : Nat
  length : Nat
  currentItem : Item
  deriving DecidableEq, Repr

/-- The text of a token in the messages of the parser. -/
def TokenToString : Token → GoString
  | DefinitionToken => bytes "definition"
  | RelationToken => bytes "relation"
  | ColonToken => bytes ":"
  | OrToken => bytes "|"
  | LeftBraceToken => bytes "\x7b"
  | RightBraceToken => bytes "\x7d"
  | HashToken => bytes "#"
  | IdentifierToken => bytes "Identifier"
  | WildCard => bytes "*"
  | EOFToken => bytes ""
  | InvalidToken => bytes "invalid"

/-- A lexer on `input`, before any token has been read. -/
def NewLexer (input : GoString) : Lexer :=
  { input := input, pos := 0, length := input.length,
    currentItem := { Token := InvalidToken, Value := [] } }

/-- The byte `l.input[l.pos]`; the source reads it only when `l.pos < l.length`. -/
def Lexer.cur (l : Lexer) : Nat := l.input.getD l.pos 0

/-- The loop of `eatSpace`: `for l.pos < l.length && unicode.IsSpace(rune(l.input[l.pos]))`. -/
def eatSpaceLoop : Nat → Lexer → Lexer
  | 0, l => l
  | fuel + 1, l =>
    if l.pos < l.length && isSpace l.cur then eatSpaceLoop fuel { l with pos := l.pos + 1 }
    else l

/-- We eat up the white spaces. Every round of the loop moves `pos` one byte towards
`length`, so `length - pos` rounds are enough. -/
def Lexer.eatSpace (l : Lexer) : Lexer := eatSpaceLoop (l.length - l.pos) l

/-- The loop that reads an identifier:
`for l.pos < l.length && (IsLetter(..) || IsDigit(..) || l.input[l.pos] == '_')`. -/
def identLoop : Nat → Lexer → Lexer
  | 0, l => l
  | fuel + 1, l =>
    if l.pos < l.length && (isLetter l.cur || isDigit l.cur || l.cur == 95) then
      identLoop fuel { l with pos := l.pos + 1 }
    else l

/-- Go `string(b)` for a byte `b`: the UTF-8 encoding of the code point `b`, one byte below
128 and two bytes from 128 on. -/
def runeString (b : Nat) : GoString := if b < 128 then [b] else [192 + b / 64, 128 + b % 64]

/-- The slice `s[i:j]` of Go. -/
def slice (s : GoString) (i j : Nat) : GoString := (s.take j).drop i

/-- Lexer returns the next token to read. -/
def Lexer.NextToken (l0 : Lexer) : Lexer :=
  let l := l0.eatSpace
  if l.pos ≥ l.length then
    { l with currentItem := { Token := EOFToken, Value := [] } }
  else if hasPrefix (l.input.drop l.pos) (bytes "definition") then
    { l with currentItem := { Token := DefinitionToken, Value := bytes "definition" },
             pos := l.pos + (bytes "definition").length }
  else if hasPrefix (l.input.drop l.pos) (bytes "relation") then
    { l with currentItem := { Token := RelationToken, Value := bytes "relation" },
             pos := l.pos + (bytes "relation").length }
  else if l.cur == 58 then
    { l with currentItem := { Token := ColonToken, Value := bytes ":" }, pos := l.pos + 1 }
  else if l.cur == 124 then
    { l with currentItem := { Token := OrToken, Value := bytes "|" }, pos := l.pos + 1 }
  else if l.cur == 123 then
    { l with currentItem := { Token := LeftBraceToken, Value := bytes "\x7b" }, pos := l.pos + 1 }
  else if l.cur == 125 then
    { l with currentItem := { Token := RightBraceToken, Value := bytes "\x7d" }, pos := l.pos + 1 }
  else if l.cur == 35 then
    { l with currentItem := { Token := HashToken, Value := bytes "#" }, pos := l.pos + 1 }
  else if l.cur == 42 then
    { l with currentItem := { Token := WildCard, Value := bytes "*" }, pos := l.pos + 1 }
  else if isLetter l.cur then
    let l1 := identLoop (l.length - l.pos) l
    { l1 with currentItem := { Token := IdentifierToken, Value := slice l.input l.pos l1.pos } }
  else
    { l with currentItem := { Token := InvalidToken, Value := runeString l.cur },
             pos := l.pos + 1 }

/-- The current token is compared with the expected one; `none` is the `nil` error. -/
def Lexer.readAndMatchToken (l : Lexer) (expected : Token) : Option GoString :=
  if l.currentItem.Token = expected then none
  else some (bytes "expected token '" ++ TokenToString expected ++ bytes "', but got '" ++
    l.currentItem.Value ++ bytes "'")

/-! ## Abstract syntax -/

/-- A plain object reference `name`. The back pointer `myZDef` is a position in `Zdefs`. -/
structure Zobject where
  Name : GoString := []
  ID : GoString := []
  myZDef : Option Nat := none
  Unique : Bool := false
  deriving DecidableEq, Repr

/-- An object-set reference `name#relation`. -/
structure ZobjectSet where
  Name : GoString := []
  Relation : GoString := []
  ID : GoString := []
  IDRelation : GoString := []
  Unique : Bool := false
  deriving DecidableEq, Repr

/-- A wildcard reference `name:*`. -/
structure ZobjectWildCard where
  Name : GoString := []
  ID : GoString := []
  Unique : Bool := false
  deriving DecidableEq, Repr

/-- A relation of a definition. The back pointer `myZDef` is a position in `Zdefs`. -/
structure ZRelation where
  Name : GoString := []
  Zobjects : List Zobject := []
  ZobjectSets : List ZobjectSet := []
  ZobjectWildCards : List ZobjectWildCard := []
  ID : GoString := []
  myZDef : Option Nat := none
  deriving DecidableEq, Repr

/-- A definition. -/
structure ZDef where
  Name : GoString := []
  Relations : List ZRelation := []
  ID : GoString := []
  deriving DecidableEq, Repr

/-! ## Parser

Every function returns the lexer after the call, the value of the source's first result and
its second result, the error (`none` is `nil`). -/

/-- The body of the loop of `readZRelation` up to the test for `|`: one `<Sname>`. -/
def readSname (l : Lexer) (zrelation : ZRelation) : Lexer × ZRelation × Option GoString :=
  let _name := l.currentItem.Value
  let l := l.NextToken
  if l.currentItem.Token = HashToken then
    let l := l.NextToken
    match l.readAndMatchToken IdentifierToken with
    | some err => (l, zrelation, some err)
    | none =>
      (l.NextToken,
       { zrelation with
          ZobjectSets := zrelation.ZobjectSets ++
            [{ Name := _name, Relation := l.currentItem.Value }] },
       none)
  else if l.currentItem.Token = ColonToken then
    let l := l.NextToken
    match l.readAndMatchToken WildCard with
    | some err => (l, zrelation, some err)
    | none =>
      (l.NextToken,
       { zrelation with
          ZobjectWildCards := zrelation.ZobjectWildCards ++ [{ Name := _name }] },
       none)
  else
    (l, { zrelation with Zobjects := zrelation.Zobjects ++ [{ Name := _name }] }, none)

/-- The loop of `readZRelation`: `for l.currentItem.Token == IdentifierToken`, left by
`break` when no `|` follows the `<Sname>`. -/
def snameLoop : Nat → Lexer → ZRelation → Option (Lexer × ZRelation × Option GoString)
  | 0, l, zrelation =>
    if l.currentItem.Token = IdentifierToken then none else some (l, zrelation, none)
  | fuel + 1, l, zrelation =>
    if l.currentItem.Token = IdentifierToken then
      match readSname l zrelation with
      | (l1, z1, some err) => some (l1, z1, some err)
      | (l1, z1, none) =>
        if l1.currentItem.Token = OrToken then snameLoop fuel l1.NextToken z1
        else some (l1, z1, none)
    else some (l, zrelation, none)

/-- The rule `<Zrelation> ::= "relation" <Rname> ":" <Sname> ("|" <Sname)*` as the source
reads it. -/
def Lexer.readZRelation (l : Lexer) : Option (Lexer × ZRelation × Option GoString) :=
  let zrelation : ZRelation := {}
  if l.currentItem.Value ≠ bytes "relation" then
    some (l, zrelation,
      some (bytes "expected 'relation', but got '" ++ l.currentItem.Value ++ bytes "'"))
  else
    let l := l.NextToken
    match l.readAndMatchToken IdentifierToken with
    | some err => some (l, zrelation, some err)
    | none =>
      let zrelation := { zrelation with Name := l.currentItem.Value }
      let l := l.NextToken
      match l.readAndMatchToken ColonToken with
      | some err => some (l, zrelation, some err)
      | none =>
        let l := l.NextToken
        snameLoop (l.length - l.pos + 1) l zrelation

/-- The loop of `readZBody`: `for l.currentItem.Token == RelationToken`. -/
def bodyLoop : Nat → Lexer → ZDef → Option (Lexer × ZDef × Option GoString)
  | 0, l, zdef => if l.currentItem.Token = RelationToken then none else some (l, zdef, none)
  | fuel + 1, l, zdef =>
    if l.currentItem.Token = RelationToken then
      match l.readZRelation with
      | none => none
      | some (l1, _, some err) => some (l1, zdef, some err)
      | some (l1, relation, none) =>
        bodyLoop fuel l1 { zdef with Relations := zdef.Relations ++ [relation] }
    else some (l, zdef, none)

/-- The rule `<Zbody> ::= <Zrelation>*`. -/
def Lexer.readZBody (l : Lexer) (zdef : ZDef) : Option (Lexer × ZDef × Option GoString) :=
  bodyLoop (l.length - l.pos + 1) l zdef

/-- The rule `<Zdef> ::= "definition" <Zname> "{" <Zbody> "}"`. -/
def Lexer.readZDef (l : Lexer) : Option (Lexer × ZDef × Option GoString) :=
  let zdef : ZDef := {}
  match l.readAndMatchToken DefinitionToken with
  | some err => some (l, zdef, some err)
  | none =>
    let l := l.NextToken
    match l.readAndMatchToken IdentifierToken with
    | some err => some (l, zdef, some err)
    | none =>
      let zdef := { zdef with Name := l.currentItem.Value }
      let l := l.NextToken
      match l.readAndMatchToken LeftBraceToken with
      | some err => some (l, zdef, some err)
      | none =>
        let l := l.NextToken
        match l.readZBody zdef with
        | none => none
        | some (l, zdef, some err) => some (l, zdef, some err)
        | some (l, zdef, none) =>
          match l.readAndMatchToken RightBraceToken with
          | some err => some (l, zdef, some err)
          | none => some (l, zdef, none)

/-- The loop of `ReadZSchema`: `for l.currentItem.Token != EOFToken`. -/
def schemaLoop : Nat → Lexer → List ZDef → Option (Lexer × List ZDef × Option GoString)
  | 0, l, zdefs => if l.currentItem.Token ≠ EOFToken then none else some (l, zdefs, none)
  | fuel + 1, l, zdefs =>
    if l.currentItem.Token ≠ EOFToken then
      match l.readZDef with
      | none => none
      | some (l1, _, some err) => some (l1, zdefs, some err)
      | some (l1, _zdef, none) => schemaLoop fuel l1.NextToken (zdefs ++ [_zdef])
    else some (l, zdefs, none)

/-- The rule `<Zschema> ::= <Zdef>*`. -/
def Lexer.ReadZSchema (l : Lexer) : Option (Lexer × List ZDef × Option GoString) :=
  schemaLoop (l.length - l.pos + 1) l []

/-- The way `main` and the tests parse a text: `NewLexer`, one `NextToken`, `ReadZSchema`.
The result is the list of definitions and the error. -/
def Parse (input : GoString) : Option (List ZDef × Option GoString) :=
  ((NewLexer input).NextToken.ReadZSchema).map (fun r => (r.2.1, r.2.2))

/-! ## Resolution: identifiers, lookups, uniqueness flags -/

/-- The marker of what is not drawn. -/
def NOTDRAW : GoString := bytes "NOTDRAW"

/-- Go `m[k]` with its `exists` result, on an association list. -/
def mapGet {β : Type} : List (GoString × β) → GoString → Option β
  | [], _ => none
  | (k, v) :: rest, key => if k = key then some v else mapGet rest key

/-- Go `m[k] = v`: the new pair hides any earlier pair for `k`. -/
def mapSet {β : Type} (m : List (GoString × β)) (k : GoString) (v : β) : List (GoString × β) :=
  (k, v) :: m

/-- The diagram under construction. `ZdefMap` maps a name to the position in `Zdefs` of the
definition its pointer points to. The fields `SchemaDpi` and `SchemaScale` of the source are
never read or written and are left out. -/
structure PlantUMLArchimateSchema where
  Zdefs : List ZDef
  ZdefMap : List (GoString × Nat) := []
  deriving DecidableEq, Repr

/-- Go `contains(slice, item)`. -/
def contains : List GoString → GoString → Bool
  | [], _ => false
  | v :: rest, item => if v = item then true else contains rest item

/-- The first loop of `createIDforZdef`: `index` is the position of the head of the list and
`zdefMapNameToVarName` the map of the names seen so far. -/
def zdefIDLoop : Nat → List (GoString × GoString) → List ZDef → List ZDef
  | _, _, [] => []
  | index, zdefMapNameToVarName, zdef :: rest =>
    let varname := bytes "b" ++ decimal (index + 1)
    match mapGet zdefMapNameToVarName zdef.Name with
    | some _ => zdef :: zdefIDLoop (index + 1) zdefMapNameToVarName rest
    | none =>
      { zdef with ID := varname } ::
        zdefIDLoop (index + 1) (mapSet zdefMapNameToVarName zdef.Name varname) rest

/-- The inner loop of `createIDforZdefRelations` over the relations of the definition at
position `zdef`; the second result is `relCount` after the loop. -/
def relIDLoop (zdef : Nat) : Nat → List GoString → List ZRelation → List ZRelation × Nat
  | relCount, _, [] => ([], relCount)
  | relCount, RelNameSlice, zrel :: rest =>
    let relCount := relCount + 1
    let varname := bytes "r" ++ decimal relCount
    if contains RelNameSlice zrel.Name then
      let r := relIDLoop zdef relCount RelNameSlice rest
      ({ zrel with ID := NOTDRAW } :: r.1, r.2)
    else
      let r := relIDLoop zdef relCount (RelNameSlice ++ [zrel.Name]) rest
      ({ zrel with ID := varname, myZDef := some zdef } :: r.1, r.2)

/-- The outer loop of `createIDforZdefRelations`; `index` is the position of the head. -/
def defRelIDLoop : Nat → Nat → List ZDef → List ZDef
  | _, _, [] => []
  | index, relCount, zdef :: rest =>
    let r := relIDLoop index relCount [] zdef.Relations
    { zdef with Relations := r.1 } :: defRelIDLoop (index + 1) r.2 rest

/-- Every relation gets `r<relCount>`, or `NOTDRAW` when its name repeats in its definition. -/
def PlantUMLArchimateSchema.createIDforZdefRelations (s : PlantUMLArchimateSchema) :
    PlantUMLArchimateSchema :=
  { s with Zdefs := defRelIDLoop 0 0 s.Zdefs }

/-- The loop of `initZdefMap`; `index` is the position of the head. -/
def initZdefMapLoop : Nat → List (GoString × Nat) → List ZDef → List (GoString × Nat)
  | _, m, [] => m
  | index, m, zdef :: rest => initZdefMapLoop (index + 1) (mapSet m zdef.Name index) rest

/-- A fresh map from every definition name to (the pointer to) its definition. -/
def PlantUMLArchimateSchema.initZdefMap (s : PlantUMLArchimateSchema) :
    PlantUMLArchimateSchema :=
  { s with ZdefMap := initZdefMapLoop 0 [] s.Zdefs }

/-- The read `plantUMLArchimateSchema.ZdefMap[name]` followed through the pointer: the
definition stored under `name`, if any. -/
def PlantUMLArchimateSchema.lookup (s : PlantUMLArchimateSchema) (name : GoString) :
    Option ZDef :=
  (mapGet s.ZdefMap name).bind (fun i => s.Zdefs[i]?)

/-- The loops `for _, zdef := range Zdefs { for _, zrel := range zdef.Relations { ... } }`
that all the passes below share: `f` is what is done to the relation. -/
def forEachRelation (f : ZDef → ZRelation → ZRelation) (zdefs : List ZDef) : List ZDef :=
  zdefs.map (fun zdef => { zdef with Relations := zdef.Relations.map (f zdef) })

/-- The body of the loop of `verifyAndAssignIDforZobjectInRelations` for one reference. -/
def PlantUMLArchimateSchema.assignZobject (s : PlantUMLArchimateSchema) (zobject : Zobject) :
    Zobject :=
  match s.lookup zobject.Name with
  | some myZDef => { zobject with ID := myZDef.ID, myZDef := mapGet s.ZdefMap zobject.Name }
  | none => { zobject with ID := NOTDRAW }

/-- Every plain reference gets the identifier of the definition of its name, or `NOTDRAW`.
The pass writes fields of references only, so the definitions it reads are those of `s`. -/
def PlantUMLArchimateSchema.verifyAndAssignIDforZobjectInRelations
    (s : PlantUMLArchimateSchema) : PlantUMLArchimateSchema :=
  { s with Zdefs := forEachRelation (fun _ zrel =>
      { zrel with Zobjects := zrel.Zobjects.map s.assignZobject }) s.Zdefs }

/-- The definition of a name, or the error of the source. -/
def PlantUMLArchimateSchema.findZDef (s : PlantUMLArchimateSchema) (objectName : GoString) :
    Except GoString ZDef :=
  match s.lookup objectName with
  | some myZDef => .ok myZDef
  | none => .error (bytes "definition " ++ objectName ++ bytes " does not exist. ")

/-- The loop of `findZRelation` that fills `zrelMap`. -/
def zrelMapLoop : List (GoString × ZRelation) → List ZRelation → List (GoString × ZRelation)
  | m, [] => m
  | m, zrel :: rest => zrelMapLoop (mapSet m zrel.Name zrel) rest

/-- The relation `relationName` of the definition `objectName`, or the error of the source. -/
def PlantUMLArchimateSchema.findZRelation (s : PlantUMLArchimateSchema)
    (objectName relationName : GoString) : Except GoString ZRelation :=
  match s.findZDef objectName with
  | .error err => .error err
  | .ok myZf =>
    let zrelMap := zrelMapLoop [] myZf.Relations
    match mapGet zrelMap relationName with
    | some myZrel => .ok myZrel
    | none =>
      .error (bytes "relation " ++ relationName ++ bytes " does not exist in definition " ++
        objectName ++ bytes ". ")

/-- The body of the loop of `verifyAndAssignIDInRelationsforZobjectSet` for one reference. -/
def PlantUMLArchimateSchema.assignZobjectSet (s : PlantUMLArchimateSchema)
    (zobjectSet : ZobjectSet) : ZobjectSet :=
  match s.lookup zobjectSet.Name with
  | some myZDef =>
    match s.findZRelation myZDef.Name zobjectSet.Relation with
    | .error _ => { zobjectSet with ID := myZDef.ID, IDRelation := NOTDRAW }
    | .ok myZel => { zobjectSet with ID := myZDef.ID, IDRelation := myZel.ID }
  | none => { zobjectSet with ID := NOTDRAW }

/-- Every object-set reference gets the identifier of its definition and of its relation.
The pass writes fields of references only, so what it reads is read in `s`. -/
def PlantUMLArchimateSchema.verifyAndAssignIDInRelationsforZobjectSet
    (s : PlantUMLArchimateSchema) : PlantUMLArchimateSchema :=
  { s with Zdefs := forEachRelation (fun _ zrel =>
      { zrel with ZobjectSets := zrel.ZobjectSets.map s.assignZobjectSet }) s.Zdefs }

/-- The body of the loop of `verifyAndAssignIDInRelationsforZobjectWildCard` for one
reference. -/
def PlantUMLArchimateSchema.assignZobjectWildCard (s : PlantUMLArchimateSchema)
    (zobjectWildCard : ZobjectWildCard) : ZobjectWildCard :=
  match s.lookup zobjectWildCard.Name with
  | some myZDef => { zobjectWildCard with ID := myZDef.ID }
  | none => { zobjectWildCard with ID := NOTDRAW }

/-- Every wildcard reference gets the identifier of the definition of its name, or `NOTDRAW`. -/
def PlantUMLArchimateSchema.verifyAndAssignIDInRelationsforZobjectWildCard
    (s : PlantUMLArchimateSchema) : PlantUMLArchimateSchema :=
  { s with Zdefs := forEachRelation (fun _ zrel =>
      { zrel with ZobjectWildCards :=
          zrel.ZobjectWildCards.map s.assignZobjectWildCard }) s.Zdefs }

/-- The inner loop of `verifyUniqueObjectForEachRelation`. -/
def uniqueObjectLoop : List GoString → List Zobject → List Zobject
  | _, [] => []
  | keyObjectSlice, zobject :: rest =>
    let varname := zobject.Name
    if contains keyObjectSlice varname then
      { zobject with Unique := false } :: uniqueObjectLoop keyObjectSlice rest
    else
      { zobject with Unique := true } :: uniqueObjectLoop (keyObjectSlice ++ [varname]) rest

/-- The flag `Unique` of every plain reference. -/
def PlantUMLArchimateSchema.verifyUniqueObjectForEachRelation
    (s : PlantUMLArchimateSchema) : PlantUMLArchimateSchema :=
  { s with Zdefs := forEachRelation (fun _ zrel =>
      { zrel with Zobjects := uniqueObjectLoop [] zrel.Zobjects }) s.Zdefs }

/-- The key `fmt.Sprintf("%s#%s", zobjectSet.Name, zobjectSet.Relation)`. -/
def setKey (zobjectSet : ZobjectSet) : GoString :=
  zobjectSet.Name ++ bytes "#" ++ zobjectSet.Relation

/-- The inner loop of `verifyUniqueSetObjectForEachRelation`. -/
def uniqueSetLoop : List GoString → List ZobjectSet → List ZobjectSet
  | _, [] => []
  | keySetObjectSlice, zobjectSet :: rest =>
    let varname := setKey zobjectSet
    if contains keySetObjectSlice varname then
      { zobjectSet with Unique := false } :: uniqueSetLoop keySetObjectSlice rest
    else
      { zobjectSet with Unique := true } ::
        uniqueSetLoop (keySetObjectSlice ++ [varname]) rest

/-- The flag `Unique` of every object-set reference. -/
def PlantUMLArchimateSchema.verifyUniqueSetObjectForEachRelation
    (s : PlantUMLArchimateSchema) : PlantUMLArchimateSchema :=
  { s with Zdefs := forEachRelation (fun _ zrel =>
      { zrel with ZobjectSets := uniqueSetLoop [] zrel.ZobjectSets }) s.Zdefs }

/-- The inner loop of `verifyUniqueObjectWildCardForEachRelation`. -/
def uniqueWildCardLoop : List GoString → List ZobjectWildCard → List ZobjectWildCard
  | _, [] => []
  | keySetObjectSlice, zobjectWildCard :: rest =>
    let varname := zobjectWildCard.Name
    if contains keySetObjectSlice varname then
      { zobjectWildCard with Unique := false } :: uniqueWildCardLoop keySetObjectSlice rest
    else
      { zobjectWildCard with Unique := true } ::
        uniqueWildCardLoop (keySetObjectSlice ++ [varname]) rest

/-- The flag `Unique` of every wildcard reference. -/
def PlantUMLArchimateSchema.verifyUniqueObjectWildCardForEachRelation
    (s : PlantUMLArchimateSchema) : PlantUMLArchimateSchema :=
  { s with Zdefs := forEachRelation (fun _ zrel =>
      { zrel with ZobjectWildCards := uniqueWildCardLoop [] zrel.ZobjectWildCards }) s.Zdefs }

/-- The resolution: identifiers of the definitions, then the eight passes in the order of
the source. -/
def PlantUMLArchimateSchema.createIDforZdef (s : PlantUMLArchimateSchema) :
    PlantUMLArchimateSchema :=
  let s : PlantUMLArchimateSchema := { s with Zdefs := zdefIDLoop 0 [] s.Zdefs }
  let s := s.createIDforZdefRelations
  let s := s.initZdefMap
  let s := s.verifyAndAssignIDforZobjectInRelations
  let s := s.verifyUniqueObjectForEachRelation
  let s := s.verifyAndAssignIDInRelationsforZobjectSet
  let s := s.verifyUniqueSetObjectForEachRelation
  let s := s.verifyAndAssignIDInRelationsforZobjectWildCard
  s.verifyUniqueObjectWildCardForEachRelation

/-! ## Generation -/

/-- The line of a plain reference of the relation `zrel` of `zdef`. -/
def zobjectLine (zdef : ZDef) (zrel : ZRelation) (zobject : Zobject) : GoString :=
  if zobject.ID = NOTDRAW then
    bytes "rectangle \"definition " ++ zobject.Name ++ bytes " does not exist \" #red"
  else if zobject.Unique = true then
    bytes "Rel_Access_w(" ++ zrel.ID ++ bytes "," ++ zobject.ID ++ bytes ")"
  else
    bytes "rectangle \" " ++ zdef.Name ++ bytes " is declared more that one in relation " ++
      zrel.Name ++ bytes " of definition " ++ zdef.Name ++ bytes "\" #red "

/-- The lines of the relation `zrel` of `zdef` in the second loop of `Generate`. -/
def zrelLines (zdef : ZDef) (zrel : ZRelation) : List GoString :=
  if zrel.ID = NOTDRAW then
    [bytes "rectangle \"relation " ++ zrel.Name ++ bytes " is duplicated in definition " ++
      zdef.Name ++ bytes " \" #red"]
  else
    [bytes "Business_Object(" ++ zrel.ID ++ bytes ",\"" ++ zrel.Name ++ bytes "\") <<relation>>",
     bytes "Rel_Association(" ++ zdef.ID ++ bytes "," ++ zrel.ID ++ bytes ")"] ++
    zrel.Zobjects.map (zobjectLine zdef zrel)

/-- The line of an object-set reference of the relation `zrel` of `zdef`. -/
def zobjectSetLine (zdef : ZDef) (zrel : ZRelation) (zobjectSet : ZobjectSet) : GoString :=
  if zobjectSet.ID = NOTDRAW then
    bytes "rectangle \"definition " ++ zobjectSet.Name ++ bytes " does not exist in \" #red"
  else if zobjectSet.IDRelation = NOTDRAW then
    bytes "rectangle \"  " ++ zobjectSet.Name ++ bytes "#" ++ zobjectSet.Relation ++
      bytes " in definition " ++ zdef.Name ++ bytes "  : relation " ++ zobjectSet.Relation ++
      bytes " does not exist in " ++ zobjectSet.Name ++ bytes " \"  #red"
  else if zobjectSet.Unique = true then
    bytes "Rel_Access_w(" ++ zobjectSet.IDRelation ++ bytes "," ++ zrel.ID ++ bytes ",\"" ++
      zobjectSet.Name ++ bytes "#" ++ zobjectSet.Relation ++ bytes "\")"
  else
    bytes "rectangle \"  " ++ zobjectSet.Name ++ bytes "#" ++ zobjectSet.Relation ++
      bytes " declared more that one in relation " ++ zrel.Name ++ bytes " of definition " ++
      zdef.Name ++ bytes " \"  #red"

/-- The line of a wildcard reference of the relation `zrel` of `zdef`. -/
def zobjectWildCardLine (zdef : ZDef) (zrel : ZRelation) (zobjectWildCard : ZobjectWildCard) :
    GoString :=
  if zobjectWildCard.ID = NOTDRAW then
    bytes "rectangle \"definition " ++ zobjectWildCard.Name ++ bytes " does not exist in \" #red"
  else if zobjectWildCard.Unique = true then
    bytes "Rel_Access_w(" ++ zrel.ID ++ bytes "," ++ zobjectWildCard.ID ++ bytes ",\"" ++
      bytes "ALL" ++ bytes "\")"
  else
    bytes "rectangle \"wildcard  " ++ zobjectWildCard.Name ++
      bytes ":* is declared more than one in relation " ++ zrel.Name ++ bytes " of definition " ++
      zdef.Name ++ bytes "\" #red"

/-- The lines that a loop over all relations of all definitions appends to `out`, when the
body of the loop appends `f zdef zrel`. -/
def linesOfRelations (f : ZDef → ZRelation → List GoString) : List ZDef → List GoString
  | [] => []
  | zdef :: rest => (zdef.Relations.map (f zdef)).flatten ++ linesOfRelations f rest

/-- The lines of `out` after the header, for the resolved definitions `zdefs`. -/
def bodyLines (zdefs : List ZDef) : List GoString :=
  zdefs.map (fun zdef =>
    bytes "Business_Object(" ++ zdef.ID ++ bytes ",\"" ++ zdef.Name ++ bytes "\")") ++
  linesOfRelations zrelLines zdefs ++
  linesOfRelations (fun zdef zrel => zrel.ZobjectSets.map (zobjectSetLine zdef zrel)) zdefs ++
  linesOfRelations
    (fun zdef zrel => zrel.ZobjectWildCards.map (zobjectWildCardLine zdef zrel)) zdefs ++
  [bytes "@enduml"]

/-- The slice `out` of `Generate` for the resolved definitions `zdefs`. -/
def generateLines (zdefs : List ZDef) (pngfilename : GoString) : List GoString :=
  [bytes "@startuml " ++ pngfilename, bytes "!include <archimate/Archimate>",
   bytes "scale 1.0", bytes "skinparam dpi 96"] ++ bodyLines zdefs

/-- The resolution followed by the text of the diagram: the schema as `Generate` leaves it
and the string it returns. -/
def PlantUMLArchimateSchema.Generate (s : PlantUMLArchimateSchema) (pngfilename : GoString) :
    PlantUMLArchimateSchema × GoString :=
  let s := s.createIDforZdef
  (s, join (generateLines s.Zdefs pngfilename) (bytes "\n"))

/-! ## The pipeline of `zreader.go` -/

/-- The answers of the operating system to the two calls that `writeOutFile` makes on the
file `filename`: the error of `os.Create(filename)` and the error of
`file.WriteString(content)`, each as the text of `err.Error()`; `none` is the `nil` error. -/
structure FileSystem where
  Create : GoString → Option GoString
  WriteString : GoString → GoString → Option GoString

/-- What `main` asks of the outside, apart from the diagnostics of the resolution: a line
printed by `fmt.Println` (without the newline that ends it), and the calls `os.Create(filename)`,
`file.WriteString(content)` and `file.Close()` on the file `filename`. A call is recorded
whether it succeeds or not: the file exists after `Create` when the answer of the file system
to it is `none`, and it holds the whole content after `WriteString` when that answer is `none`
as well. -/
inductive Effect where
  | Println (text : GoString)
  | Create (filename : GoString)
  | WriteString (filename content : GoString)
  | Close (filename : GoString)
  deriving DecidableEq, Repr

/-- The function `writeOutFile` of `zreader.go`: when `os.Create` fails, the error is printed
and nothing is written; otherwise the content is passed to `WriteString`, whose error is
printed if there is one, and the deferred `file.Close()` runs at the return. The `é` of the
two messages is the bytes 195 and 169 of the source. -/
def writeOutFile (fs : FileSystem) (content outname : GoString) : List Effect :=
  let filename := outname ++ bytes ".puml"
  match fs.Create filename with
  | some err =>
    [Effect.Create filename,
     Effect.Println (bytes "Erreur lors de la cr" ++ [195, 169] ++ bytes "ation du fichier: " ++ err)]
  | none =>
    match fs.WriteString filename content with
    | some err =>
      [Effect.Create filename, Effect.WriteString filename content,
       Effect.Println
         (bytes "Erreur lors de l'" ++ [195, 169] ++ bytes "criture dans le fichier: " ++ err),
       Effect.Close filename]
    | none =>
      [Effect.Create filename, Effect.WriteString filename content, Effect.Close filename]

/-- The function `main` of `zreader.go` from `lexer := zinterpreter.NewLexer(input)` on, for the
text `input`, the value `out` of the flag `-out` and the answers `fs` of the operating system:
the effects in the order of the source. -/
def main (fs : FileSystem) (input out : GoString) : Option (List Effect) :=
  let lexer := (NewLexer input).NextToken
  match lexer.ReadZSchema with
  | none => none
  | some (_, zschema, err) =>
    let report :=
      match err with
      | some e => Effect.Println (bytes "syntax error: " ++ e)
      | none => Effect.Println (bytes "parsed schema is done.")
    let mydraw : PlantUMLArchimateSchema := { Zdefs := zschema }
    let archimatePlantUml := (mydraw.Generate out).2
    some (report :: writeOutFile fs archimatePlantUml out ++
      [Effect.Println (bytes "Generating " ++ out ++ bytes ".puml is done.")])

/-- A file system in which the directory `nodir` does not exist, and every file elsewhere can
be created and written. -/
def withoutNodir : FileSystem where
  Create := fun filename =>
    if hasPrefix filename (bytes "nodir/") then
      some (bytes "open " ++ filename ++ bytes ": no such file or directory")
    else none
  WriteString := fun _ _ => none

/-- A file system in which every file can be created and no byte can be written. -/
def fullDisk : FileSystem where
  Create := fun _ => none
  WriteString := fun filename _ =>
    some (bytes "write " ++ filename ++ bytes ": no space left on device")

/-! ## Reading a resolved schema -/

/-- The definitions after the resolution of a schema that holds `zdefs` only, as the tests
build it: `mydraw := PlantUMLArchimateSchema{Zdefs: z}; mydraw.createIDforZdef()`. -/
def resolved (zdefs : List ZDef) : List ZDef :=
  (PlantUMLArchimateSchema.createIDforZdef { Zdefs := zdefs }).Zdefs

/-- The relation at position `r` of the definition at position `d`. -/
def relationAt (zdefs : List ZDef) (d r : Nat) : Option ZRelation :=
  zdefs[d]?.bind (fun zdef => zdef.Relations[r]?)

/-- The plain reference at position `j` of the relation at `d`, `r`. -/
def plainAt (zdefs : List ZDef) (d r j : Nat) : Option Zobject :=
  (relationAt zdefs d r).bind (fun zrel => zrel.Zobjects[j]?)

/-- The object-set reference at position `j` of the relation at `d`, `r`. -/
def setAt (zdefs : List ZDef) (d r j : Nat) : Option ZobjectSet :=
  (relationAt zdefs d r).bind (fun zrel => zrel.ZobjectSets[j]?)

/-- The wildcard reference at position `j` of the relation at `d`, `r`. -/
def wildAt (zdefs : List ZDef) (d r j : Nat) : Option ZobjectWildCard :=
  (relationAt zdefs d r).bind (fun zrel => zrel.ZobjectWildCards[j]?)

/-! ## Devices of the proofs -/

/-- The schema after the identifiers of the definitions and of the relations have been
given and the map has been filled: the state in which the six passes over the references
start. -/
def numbered (zdefs : List ZDef) : PlantUMLArchimateSchema :=
  (({ Zdefs := zdefIDLoop 0 [] zdefs } :
    PlantUMLArchimateSchema).createIDforZdefRelations).initZdefMap

/-- What the six passes over the references do to one relation, when the lookups are made
in `s`. -/
def resolveRelation (s : PlantUMLArchimateSchema) (zrel : ZRelation) : ZRelation :=
  { zrel with
    Zobjects := uniqueObjectLoop [] (zrel.Zobjects.map s.assignZobject),
    ZobjectSets := uniqueSetLoop [] (zrel.ZobjectSets.map s.assignZobjectSet),
    ZobjectWildCards :=
      uniqueWildCardLoop [] (zrel.ZobjectWildCards.map s.assignZobjectWildCard) }

/-- The flags of a loop that marks the first occurrence of every key: `keys` are the keys
seen before the list. -/
def firstSeen : List GoString → List GoString → List Bool
  | _, [] => []
  | keys, n :: rest =>
    if contains keys n then false :: firstSeen keys rest
    else true :: firstSeen (keys ++ [n]) rest

/-- A change of a relation that keeps its name and its identifier. -/
def KeepsHead (H : ZRelation → ZRelation) : Prop :=
  ∀ zrel, (H zrel).Name = zrel.Name ∧ (H zrel).ID = zrel.ID

/-- The schema `s` after a pass that does `H` to every relation. -/
def withRelations (H : ZRelation → ZRelation) (s : PlantUMLArchimateSchema) :
    PlantUMLArchimateSchema :=
  { s with Zdefs := forEachRelation (fun _ => H) s.Zdefs }

/-- A change of a relation that rewrites its three lists of references only. -/
def onRefs (fo : List Zobject → List Zobject) (fs : List ZobjectSet → List ZobjectSet)
    (fw : List ZobjectWildCard → List ZobjectWildCard) (zrel : ZRelation) : ZRelation :=
  { zrel with
    Zobjects := fo zrel.Zobjects,
    ZobjectSets := fs zrel.ZobjectSets,
    ZobjectWildCards := fw zrel.ZobjectWildCards }

/-- The bytes that the identifier loop of the lexer accepts. -/
def identChar (b : Nat) : Bool := isLetter b || isDigit b || b == 95

/-- The value of an identifier token is made of identifier bytes. -/
def IdentOK (l : Lexer) : Prop :=
  l.currentItem.Token = IdentifierToken → ∀ b ∈ l.currentItem.Value, identChar b = true

/-- The names of the object-set references of a relation are made of identifier bytes. -/
def RelOK (zrel : ZRelation) : Prop :=
  ∀ o ∈ zrel.ZobjectSets, ∀ b ∈ o.Name, identChar b = true

/-- The same for every relation of a definition. -/
def DefOK (zdef : ZDef) : Prop := ∀ zrel ∈ zdef.Relations, RelOK zrel

/-- The same for every definition of a list. -/
def SchemaOK (zdefs : List ZDef) : Prop := ∀ zdef ∈ zdefs, DefOK zdef

/-- The schema `definition d { relation r: a#b | a#c | a#b }`, as the parser returns it. -/
def exampleSetPairs : List ZDef :=
  [{ Name := bytes "d",
     Relations := [{ Name := bytes "r",
                     ZobjectSets := [{ Name := bytes "a", Relation := bytes "b" },
                                     { Name := bytes "a", Relation := bytes "c" },
                                     { Name := bytes "a", Relation := bytes "b" }] }] }]

/-- The tokens that successive calls of `NextToken` return, up to and including the first
`EOFToken`, and at most `n` of them. -/
def tokenStream : Nat → Lexer → List Item
  | 0, _ => []
  | n + 1, l =>
    let l1 := l.NextToken
    l1.currentItem :: (if l1.currentItem.Token = EOFToken then [] else tokenStream n l1)

/-- The schema `definition user { } definition user { }`, as the parser returns it. -/
def exampleTwoUsers : List ZDef := [{ Name := bytes "user" }, { Name := bytes "user" }]

/-- The schema `definition u { } definition g { relation m: u } definition d { relation r: u
relation r: g#m | u:* }`, as the parser returns it. -/
def exampleEdgesOfDuplicate : List ZDef :=
  [{ Name := bytes "u" },
   { Name := bytes "g",
     Relations := [{ Name := bytes "m", Zobjects := [{ Name := bytes "u" }] }] },
   { Name := bytes "d",
     Relations := [{ Name := bytes "r", Zobjects := [{ Name := bytes "u" }] },
                   { Name := bytes "r",
                     ZobjectSets := [{ Name := bytes "g", Relation := bytes "m" }],
                     ZobjectWildCards := [{ Name := bytes "u" }] }] }]

/-- The schema `definition user { } definition doc { relation r: user | user }`, as the parser
returns it. -/
def exampleRepeatedUser : List ZDef :=
  [{ Name := bytes "user" },
   { Name := bytes "doc",
     Relations := [{ Name := bytes "r",
                     Zobjects := [{ Name := bytes "user" }, { Name := bytes "user" }] }] }]

/-- The number of references of the whole schema, when `n` counts those of a relation. -/
def countRefs (n : ZRelation → Nat) (zdefs : List ZDef) : Nat :=
  (zdefs.map (fun zdef => (zdef.Relations.map n).sum)).sum

/-- The number that a string of decimal digits writes. -/
def decimalValue (ds : GoString) : Nat := ds.foldl (fun a c => a * 10 + (c - 48)) 0

/-- Every definition of the list has the empty identifier, as the parser leaves it. -/
def FreshID (zdefs : List ZDef) : Prop := ∀ zd ∈ zdefs, zd.ID = []

/-- The schema `definition a { } definition b { } definition a { } definition b { }`, as the
parser returns it. -/
def exampleABAB : List ZDef :=
  [{ Name := bytes "a" }, { Name := bytes "b" }, { Name := bytes "a" }, { Name := bytes "b" }]

/-- The schema `definition user { } definition doc { relation r: user | ghost }`, as the
parser returns it. -/
def exampleDanglingPlain : List ZDef :=
  [{ Name := bytes "user" },
   { Name := bytes "doc",
     Relations := [{ Name := bytes "r",
                     Zobjects := [{ Name := bytes "user" }, { Name := bytes "ghost" }] }] }]

/-- The number of relations of the definitions before position `d`. -/
def relationsBefore (zdefs : List ZDef) (d : Nat) : Nat :=
  ((zdefs.take d).map (fun zdef => zdef.Relations.length)).sum

/-- The lexer stands at the end of `pre` in the input `pre ++ rest`, and its length is that
of its input. -/
def At (l : Lexer) (pre rest : GoString) : Prop :=
  l.input = pre ++ rest ∧ l.pos = pre.length ∧ l.length = l.input.length

/-- The strings that the lexer reads as one identifier token: a letter followed by letters,
digits and underscores, that does not begin with a keyword. -/
def isIdentifier (X : GoString) : Bool :=
  match X with
  | [] => false
  | c :: _ =>
    isLetter c && X.all identChar && !hasPrefix X (bytes "definition") &&
      !hasPrefix X (bytes "relation")

/-- The lexer `l` when the text `p` is put before its input and `it` is its current item. -/
def shift (p : GoString) (it : Item) (l : Lexer) : Lexer :=
  { input := p ++ l.input, pos := l.pos + p.length, length := l.length + p.length,
    currentItem := it }

/-- The cases of `NextToken` once the white space has been eaten: `NextToken l` is
`lexNext l.eatSpace`. -/
def lexNext (l : Lexer) : Lexer :=
  if l.pos ≥ l.length then
    { l with currentItem := { Token := EOFToken, Value := [] } }
  else if hasPrefix (l.input.drop l.pos) (bytes "definition") then
    { l with currentItem := { Token := DefinitionToken, Value := bytes "definition" },
             pos := l.pos + (bytes "definition").length }
  else if hasPrefix (l.input.drop l.pos) (bytes "relation") then
    { l with currentItem := { Token := RelationToken, Value := bytes "relation" },
             pos := l.pos + (bytes "relation").length }
  else if l.cur == 58 then
    { l with currentItem := { Token := ColonToken, Value := bytes ":" }, pos := l.pos + 1 }
  else if l.cur == 124 then
    { l with currentItem := { Token := OrToken, Value := bytes "|" }, pos := l.pos + 1 }
  else if l.cur == 123 then
    { l with currentItem := { Token := LeftBraceToken, Value := bytes "\x7b" }, pos := l.pos + 1 }
  else if l.cur == 125 then
    { l with currentItem := { Token := RightBraceToken, Value := bytes "\x7d" }, pos := l.pos + 1 }
  else if l.cur == 35 then
    { l with currentItem := { Token := HashToken, Value := bytes "#" }, pos := l.pos + 1 }
  else if l.cur == 42 then
    { l with currentItem := { Token := WildCard, Value := bytes "*" }, pos := l.pos + 1 }
  else if isLetter l.cur then
    let l1 := identLoop (l.length - l.pos) l
    { l1 with currentItem := { Token := IdentifierToken, Value := slice l.input l.pos l1.pos } }
  else
    { l with currentItem := { Token := InvalidToken, Value := runeString l.cur },
             pos := l.pos + 1 }

/-- The lexer as `NewLexer` builds it and as `NextToken` keeps it: `length` is the length of
the input and the cursor is not beyond it. -/
def InBounds (l : Lexer) : Prop := l.length = l.input.length ∧ l.pos ≤ l.length

/-- The lexer `l1` is a later state of the lexer `l`: it is in bounds, on the same input, and
its cursor is not before that of `l`. -/
def Later (l l1 : Lexer) : Prop := InBounds l1 ∧ l1.input = l.input ∧ l.pos ≤ l1.pos

/-- A plain reference as the grammar gives it: its name, without the annotations `ID`,
`myZDef` and `Unique`. -/
def stripObject (o : Zobject) : Zobject := { Name := o.Name }

/-- An object-set reference as the grammar gives it: its two names, without the annotations
`ID`, `IDRelation` and `Unique`. -/
def stripSet (o : ZobjectSet) : ZobjectSet := { Name := o.Name, Relation := o.Relation }

/-- A wildcard reference as the grammar gives it: its name, without the annotations `ID` and
`Unique`. -/
def stripWildCard (o : ZobjectWildCard) : ZobjectWildCard := { Name := o.Name }

/-- A relation as the grammar gives it: its name and its three lists of references in their
order, without the annotations `ID` and `myZDef`. -/
def stripRelation (zrel : ZRelation) : ZRelation :=
  { Name := zrel.Name,
    Zobjects := zrel.Zobjects.map stripObject,
    ZobjectSets := zrel.ZobjectSets.map stripSet,
    ZobjectWildCards := zrel.ZobjectWildCards.map stripWildCard }

/-- A definition as the grammar gives it: its name and its relations in their order, without
the annotation `ID`. -/
def stripDef (zdef : ZDef) : ZDef :=
  { Name := zdef.Name, Relations := zdef.Relations.map stripRelation }

/-- The item of an identifier. -/
def identItem (name : GoString) : Item := { Token := IdentifierToken, Value := name }

/-- The item of a keyword or of a symbol: the token and its text. -/
def tokenItem (t : Token) : Item := { Token := t, Value := TokenToString t }

/-- One `<Sname>` of the grammar: `name`, `name#relation` or `name:*`. -/
inductive Sname where
  | plain (name : GoString)
  | set (name relation : GoString)
  | wild (name : GoString)
  deriving DecidableEq, Repr

/-- The tokens of one `<Sname>`. -/
def Sname.items : Sname → List Item
  | .plain name => [identItem name]
  | .set name relation => [identItem name, tokenItem HashToken, identItem relation]
  | .wild name => [identItem name, tokenItem ColonToken, tokenItem WildCard]

/-- The relation `z` with one more reference, as the loop of `readZRelation` appends it. -/
def Sname.addTo (z : ZRelation) : Sname → ZRelation
  | .plain name => { z with Zobjects := z.Zobjects ++ [{ Name := name }] }
  | .set name relation =>
    { z with ZobjectSets := z.ZobjectSets ++ [{ Name := name, Relation := relation }] }
  | .wild name => { z with ZobjectWildCards := z.ZobjectWildCards ++ [{ Name := name }] }

/-- The references of a relation in the order in which they are printed: the plain
references first, then the object-set references, then the wildcard references. -/
def snamesOf (zrel : ZRelation) : List Sname :=
  zrel.Zobjects.map (fun o => Sname.plain o.Name) ++
  zrel.ZobjectSets.map (fun o => Sname.set o.Name o.Relation) ++
  zrel.ZobjectWildCards.map (fun o => Sname.wild o.Name)

/-- The tokens of a list of references joined by `|`. -/
def orSeparated : List Sname → List Item
  | [] => []
  | [s] => s.items
  | s :: t :: rest => s.items ++ tokenItem OrToken :: orSeparated (t :: rest)

/-- The tokens of a relation: `relation <Rname> : <Sname> | ... | <Sname>`. -/
def relationItems (zrel : ZRelation) : List Item :=
  [tokenItem RelationToken, identItem zrel.Name, tokenItem ColonToken] ++
    orSeparated (snamesOf zrel)

/-- The tokens of a definition: `definition <Zname> { <Zrelation>* }`. -/
def defItems (zdef : ZDef) : List Item :=
  [tokenItem DefinitionToken, identItem zdef.Name, tokenItem LeftBraceToken] ++
    (zdef.Relations.map relationItems).flatten ++ [tokenItem RightBraceToken]

/-- The tokens of a schema. -/
def schemaItems (zdefs : List ZDef) : List Item := (zdefs.map defItems).flatten

/-- The schema printed as grammar text: its tokens separated by single spaces. The source
has no printer; this is the printing that the property of the round trip speaks of. -/
def printSchema (zdefs : List ZDef) : GoString :=
  join ((schemaItems zdefs).map (fun it => it.Value)) (bytes " ")

/-- The ASCII letters. -/
def asciiLetter (b : Nat) : Bool := (65 ≤ b && b ≤ 90) || (97 ≤ b && b ≤ 122)

/-- A name that starts with an ASCII letter, is made of ASCII letters, digits and
underscores, and does not begin with `definition` or `relation`. -/
def asciiName (X : GoString) : Bool :=
  match X with
  | [] => false
  | c :: _ =>
    asciiLetter c && X.all (fun b => asciiLetter b || isDigit b || b == 95) &&
      !hasPrefix X (bytes "definition") && !hasPrefix X (bytes "relation")

/-- The names of a relation and of its references are such names, and the relation has at
least one reference. -/
def printableRelation (zrel : ZRelation) : Bool :=
  asciiName zrel.Name && zrel.Zobjects.all (fun o => asciiName o.Name) &&
    zrel.ZobjectSets.all (fun o => asciiName o.Name && asciiName o.Relation) &&
    zrel.ZobjectWildCards.all (fun o => asciiName o.Name) &&
    decide (0 < zrel.Zobjects.length + zrel.ZobjectSets.length + zrel.ZobjectWildCards.length)

/-- The same for a definition: its name and its relations. -/
def printableDef (zdef : ZDef) : Bool :=
  asciiName zdef.Name && zdef.Relations.all printableRelation

/-- The same for every definition of a schema. -/
def printableSchema (zdefs : List ZDef) : Bool := zdefs.all printableDef

/-- The items that the lexer reads back from their text: an identifier of the lexer, or a
keyword or a symbol with its own text. -/
def readable (it : Item) : Bool :=
  match it.Token with
  | IdentifierToken => isIdentifier it.Value
  | EOFToken => false
  | InvalidToken => false
  | t => it.Value == TokenToString t

/-- The text of a list of items, every item after one space. -/
def spaced : List Item → GoString
  | [] => []
  | it :: its => 32 :: it.Value ++ spaced its

/-- The lexer `l` has `its` before it: its current item is the first of them, and the next
calls of `NextToken` return the others in their order. -/
def Reads : Lexer → List Item → Prop
  | _, [] => True
  | l, it :: its => l.currentItem = it ∧ Reads l.NextToken its

/-- A schema of three definitions whose last relation has one reference of each kind,
without annotations. -/
def exampleDocument : List ZDef :=
  [{ Name := bytes "user" },
   { Name := bytes "group",
     Relations := [{ Name := bytes "member", Zobjects := [{ Name := bytes "user" }] }] },
   { Name := bytes "document",
     Relations := [{ Name := bytes "reader",
                     Zobjects := [{ Name := bytes "user" }],
                     ZobjectSets := [{ Name := bytes "group", Relation := bytes "member" }],
                     ZobjectWildCards := [{ Name := bytes "user" }] }] }]

/-- The lexer `l` on the first `n` bytes of its input. -/
def cut (n : Nat) (l : Lexer) : Lexer :=
  { l with input := l.input.take n, length := min n l.length }

/-- A closing brace that is the current token stands just before the cursor. -/
def BraceBefore (l : Lexer) : Prop :=
  l.currentItem.Token = RightBraceToken → 0 < l.pos ∧ l.input[l.pos - 1]? = some 125

/-- A schema with the relation `r: group#member | group#member`. -/
def exampleRepeatedSet : List ZDef :=
  [{ Name := bytes "doc",
     Relations := [{ Name := bytes "r",
                     ZobjectSets := [{ Name := bytes "group", Relation := bytes "member" },
                                     { Name := bytes "group", Relation := bytes "member" }] }] }]

/-- A schema with the relation `r: a | b | a | a:* | a:*`. -/
def exampleRepeatedPlain : List ZDef :=
  [{ Name := bytes "doc",
     Relations := [{ Name := bytes "r",
                     Zobjects := [{ Name := bytes "a" }, { Name := bytes "b" },
                                  { Name := bytes "a" }],
                     ZobjectWildCards := [{ Name := bytes "a" }, { Name := bytes "a" }] }] }]

/-- The schema of the test `TestDoubleRelationInDefinition`, as the parser returns it. -/
def exampleDoubleSet : List ZDef :=
  [{ Name := bytes "user" },
   { Name := bytes "document",
     Relations := [{ Name := bytes "reader",
                     Zobjects := [{ Name := bytes "user" }],
                     ZobjectSets := [{ Name := bytes "group", Relation := bytes "member" },
                                     { Name := bytes "group", Relation := bytes "member" }] },
                   { Name := bytes "member", Zobjects := [{ Name := bytes "user" }] }] },
   { Name := bytes "group",
     Relations := [{ Name := bytes "member", Zobjects := [{ Name := bytes "user" }] }] }]

/-- The schema `definition user { } definition group { relation member: user relation
member: user } definition doc { relation reader: group#member }`, as the parser returns it. -/
def exampleDoubleRelation : List ZDef :=
  [{ Name := bytes "user" },
   { Name := bytes "group",
     Relations := [{ Name := bytes "member", Zobjects := [{ Name := bytes "user" }] },
                   { Name := bytes "member", Zobjects := [{ Name := bytes "user" }] }] },
   { Name := bytes "doc",
     Relations := [{ Name := bytes "reader",
                     ZobjectSets := [{ Name := bytes "group", Relation := bytes "member" }] }] }]

/-! # Theorems -/

set_option maxRecDepth 100000

/-! ## Evaluations on concrete schemas -/

/-- C1: on `definition user { } definition user { } definition doc { relation r: user }` the
first `user` gets `b1`, the second keeps the empty identifier, and the reference `user` of
relation `r` gets the empty identifier of the second one, not `b1`; the same holds for an
object-set and a wildcard reference to `user`. -/
theorem duplicate_definition_reference_gets_empty_ID :
    (Parse (bytes
        "definition user { } definition user { } definition doc { relation r: user }")).map
      (fun p => (p.2, (resolved p.1).map (fun zdef => zdef.ID),
        (plainAt (resolved p.1) 2 0 0).map (fun o => o.ID)))
      = some (none, [bytes "b1", bytes "", bytes "b3"], some (bytes "")) ∧
    (Parse (bytes
        "definition user { } definition user { } definition doc { relation r: user#m | user:* }")).map
      (fun p => (p.2, (setAt (resolved p.1) 2 0 0).map (fun o => o.ID),
        (wildAt (resolved p.1) 2 0 0).map (fun o => o.ID)))
      = some (none, some (bytes ""), some (bytes "")) := by
  constructor <;> decide

/-- C3: `definition X { relation r: }` and `definition X { relation r: a | }` are parsed
without error: the first gives a relation `r` without any reference, the second a relation
`r` with the single plain reference `a`. -/
theorem relation_without_sname_is_accepted :
    Parse (bytes "definition X { relation r: }")
      = some ([{ Name := bytes "X", Relations := [{ Name := bytes "r" }] }], none) ∧
    Parse (bytes "definition X { relation r: a | }")
      = some ([{ Name := bytes "X",
                 Relations := [{ Name := bytes "r", Zobjects := [{ Name := bytes "a" }] }] }],
              none) := by
  constructor <;> decide

/-- C4, as the claim states it, fails: on the truncated text `definition X {` the parser
returns an error, and `main` still calls `writeOutFile`: on a file system that lets the file be
created and written, the text that `Generate` returns for the empty list of definitions is
written to `out.puml`. -/
theorem main_writes_file_after_syntax_error :
    Parse (bytes "definition X \x7b") = some ([], some (bytes "expected token '\x7d', but got ''")) ∧
    main withoutNodir (bytes "definition X \x7b") (bytes "out") = some
      [Effect.Println (bytes "syntax error: expected token '\x7d', but got ''"),
       Effect.Create (bytes "out.puml"),
       Effect.WriteString (bytes "out.puml")
         (bytes "@startuml out\n!include <archimate/Archimate>\nscale 1.0\nskinparam dpi 96\n@enduml"),
       Effect.Close (bytes "out.puml"),
       Effect.Println (bytes "Generating out.puml is done.")] := by
  constructor <;> decide

/-- C4, amended: when `ReadZSchema` returns a syntax error, `main` prints it and goes on to
`writeOutFile` with the text that `Generate` returns for the definitions that came with the
error. It calls `os.Create` on the file `out + ".puml"`. If that fails, its error is printed
and nothing is written. Otherwise the text is passed to `WriteString` on that file, the error
of the writing is printed if there is one, and the file is closed. In the three cases the
last line printed is `Generating <out>.puml is done.`. -/
theorem main_generates_after_syntax_error (fs : FileSystem) (input out : GoString)
    (zschema : List ZDef) (err : GoString) (h : Parse input = some (zschema, some err)) :
    (∀ e, fs.Create (out ++ bytes ".puml") = some e →
      main fs input out = some
        [Effect.Println (bytes "syntax error: " ++ err),
         Effect.Create (out ++ bytes ".puml"),
         Effect.Println
           (bytes "Erreur lors de la cr" ++ [195, 169] ++ bytes "ation du fichier: " ++ e),
         Effect.Println (bytes "Generating " ++ out ++ bytes ".puml is done.")]) ∧
    (∀ e, fs.Create (out ++ bytes ".puml") = none →
      fs.WriteString (out ++ bytes ".puml")
        (PlantUMLArchimateSchema.Generate { Zdefs := zschema } out).2 = some e →
      main fs input out = some
        [Effect.Println (bytes "syntax error: " ++ err),
         Effect.Create (out ++ bytes ".puml"),
         Effect.WriteString (out ++ bytes ".puml")
           (PlantUMLArchimateSchema.Generate { Zdefs := zschema } out).2,
         Effect.Println
           (bytes "Erreur lors de l'" ++ [195, 169] ++ bytes "criture dans le fichier: " ++ e),
         Effect.Close (out ++ bytes ".puml"),
         Effect.Println (bytes "Generating " ++ out ++ bytes ".puml is done.")]) ∧
    (fs.Create (out ++ bytes ".puml") = none →
      fs.WriteString (out ++ bytes ".puml")
        (PlantUMLArchimateSchema.Generate { Zdefs := zschema } out).2 = none →
      main fs input out = some
        [Effect.Println (bytes "syntax error: " ++ err),
         Effect.Create (out ++ bytes ".puml"),
         Effect.WriteString (out ++ bytes ".puml")
           (PlantUMLArchimateSchema.Generate { Zdefs := zschema } out).2,
         Effect.Close (out ++ bytes ".puml"),
         Effect.Println (bytes "Generating " ++ out ++ bytes ".puml is done.")]) := by
  unfold Parse at h
  cases hr : (NewLexer input).NextToken.ReadZSchema with
  | none => rw [hr] at h; simp at h
  | some r =>
    obtain ⟨l, zs, e0⟩ := r
    rw [hr] at h
    simp only [Option.map_some', Option.some.injEq, Prod.mk.injEq] at h
    obtain ⟨h1, h2⟩ := h
    subst h1 h2
    refine ⟨fun e hc => ?_, fun e hc hw => ?_, fun hc hw => ?_⟩
    · unfold main
      simp only [hr, writeOutFile, hc]
      rfl
    · unfold main
      simp only [hr, writeOutFile, hc, hw]
      rfl
    · unfold main
      simp only [hr, writeOutFile, hc, hw]
      rfl

/-- The amended C4 at the text `definition a { } definition b {`, whose parsing returns the
definition `a` and an error. With `-out out` on a file system that accepts the file, the
diagram of `a` is written to `out.puml`; with `-out nodir/x`, where the directory is missing,
the file cannot be created and nothing is written; on a full disk the file is created and
the writing fails. The last line is printed in the three runs. -/
theorem main_generates_after_syntax_error_witness :
    Parse (bytes "definition a \x7b \x7d definition b \x7b")
      = some ([{ Name := bytes "a" }], some (bytes "expected token '\x7d', but got ''")) ∧
    main withoutNodir (bytes "definition a \x7b \x7d definition b \x7b") (bytes "out") = some
      [Effect.Println (bytes "syntax error: " ++ bytes "expected token '\x7d', but got ''"),
       Effect.Create (bytes "out" ++ bytes ".puml"),
       Effect.WriteString (bytes "out" ++ bytes ".puml")
         (PlantUMLArchimateSchema.Generate { Zdefs := [{ Name := bytes "a" }] } (bytes "out")).2,
       Effect.Close (bytes "out" ++ bytes ".puml"),
       Effect.Println (bytes "Generating " ++ bytes "out" ++ bytes ".puml is done.")] ∧
    main withoutNodir (bytes "definition a \x7b \x7d definition b \x7b") (bytes "nodir/x") = some
      [Effect.Println (bytes "syntax error: " ++ bytes "expected token '\x7d', but got ''"),
       Effect.Create (bytes "nodir/x" ++ bytes ".puml"),
       Effect.Println
         (bytes "Erreur lors de la cr" ++ [195, 169] ++ bytes "ation du fichier: " ++
           bytes "open nodir/x.puml: no such file or directory"),
       Effect.Println (bytes "Generating " ++ bytes "nodir/x" ++ bytes ".puml is done.")] ∧
    main fullDisk (bytes "definition a \x7b \x7d definition b \x7b") (bytes "out") = some
      [Effect.Println (bytes "syntax error: " ++ bytes "expected token '\x7d', but got ''"),
       Effect.Create (bytes "out" ++ bytes ".puml"),
       Effect.WriteString (bytes "out" ++ bytes ".puml")
         (PlantUMLArchimateSchema.Generate { Zdefs := [{ Name := bytes "a" }] } (bytes "out")).2,
       Effect.Println
         (bytes "Erreur lors de l'" ++ [195, 169] ++ bytes "criture dans le fichier: " ++
           bytes "write out.puml: no space left on device"),
       Effect.Close (bytes "out" ++ bytes ".puml"),
       Effect.Println (bytes "Generating " ++ bytes "out" ++ bytes ".puml is done.")] :=
  ⟨by decide,
   (main_generates_after_syntax_error withoutNodir
      (bytes "definition a \x7b \x7d definition b \x7b") (bytes "out")
      [{ Name := bytes "a" }] (bytes "expected token '\x7d', but got ''") (by decide)).2.2
      (by decide) (by decide),
   (main_generates_after_syntax_error withoutNodir
      (bytes "definition a \x7b \x7d definition b \x7b") (bytes "nodir/x")
      [{ Name := bytes "a" }] (bytes "expected token '\x7d', but got ''") (by decide)).1
      (bytes "open nodir/x.puml: no such file or directory") (by decide),
   (main_generates_after_syntax_error fullDisk
      (bytes "definition a \x7b \x7d definition b \x7b") (bytes "out")
      [{ Name := bytes "a" }] (bytes "expected token '\x7d', but got ''") (by decide)).2.1
      (bytes "write out.puml: no space left on device") (by decide) (by decide)⟩

/-- C6: `definition user { } definition document { relation reader: user:* }` is parsed
without error, its wildcard reference gets the identifier `b1` of `user` and `Unique = true`,
and `Generate` returns the ten lines of the claim, joined by newlines, for every title. -/
theorem wildcard_example_output (t : GoString) :
    ∃ zdefs,
      Parse (bytes "definition user \x7b \x7d definition document \x7b relation reader: user:* \x7d")
        = some (zdefs, none) ∧
      wildAt (resolved zdefs) 1 0 0
        = some { Name := bytes "user", ID := bytes "b1", Unique := true } ∧
      (PlantUMLArchimateSchema.Generate { Zdefs := zdefs } t).2 =
        join [bytes "@startuml " ++ t, bytes "!include <archimate/Archimate>",
          bytes "scale 1.0", bytes "skinparam dpi 96",
          bytes "Business_Object(b1,\"user\")", bytes "Business_Object(b2,\"document\")",
          bytes "Business_Object(r1,\"reader\") <<relation>>", bytes "Rel_Association(b2,r1)",
          bytes "Rel_Access_w(r1,b1,\"ALL\")", bytes "@enduml"] (bytes "\n") := by
  refine ⟨[{ Name := bytes "user" },
    { Name := bytes "document",
      Relations := [{ Name := bytes "reader",
                      ZobjectWildCards := [{ Name := bytes "user" }] }] }],
    by decide, by decide, ?_⟩
  have hb : bodyLines (resolved [{ Name := bytes "user" },
      { Name := bytes "document",
        Relations := [{ Name := bytes "reader",
                        ZobjectWildCards := [{ Name := bytes "user" }] }] }])
      = [bytes "Business_Object(b1,\"user\")", bytes "Business_Object(b2,\"document\")",
          bytes "Business_Object(r1,\"reader\") <<relation>>", bytes "Rel_Association(b2,r1)",
          bytes "Rel_Access_w(r1,b1,\"ALL\")", bytes "@enduml"] := by decide
  simp only [PlantUMLArchimateSchema.Generate, generateLines]
  rw [show (PlantUMLArchimateSchema.createIDforZdef { Zdefs := [{ Name := bytes "user" },
      { Name := bytes "document",
        Relations := [{ Name := bytes "reader",
                        ZobjectWildCards := [{ Name := bytes "user" }] }] }] }).Zdefs
      = resolved _ from rfl, hb]
  rfl

/-! ## The resolution, relation by relation -/

lemma forEachRelation_comp (f g : ZRelation → ZRelation) (z : List ZDef) :
    forEachRelation (fun _ => g) (forEachRelation (fun _ => f) z)
      = forEachRelation (fun _ => g ∘ f) z := by
  simp [forEachRelation, List.map_map, Function.comp_def]

lemma mapGet_map {β γ : Type} (H : β → γ) (m : List (GoString × β)) (k : GoString) :
    mapGet (m.map (fun p => (p.1, H p.2))) k = (mapGet m k).map H := by
  induction m with
  | nil => rfl
  | cons p m ih =>
    obtain ⟨a, b⟩ := p
    simp only [List.map_cons, mapGet]
    split <;> simp [ih]

lemma zrelMapLoop_map (H : ZRelation → ZRelation) (hH : ∀ r, (H r).Name = r.Name)
    (m : List (GoString × ZRelation)) (rels : List ZRelation) :
    zrelMapLoop (m.map (fun p => (p.1, H p.2))) (rels.map H)
      = (zrelMapLoop m rels).map (fun p => (p.1, H p.2)) := by
  induction rels generalizing m with
  | nil => rfl
  | cons r rels ih =>
    simp only [List.map_cons, zrelMapLoop, mapSet]
    rw [← ih]
    simp [hH]

lemma lookup_withRelations (H : ZRelation → ZRelation) (s : PlantUMLArchimateSchema)
    (n : GoString) :
    (withRelations H s).lookup n
      = (s.lookup n).map (fun d => { d with Relations := d.Relations.map H }) := by
  simp only [PlantUMLArchimateSchema.lookup, withRelations, forEachRelation]
  cases mapGet s.ZdefMap n with
  | none => rfl
  | some i => simp [List.getElem?_map]

lemma assignZobject_withRelations (H : ZRelation → ZRelation) (s : PlantUMLArchimateSchema) :
    (withRelations H s).assignZobject = s.assignZobject := by
  funext o
  simp only [PlantUMLArchimateSchema.assignZobject, lookup_withRelations]
  cases s.lookup o.Name <;> rfl

lemma assignZobjectWildCard_withRelations (H : ZRelation → ZRelation)
    (s : PlantUMLArchimateSchema) :
    (withRelations H s).assignZobjectWildCard = s.assignZobjectWildCard := by
  funext o
  simp only [PlantUMLArchimateSchema.assignZobjectWildCard, lookup_withRelations]
  cases s.lookup o.Name <;> rfl

lemma assignZobjectSet_withRelations (H : ZRelation → ZRelation) (hH : KeepsHead H)
    (s : PlantUMLArchimateSchema) :
    (withRelations H s).assignZobjectSet = s.assignZobjectSet := by
  funext o
  simp only [PlantUMLArchimateSchema.assignZobjectSet, lookup_withRelations,
    PlantUMLArchimateSchema.findZRelation, PlantUMLArchimateSchema.findZDef]
  cases s.lookup o.Name with
  | none => rfl
  | some d =>
    simp only [Option.map_some']
    cases s.lookup d.Name with
    | none => rfl
    | some d2 =>
      simp only [Option.map_some']
      have h := zrelMapLoop_map H (fun r => (hH r).1) [] d2.Relations
      simp only [List.map_nil] at h
      rw [h, mapGet_map]
      cases mapGet (zrelMapLoop [] d2.Relations) o.Relation with
      | none => rfl
      | some r => simp [(hH r).2]

lemma withRelations_comp (f g : ZRelation → ZRelation) (s : PlantUMLArchimateSchema) :
    withRelations g (withRelations f s) = withRelations (g ∘ f) s := by
  simp only [withRelations, forEachRelation_comp]

lemma createIDforZdef_eq (s : PlantUMLArchimateSchema) :
    s.createIDforZdef
      = withRelations (resolveRelation (numbered s.Zdefs)) (numbered s.Zdefs) := by
  have e4 : ∀ t : PlantUMLArchimateSchema, t.verifyAndAssignIDforZobjectInRelations
      = withRelations (fun zrel => { zrel with Zobjects := zrel.Zobjects.map t.assignZobject }) t :=
    fun _ => rfl
  have e5 : ∀ t : PlantUMLArchimateSchema, t.verifyUniqueObjectForEachRelation
      = withRelations (fun zrel => { zrel with Zobjects := uniqueObjectLoop [] zrel.Zobjects }) t :=
    fun _ => rfl
  have e6 : ∀ t : PlantUMLArchimateSchema, t.verifyAndAssignIDInRelationsforZobjectSet
      = withRelations
          (fun zrel => { zrel with ZobjectSets := zrel.ZobjectSets.map t.assignZobjectSet }) t :=
    fun _ => rfl
  have e7 : ∀ t : PlantUMLArchimateSchema, t.verifyUniqueSetObjectForEachRelation
      = withRelations
          (fun zrel => { zrel with ZobjectSets := uniqueSetLoop [] zrel.ZobjectSets }) t :=
    fun _ => rfl
  have e8 : ∀ t : PlantUMLArchimateSchema, t.verifyAndAssignIDInRelationsforZobjectWildCard
      = withRelations (fun zrel =>
          { zrel with ZobjectWildCards :=
              zrel.ZobjectWildCards.map t.assignZobjectWildCard }) t :=
    fun _ => rfl
  have e9 : ∀ t : PlantUMLArchimateSchema, t.verifyUniqueObjectWildCardForEachRelation
      = withRelations (fun zrel =>
          { zrel with ZobjectWildCards := uniqueWildCardLoop [] zrel.ZobjectWildCards }) t :=
    fun _ => rfl
  have e0 : s.createIDforZdef = ((((((numbered s.Zdefs).verifyAndAssignIDforZobjectInRelations
      ).verifyUniqueObjectForEachRelation).verifyAndAssignIDInRelationsforZobjectSet
      ).verifyUniqueSetObjectForEachRelation).verifyAndAssignIDInRelationsforZobjectWildCard
      ).verifyUniqueObjectWildCardForEachRelation := rfl
  rw [e0, e4, e5, withRelations_comp, e6]
  rw [assignZobjectSet_withRelations
    ((fun zrel : ZRelation => { zrel with Zobjects := uniqueObjectLoop [] zrel.Zobjects }) ∘
      (fun zrel : ZRelation =>
        { zrel with Zobjects := zrel.Zobjects.map (numbered s.Zdefs).assignZobject }))
    (fun _ => ⟨rfl, rfl⟩) (numbered s.Zdefs)]
  rw [withRelations_comp, e7, withRelations_comp, e8, assignZobjectWildCard_withRelations,
    withRelations_comp, e9, withRelations_comp]
  rfl

lemma resolved_eq (zdefs : List ZDef) :
    resolved zdefs
      = forEachRelation (fun _ => resolveRelation (numbered zdefs)) (numbered zdefs).Zdefs := by
  unfold resolved
  rw [createIDforZdef_eq]
  rfl

/-! ## The flags of first occurrences -/

lemma contains_iff (l : List GoString) (x : GoString) : contains l x = true ↔ x ∈ l := by
  induction l with
  | nil => simp [contains]
  | cons a l ih =>
    simp only [contains, List.mem_cons]
    by_cases h : a = x
    · simp [h]
    · simp only [h, if_false, ih]
      constructor
      · exact Or.inr
      · rintro (h' | h')
        · exact absurd h'.symm h
        · exact h'

lemma firstSeen_length (keys ns : List GoString) : (firstSeen keys ns).length = ns.length := by
  induction ns generalizing keys with
  | nil => rfl
  | cons n ns ih =>
    simp only [firstSeen]
    split <;> simp [ih]

/-- The flag at position `j` is `true` exactly when the key is not among `keys` nor among
the keys before position `j`. -/
lemma firstSeen_getElem (keys ns : List GoString) (j : Nat) (n : GoString)
    (h : ns[j]? = some n) :
    ∃ b, (firstSeen keys ns)[j]? = some b ∧
      (b = true ↔ n ∉ keys ∧ ∀ i, i < j → ns[i]? ≠ some n) := by
  induction ns generalizing keys j with
  | nil => simp at h
  | cons a ns ih =>
    cases j with
    | zero =>
      simp only [List.getElem?_cons_zero, Option.some.injEq] at h
      subst h
      simp only [firstSeen]
      by_cases hc : contains keys a = true
      · refine ⟨false, by simp [hc], ?_⟩
        simp [(contains_iff keys a).1 hc]
      · refine ⟨true, by simp [hc], ?_⟩
        have : a ∉ keys := fun hm => hc ((contains_iff keys a).2 hm)
        simp [this]
    | succ j =>
      simp only [List.getElem?_cons_succ] at h
      simp only [firstSeen]
      by_cases hc : contains keys a = true
      · obtain ⟨b, hb, hiff⟩ := ih keys j h
        refine ⟨b, by simp [hc, hb], ?_⟩
        rw [hiff]
        constructor
        · rintro ⟨h1, h2⟩
          refine ⟨h1, fun i hi => ?_⟩
          cases i with
          | zero =>
            simp only [List.getElem?_cons_zero, ne_eq, Option.some.injEq]
            rintro rfl
            exact h1 ((contains_iff keys _).1 hc)
          | succ i =>
            simp only [List.getElem?_cons_succ]
            exact h2 i (by omega)
        · rintro ⟨h1, h2⟩
          refine ⟨h1, fun i hi => ?_⟩
          have := h2 (i + 1) (by omega)
          simpa using this
      · obtain ⟨b, hb, hiff⟩ := ih (keys ++ [a]) j h
        refine ⟨b, by simp [hc, hb], ?_⟩
        rw [hiff]
        constructor
        · rintro ⟨h1, h2⟩
          simp only [List.mem_append, List.mem_singleton, not_or] at h1
          refine ⟨h1.1, fun i hi => ?_⟩
          cases i with
          | zero =>
            simp only [List.getElem?_cons_zero, ne_eq, Option.some.injEq]
            exact fun e => h1.2 e.symm
          | succ i =>
            simp only [List.getElem?_cons_succ]
            exact h2 i (by omega)
        · rintro ⟨h1, h2⟩
          have h0 := h2 0 (by omega)
          simp only [List.getElem?_cons_zero, ne_eq, Option.some.injEq] at h0
          refine ⟨?_, fun i hi => ?_⟩
          · simp only [List.mem_append, List.mem_singleton, not_or]
            exact ⟨h1, fun e => h0 e.symm⟩
          · have := h2 (i + 1) (by omega)
            simpa using this

lemma uniqueObjectLoop_eq (keys : List GoString) (objs : List Zobject) :
    uniqueObjectLoop keys objs
      = List.zipWith (fun o b => { o with Unique := b }) objs
          (firstSeen keys (objs.map (fun o => o.Name))) := by
  induction objs generalizing keys with
  | nil => rfl
  | cons o objs ih =>
    simp only [uniqueObjectLoop, List.map_cons, firstSeen]
    split <;> simp [ih]

lemma uniqueSetLoop_eq (keys : List GoString) (objs : List ZobjectSet) :
    uniqueSetLoop keys objs
      = List.zipWith (fun o b => { o with Unique := b }) objs
          (firstSeen keys (objs.map setKey)) := by
  induction objs generalizing keys with
  | nil => rfl
  | cons o objs ih =>
    simp only [uniqueSetLoop, List.map_cons, firstSeen]
    split <;> simp [ih]

lemma uniqueWildCardLoop_eq (keys : List GoString) (objs : List ZobjectWildCard) :
    uniqueWildCardLoop keys objs
      = List.zipWith (fun o b => { o with Unique := b }) objs
          (firstSeen keys (objs.map (fun o => o.Name))) := by
  induction objs generalizing keys with
  | nil => rfl
  | cons o objs ih =>
    simp only [uniqueWildCardLoop, List.map_cons, firstSeen]
    split <;> simp [ih]

/-! ## The references after the resolution -/

lemma zdefIDLoop_relations (i : Nat) (m : List (GoString × GoString)) (z : List ZDef) :
    (zdefIDLoop i m z).map (fun d => (d.Name, d.Relations))
      = z.map (fun d => (d.Name, d.Relations)) := by
  induction z generalizing i m with
  | nil => rfl
  | cons d z ih =>
    simp only [zdefIDLoop, List.map_cons]
    split <;> simp [ih]

lemma relIDLoop_map {α : Type} (P : ZRelation → α)
    (hP : ∀ (zrel : ZRelation) (id : GoString) (m : Option Nat),
      P { zrel with ID := id, myZDef := m } = P zrel)
    (di c : Nat) (names : List GoString) (rels : List ZRelation) :
    (relIDLoop di c names rels).1.map P = rels.map P := by
  induction rels generalizing c names with
  | nil => rfl
  | cons zrel rels ih =>
    simp only [relIDLoop, List.map_cons]
    split
    · simp only [List.map_cons, ih, List.cons.injEq, and_true]
      exact hP zrel NOTDRAW zrel.myZDef
    · simp only [List.map_cons, ih, List.cons.injEq, and_true]
      exact hP zrel _ _

lemma defRelIDLoop_map {α : Type} (P : ZRelation → α)
    (hP : ∀ (zrel : ZRelation) (id : GoString) (m : Option Nat),
      P { zrel with ID := id, myZDef := m } = P zrel)
    (i c : Nat) (z : List ZDef) :
    (defRelIDLoop i c z).map (fun d => (d.Name, d.ID, d.Relations.map P))
      = z.map (fun d => (d.Name, d.ID, d.Relations.map P)) := by
  induction z generalizing i c with
  | nil => rfl
  | cons d z ih =>
    simp only [defRelIDLoop, List.map_cons, ih, relIDLoop_map P hP]

lemma relationAt_map {α : Type} (P : ZRelation → α) (z : List ZDef) (d r : Nat) :
    (relationAt z d r).map P
      = ((z.map (fun zd => zd.Relations.map P))[d]?).bind (fun l => l[r]?) := by
  simp only [relationAt, List.getElem?_map]
  cases z[d]? <;> simp [List.getElem?_map]

lemma relationAt_numbered {α : Type} (P : ZRelation → α)
    (hP : ∀ (zrel : ZRelation) (id : GoString) (m : Option Nat),
      P { zrel with ID := id, myZDef := m } = P zrel)
    (z : List ZDef) (d r : Nat) :
    (relationAt (numbered z).Zdefs d r).map P = (relationAt z d r).map P := by
  rw [relationAt_map, relationAt_map]
  have h1 := congrArg (List.map (fun t : GoString × GoString × List α => t.2.2))
    (defRelIDLoop_map P hP 0 0 (zdefIDLoop 0 [] z))
  have h2 := congrArg (List.map (fun t : GoString × List ZRelation => t.2.map P))
    (zdefIDLoop_relations 0 [] z)
  simp only [List.map_map, Function.comp_def] at h1 h2
  have : (numbered z).Zdefs = defRelIDLoop 0 0 (zdefIDLoop 0 [] z) := rfl
  rw [this, h1, h2]

lemma relationAt_forEachRelation (H : ZRelation → ZRelation) (z : List ZDef) (d r : Nat) :
    relationAt (forEachRelation (fun _ => H) z) d r = (relationAt z d r).map H := by
  simp only [relationAt, forEachRelation, List.getElem?_map]
  cases z[d]? <;> simp [List.getElem?_map]

lemma relationAt_resolved (z : List ZDef) (d r : Nat) :
    relationAt (resolved z) d r
      = (relationAt (numbered z).Zdefs d r).map (resolveRelation (numbered z)) := by
  rw [resolved_eq, relationAt_forEachRelation]

lemma assignZobject_Name (s : PlantUMLArchimateSchema) (o : Zobject) :
    (s.assignZobject o).Name = o.Name := by
  unfold PlantUMLArchimateSchema.assignZobject
  split <;> rfl

lemma assignZobjectWildCard_Name (s : PlantUMLArchimateSchema) (o : ZobjectWildCard) :
    (s.assignZobjectWildCard o).Name = o.Name := by
  unfold PlantUMLArchimateSchema.assignZobjectWildCard
  split <;> rfl

lemma assignZobjectSet_Name (s : PlantUMLArchimateSchema) (o : ZobjectSet) :
    (s.assignZobjectSet o).Name = o.Name ∧ (s.assignZobjectSet o).Relation = o.Relation := by
  unfold PlantUMLArchimateSchema.assignZobjectSet
  split
  · split <;> exact ⟨rfl, rfl⟩
  · exact ⟨rfl, rfl⟩

/-- The element at position `j` of a list whose flags are those of `firstSeen`. -/
lemma flagged_getElem {α : Type} (key : α → GoString) (setU : α → Bool → α) (objs : List α)
    (j : Nat) (o : α) (h : objs[j]? = some o) :
    ∃ b, (List.zipWith setU objs (firstSeen [] (objs.map key)))[j]? = some (setU o b) ∧
      (b = true ↔ ∀ i, i < j → ∀ oi, objs[i]? = some oi → key oi ≠ key o) := by
  have hj : (objs.map key)[j]? = some (key o) := by simp [List.getElem?_map, h]
  obtain ⟨b, hb, hiff⟩ := firstSeen_getElem [] _ j (key o) hj
  refine ⟨b, ?_, ?_⟩
  · rw [List.getElem?_zipWith_eq_some]
    exact ⟨_, b, h, hb, rfl⟩
  · rw [hiff]
    simp only [List.not_mem_nil, not_false_eq_true, true_and, List.getElem?_map]
    constructor
    · intro h1 i hi oi hoi e
      exact h1 i hi (by simp [hoi, e])
    · intro h1 i hi e
      cases hoi : objs[i]? with
      | none => simp [hoi] at e
      | some oi =>
        simp only [hoi, Option.map_some', Option.some.injEq] at e
        exact h1 i hi oi hoi e

/-- The same for a list that went through a map `a` that keeps the keys. -/
lemma flagged_map_getElem {α : Type} (key : α → GoString) (setU : α → Bool → α) (a : α → α)
    (ha : ∀ x, key (a x) = key x) (objs : List α)
    (j : Nat) (o : α) (h : objs[j]? = some o) :
    ∃ b, (List.zipWith setU (objs.map a) (firstSeen [] ((objs.map a).map key)))[j]?
        = some (setU (a o) b) ∧
      (b = true ↔ ∀ i, i < j → ∀ oi, objs[i]? = some oi → key oi ≠ key o) := by
  have hj : (objs.map a)[j]? = some (a o) := by simp [List.getElem?_map, h]
  obtain ⟨b, hb, hiff⟩ := flagged_getElem key setU (objs.map a) j (a o) hj
  refine ⟨b, hb, ?_⟩
  rw [hiff]
  simp only [List.getElem?_map, ha]
  constructor
  · intro h1 i hi oi hoi
    have := h1 i hi (a oi) (by simp [hoi])
    simpa [ha] using this
  · intro h1 i hi oi hoi
    cases hx : objs[i]? with
    | none => simp [hx] at hoi
    | some x =>
      simp only [hx, Option.map_some', Option.some.injEq] at hoi
      subst hoi
      rw [ha]
      exact h1 i hi x hx

/-- The relation at a position after the resolution, from the relation before it. -/
lemma relationAt_resolved_of (z : List ZDef) (d r : Nat) (zrel : ZRelation)
    (h : relationAt z d r = some zrel) :
    ∃ nrel, relationAt (numbered z).Zdefs d r = some nrel ∧
      relationAt (resolved z) d r = some (resolveRelation (numbered z) nrel) ∧
      nrel.Name = zrel.Name ∧ nrel.Zobjects = zrel.Zobjects ∧
      nrel.ZobjectSets = zrel.ZobjectSets ∧ nrel.ZobjectWildCards = zrel.ZobjectWildCards := by
  have hrel := relationAt_numbered
    (fun zrel => (zrel.Name, zrel.Zobjects, zrel.ZobjectSets, zrel.ZobjectWildCards))
    (fun _ _ _ => rfl) z d r
  rw [h] at hrel
  cases hn : relationAt (numbered z).Zdefs d r with
  | none => rw [hn] at hrel; simp at hrel
  | some nrel =>
    rw [hn] at hrel
    simp only [Option.map_some', Option.some.injEq, Prod.mk.injEq] at hrel
    exact ⟨nrel, rfl, by rw [relationAt_resolved, hn]; rfl, hrel⟩

/-- The plain reference at a position after the resolution: the reference with its
identifier assigned and the flag of a first occurrence of its name in its relation. -/
lemma plainAt_resolved (z : List ZDef) (d r j : Nat) (o : Zobject)
    (h : plainAt z d r j = some o) :
    ∃ b, plainAt (resolved z) d r j
        = some { (numbered z).assignZobject o with Unique := b } ∧
      (b = true ↔ ∀ i, i < j → ∀ oi, plainAt z d r i = some oi → oi.Name ≠ o.Name) := by
  unfold plainAt at h ⊢
  cases hz : relationAt z d r with
  | none => rw [hz] at h; simp at h
  | some zrel =>
    obtain ⟨nrel, _, hres, _, hobj, _, _⟩ := relationAt_resolved_of z d r zrel hz
    rw [hz] at h
    simp only [Option.some_bind] at h
    simp only [hres, Option.some_bind, resolveRelation, hobj, uniqueObjectLoop_eq]
    exact flagged_map_getElem (fun o : Zobject => o.Name) (fun o b => { o with Unique := b })
      (numbered z).assignZobject (assignZobject_Name _) zrel.Zobjects j o h

/-- The wildcard reference at a position after the resolution. -/
lemma wildAt_resolved (z : List ZDef) (d r j : Nat) (o : ZobjectWildCard)
    (h : wildAt z d r j = some o) :
    ∃ b, wildAt (resolved z) d r j
        = some { (numbered z).assignZobjectWildCard o with Unique := b } ∧
      (b = true ↔ ∀ i, i < j → ∀ oi, wildAt z d r i = some oi → oi.Name ≠ o.Name) := by
  unfold wildAt at h ⊢
  cases hz : relationAt z d r with
  | none => rw [hz] at h; simp at h
  | some zrel =>
    obtain ⟨nrel, _, hres, _, _, _, hobj⟩ := relationAt_resolved_of z d r zrel hz
    rw [hz] at h
    simp only [Option.some_bind] at h
    simp only [hres, Option.some_bind, resolveRelation, hobj, uniqueWildCardLoop_eq]
    exact flagged_map_getElem (fun o : ZobjectWildCard => o.Name)
      (fun o b => { o with Unique := b })
      (numbered z).assignZobjectWildCard (assignZobjectWildCard_Name _)
      zrel.ZobjectWildCards j o h

lemma assignZobjectSet_setKey (s : PlantUMLArchimateSchema) (o : ZobjectSet) :
    setKey (s.assignZobjectSet o) = setKey o := by
  unfold setKey
  rw [(assignZobjectSet_Name s o).1, (assignZobjectSet_Name s o).2]

/-- The object-set reference at a position after the resolution. -/
lemma setAt_resolved (z : List ZDef) (d r j : Nat) (o : ZobjectSet)
    (h : setAt z d r j = some o) :
    ∃ b, setAt (resolved z) d r j
        = some { (numbered z).assignZobjectSet o with Unique := b } ∧
      (b = true ↔ ∀ i, i < j → ∀ oi, setAt z d r i = some oi → setKey oi ≠ setKey o) := by
  unfold setAt at h ⊢
  cases hz : relationAt z d r with
  | none => rw [hz] at h; simp at h
  | some zrel =>
    obtain ⟨nrel, _, hres, _, _, hobj, _⟩ := relationAt_resolved_of z d r zrel hz
    rw [hz] at h
    simp only [Option.some_bind] at h
    simp only [hres, Option.some_bind, resolveRelation, hobj, uniqueSetLoop_eq]
    exact flagged_map_getElem setKey (fun o b => { o with Unique := b })
      (numbered z).assignZobjectSet (assignZobjectSet_setKey _) zrel.ZobjectSets j o h

/-! ## Uniqueness flags -/

/-- C7, as the claim states it, fails: in the relation `reader` of the schema of the test
`TestDoubleRelationInDefinition`, which lists `group#member` twice, the first occurrence has
`Unique = true` after the resolution and only the second has `Unique = false`. -/
theorem first_of_repeated_set_reference_is_unique :
    Parse (bytes ("definition user \x7b \x7d definition document \x7b relation reader: user | " ++
        "group#member | group#member relation member: user \x7d " ++
        "definition group \x7b relation member: user \x7d "))
      = some (exampleDoubleSet, none) ∧
    (setAt (resolved exampleDoubleSet) 1 0 0).map (fun o => (setKey o, o.Unique))
      = some (bytes "group#member", true) ∧
    (setAt (resolved exampleDoubleSet) 1 0 1).map (fun o => (setKey o, o.Unique))
      = some (bytes "group#member", false) := by
  refine ⟨?_, ?_, ?_⟩ <;> decide

/-- C7, amended: when a relation lists the same object-set reference `name#relation` at the
positions `i < j`, the occurrence at `j` has `Unique = false` after the resolution, and the
occurrence at `i` has `Unique = true` when no reference before it in the relation has the
same text `name#relation`. -/
theorem repeated_set_reference_flags (zdefs : List ZDef) (d r i j : Nat) (oi oj : ZobjectSet)
    (hi : setAt zdefs d r i = some oi) (hj : setAt zdefs d r j = some oj) (hij : i < j)
    (hname : oi.Name = oj.Name) (hrel : oi.Relation = oj.Relation) :
    (∃ o, setAt (resolved zdefs) d r j = some o ∧ o.Unique = false) ∧
    ((∀ k ok, k < i → setAt zdefs d r k = some ok → setKey ok ≠ setKey oi) →
      ∃ o, setAt (resolved zdefs) d r i = some o ∧ o.Unique = true) := by
  constructor
  · obtain ⟨b, hb, hiff⟩ := setAt_resolved zdefs d r j oj hj
    refine ⟨_, hb, ?_⟩
    cases b with
    | false => rfl
    | true =>
      exact absurd (by simp only [setKey, hname, hrel]) (hiff.1 rfl i hij oi hi)
  · intro hfirst
    obtain ⟨b, hb, hiff⟩ := setAt_resolved zdefs d r i oi hi
    refine ⟨_, hb, ?_⟩
    exact hiff.2 (fun k hk ok hok => hfirst k ok hk hok)

/-- The amended C7 on a relation `r: group#member | group#member`: the second occurrence
is not unique and the first, which has no reference before it, is. -/
theorem repeated_set_reference_flags_witness :
    (∃ o, setAt (resolved exampleRepeatedSet) 0 0 1 = some o ∧ o.Unique = false) ∧
    (∃ o, setAt (resolved exampleRepeatedSet) 0 0 0 = some o ∧ o.Unique = true) :=
  ⟨(repeated_set_reference_flags exampleRepeatedSet 0 0 0 1
      { Name := bytes "group", Relation := bytes "member" }
      { Name := bytes "group", Relation := bytes "member" }
      (by decide) (by decide) (by decide) rfl rfl).1,
   (repeated_set_reference_flags exampleRepeatedSet 0 0 0 1
      { Name := bytes "group", Relation := bytes "member" }
      { Name := bytes "group", Relation := bytes "member" }
      (by decide) (by decide) (by decide) rfl rfl).2
      (fun k _ hk => absurd hk (Nat.not_lt_zero k))⟩

/-- C8: after the resolution a plain reference, and likewise a wildcard reference, has
`Unique = true` if and only if no earlier reference of the same kind in the same relation
has the same name; the condition reads the relation of the reference only, so no other
relation or definition has a part in the flag. -/
theorem unique_iff_no_earlier_same_name (zdefs : List ZDef) (d r j : Nat) :
    (∀ o, plainAt zdefs d r j = some o →
      ∃ o', plainAt (resolved zdefs) d r j = some o' ∧ o'.Name = o.Name ∧
        (o'.Unique = true ↔
          ∀ i, i < j → ∀ oi, plainAt zdefs d r i = some oi → oi.Name ≠ o.Name)) ∧
    (∀ w, wildAt zdefs d r j = some w →
      ∃ w', wildAt (resolved zdefs) d r j = some w' ∧ w'.Name = w.Name ∧
        (w'.Unique = true ↔
          ∀ i, i < j → ∀ wi, wildAt zdefs d r i = some wi → wi.Name ≠ w.Name)) := by
  constructor
  · intro o h
    obtain ⟨b, hb, hiff⟩ := plainAt_resolved zdefs d r j o h
    exact ⟨_, hb, assignZobject_Name _ o, hiff⟩
  · intro w h
    obtain ⟨b, hb, hiff⟩ := wildAt_resolved zdefs d r j w h
    exact ⟨_, hb, assignZobjectWildCard_Name _ w, hiff⟩

/-- C8 on the relation `r: a | b | a | a:* | a:*`: the third plain reference and the second
wildcard reference. -/
theorem unique_iff_no_earlier_same_name_witness :
    (∃ o', plainAt (resolved exampleRepeatedPlain) 0 0 2 = some o' ∧ o'.Name = bytes "a" ∧
      (o'.Unique = true ↔
        ∀ i, i < 2 → ∀ oi, plainAt exampleRepeatedPlain 0 0 i = some oi →
          oi.Name ≠ bytes "a")) ∧
    (∃ w', wildAt (resolved exampleRepeatedPlain) 0 0 1 = some w' ∧ w'.Name = bytes "a" ∧
      (w'.Unique = true ↔
        ∀ i, i < 1 → ∀ wi, wildAt exampleRepeatedPlain 0 0 i = some wi →
          wi.Name ≠ bytes "a")) :=
  ⟨(unique_iff_no_earlier_same_name exampleRepeatedPlain 0 0 2).1 { Name := bytes "a" }
      (by decide),
   (unique_iff_no_earlier_same_name exampleRepeatedPlain 0 0 1).2 { Name := bytes "a" }
      (by decide)⟩

/-! ## The relation of an object-set reference -/

/-- C10: in `definition user { } definition group { relation member: user relation member:
user } definition doc { relation reader: group#member }` the definition `group` exists and has
a relation `member`, drawn as `r1`, and still the reference `group#member` gets
`IDRelation = "NOTDRAW"`: the lookup returns the second relation `member`, the duplicate. -/
theorem set_reference_to_repeated_relation_is_not_drawn :
    Parse (bytes ("definition user \x7b \x7d definition group \x7b relation member: user " ++
        "relation member: user \x7d definition doc \x7b relation reader: group#member \x7d"))
      = some (exampleDoubleRelation, none) ∧
    (relationAt (resolved exampleDoubleRelation) 1 0).map (fun zrel => (zrel.Name, zrel.ID))
      = some (bytes "member", bytes "r1") ∧
    (relationAt (resolved exampleDoubleRelation) 1 1).map (fun zrel => (zrel.Name, zrel.ID))
      = some (bytes "member", bytes "NOTDRAW") ∧
    (setAt (resolved exampleDoubleRelation) 2 0 0).map (fun o => (o.ID, o.IDRelation))
      = some (bytes "b2", bytes "NOTDRAW") := by
  refine ⟨?_, ?_, ?_, ?_⟩ <;> decide

/-! ## The resolution of a resolved schema -/

lemma zdefIDLoop_forEachRelation (H : ZRelation → ZRelation) (i : Nat)
    (m : List (GoString × GoString)) (x : List ZDef) :
    zdefIDLoop i m (forEachRelation (fun _ => H) x)
      = forEachRelation (fun _ => H) (zdefIDLoop i m x) := by
  induction x generalizing i m with
  | nil => rfl
  | cons d x ih =>
    simp only [forEachRelation, List.map_cons, zdefIDLoop] at ih ⊢
    split <;> simp [ih]

lemma relIDLoop_onRefs (fo : List Zobject → List Zobject)
    (fs : List ZobjectSet → List ZobjectSet)
    (fw : List ZobjectWildCard → List ZobjectWildCard) (di c : Nat) (names : List GoString) (rels : List ZRelation) :
    relIDLoop di c names (rels.map (onRefs fo fs fw))
      = ((relIDLoop di c names rels).1.map (onRefs fo fs fw),
         (relIDLoop di c names rels).2) := by
  induction rels generalizing c names with
  | nil => rfl
  | cons r rels ih =>
    simp only [List.map_cons, relIDLoop]
    have hn : (onRefs fo fs fw r).Name = r.Name := rfl
    rw [hn]
    split
    · rw [ih]; rfl
    · rw [ih]; rfl

lemma defRelIDLoop_onRefs (fo : List Zobject → List Zobject)
    (fs : List ZobjectSet → List ZobjectSet)
    (fw : List ZobjectWildCard → List ZobjectWildCard) (i c : Nat) (x : List ZDef) :
    defRelIDLoop i c (forEachRelation (fun _ => onRefs fo fs fw) x)
      = forEachRelation (fun _ => onRefs fo fs fw) (defRelIDLoop i c x) := by
  induction x generalizing i c with
  | nil => rfl
  | cons d x ih =>
    simp only [forEachRelation, List.map_cons, defRelIDLoop] at ih ⊢
    rw [relIDLoop_onRefs]
    simp only [ih]

lemma initZdefMapLoop_forEachRelation (H : ZRelation → ZRelation) (i : Nat)
    (m : List (GoString × Nat)) (x : List ZDef) :
    initZdefMapLoop i m (forEachRelation (fun _ => H) x) = initZdefMapLoop i m x := by
  induction x generalizing i m with
  | nil => rfl
  | cons d x ih =>
    simp only [forEachRelation, List.map_cons, initZdefMapLoop] at ih ⊢
    rw [ih]

lemma numbered_forEachRelation (fo : List Zobject → List Zobject)
    (fs : List ZobjectSet → List ZobjectSet)
    (fw : List ZobjectWildCard → List ZobjectWildCard) (x : List ZDef) :
    numbered (forEachRelation (fun _ => onRefs fo fs fw) x)
      = withRelations (onRefs fo fs fw) (numbered x) := by
  simp only [numbered, PlantUMLArchimateSchema.createIDforZdefRelations,
    PlantUMLArchimateSchema.initZdefMap, withRelations, zdefIDLoop_forEachRelation,
    defRelIDLoop_onRefs, initZdefMapLoop_forEachRelation]

/-! ## The numbering of a numbered schema -/

lemma zdefIDLoop_idem (i : Nat) (m : List (GoString × GoString)) (x : List ZDef) :
    zdefIDLoop i m (zdefIDLoop i m x) = zdefIDLoop i m x := by
  induction x generalizing i m with
  | nil => rfl
  | cons d x ih =>
    simp only [zdefIDLoop]
    split
    · rename_i h
      simp only [zdefIDLoop, h, ih]
    · rename_i h
      simp only [zdefIDLoop, h, ih]

lemma relIDLoop_idem (di c : Nat) (names : List GoString) (rels : List ZRelation) :
    relIDLoop di c names (relIDLoop di c names rels).1 = relIDLoop di c names rels := by
  induction rels generalizing c names with
  | nil => rfl
  | cons r rels ih =>
    simp only [relIDLoop]
    split
    · rename_i h
      simp only [relIDLoop, h, if_true, ih]
    · rename_i h
      simp only [relIDLoop, h, ih]
      simp

lemma defRelIDLoop_idem (i c : Nat) (x : List ZDef) :
    defRelIDLoop i c (defRelIDLoop i c x) = defRelIDLoop i c x := by
  induction x generalizing i c with
  | nil => rfl
  | cons d x ih =>
    simp only [defRelIDLoop, relIDLoop_idem, ih]

lemma zdefIDLoop_defRelIDLoop (i : Nat) (m : List (GoString × GoString)) (j c : Nat)
    (x : List ZDef) :
    zdefIDLoop i m (defRelIDLoop j c x) = defRelIDLoop j c (zdefIDLoop i m x) := by
  induction x generalizing i m j c with
  | nil => rfl
  | cons d x ih =>
    simp only [defRelIDLoop, zdefIDLoop]
    split <;> simp [defRelIDLoop, ih]

lemma numbered_numbered (x : List ZDef) : numbered (numbered x).Zdefs = numbered x := by
  have h : (numbered x).Zdefs = defRelIDLoop 0 0 (zdefIDLoop 0 [] x) := rfl
  have e : ∀ y, numbered y =
      PlantUMLArchimateSchema.mk (defRelIDLoop 0 0 (zdefIDLoop 0 [] y))
        (initZdefMapLoop 0 [] (defRelIDLoop 0 0 (zdefIDLoop 0 [] y))) := fun _ => rfl
  rw [h, e, e, zdefIDLoop_defRelIDLoop, zdefIDLoop_idem, defRelIDLoop_idem]

lemma uniqueObjectLoop_map (a : Zobject → Zobject) (hn : ∀ o, (a o).Name = o.Name)
    (hu : ∀ o b, a { o with Unique := b } = { a o with Unique := b })
    (keys : List GoString) (l : List Zobject) :
    uniqueObjectLoop keys (l.map a) = (uniqueObjectLoop keys l).map a := by
  induction l generalizing keys with
  | nil => rfl
  | cons o l ih =>
    simp only [List.map_cons, uniqueObjectLoop]
    rw [hn]
    split
    · rw [ih, List.map_cons, hu o false]
      simp only [hn]
    · rw [ih, List.map_cons, hu o true]
      simp only [hn]

lemma uniqueObjectLoop_idem (keys : List GoString) (l : List Zobject) :
    uniqueObjectLoop keys (uniqueObjectLoop keys l) = uniqueObjectLoop keys l := by
  induction l generalizing keys with
  | nil => rfl
  | cons o l ih =>
    simp only [uniqueObjectLoop]
    split
    · rename_i h
      simp only [uniqueObjectLoop, h, if_true, ih]
    · rename_i h
      simp only [uniqueObjectLoop, h, ih]
      simp

lemma uniqueSetLoop_map (a : ZobjectSet → ZobjectSet) (hn : ∀ o, setKey (a o) = setKey o)
    (hu : ∀ o b, a { o with Unique := b } = { a o with Unique := b })
    (keys : List GoString) (l : List ZobjectSet) :
    uniqueSetLoop keys (l.map a) = (uniqueSetLoop keys l).map a := by
  induction l generalizing keys with
  | nil => rfl
  | cons o l ih =>
    simp only [List.map_cons, uniqueSetLoop]
    rw [hn]
    split
    · rw [ih, List.map_cons, hu o false]
    · rw [ih, List.map_cons, hu o true]

lemma uniqueSetLoop_idem (keys : List GoString) (l : List ZobjectSet) :
    uniqueSetLoop keys (uniqueSetLoop keys l) = uniqueSetLoop keys l := by
  induction l generalizing keys with
  | nil => rfl
  | cons o l ih =>
    simp only [uniqueSetLoop]
    split
    · rename_i h
      have e : setKey { o with Unique := false } = setKey o := rfl
      simp only [uniqueSetLoop, e, h, if_true, ih]
    · rename_i h
      have e : setKey { o with Unique := true } = setKey o := rfl
      simp only [uniqueSetLoop, e, h, ih]
      simp

lemma uniqueWildCardLoop_map (a : ZobjectWildCard → ZobjectWildCard)
    (hn : ∀ o, (a o).Name = o.Name)
    (hu : ∀ o b, a { o with Unique := b } = { a o with Unique := b })
    (keys : List GoString) (l : List ZobjectWildCard) :
    uniqueWildCardLoop keys (l.map a) = (uniqueWildCardLoop keys l).map a := by
  induction l generalizing keys with
  | nil => rfl
  | cons o l ih =>
    simp only [List.map_cons, uniqueWildCardLoop]
    rw [hn]
    split
    · rw [ih, List.map_cons, hu o false]
      simp only [hn]
    · rw [ih, List.map_cons, hu o true]
      simp only [hn]

lemma uniqueWildCardLoop_idem (keys : List GoString) (l : List ZobjectWildCard) :
    uniqueWildCardLoop keys (uniqueWildCardLoop keys l) = uniqueWildCardLoop keys l := by
  induction l generalizing keys with
  | nil => rfl
  | cons o l ih =>
    simp only [uniqueWildCardLoop]
    split
    · rename_i h
      simp only [uniqueWildCardLoop, h, if_true, ih]
    · rename_i h
      simp only [uniqueWildCardLoop, h, ih]
      simp

lemma assignZobject_Unique (s : PlantUMLArchimateSchema) (o : Zobject) (b : Bool) :
    s.assignZobject { o with Unique := b } = { s.assignZobject o with Unique := b } := by
  unfold PlantUMLArchimateSchema.assignZobject
  cases s.lookup o.Name <;> rfl

lemma assignZobject_idem (s : PlantUMLArchimateSchema) (o : Zobject) :
    s.assignZobject (s.assignZobject o) = s.assignZobject o := by
  have hn := assignZobject_Name s o
  unfold PlantUMLArchimateSchema.assignZobject at hn ⊢
  cases h : s.lookup o.Name with
  | none => simp only [h]
  | some d => simp only [h]

lemma assignZobjectWildCard_Unique (s : PlantUMLArchimateSchema) (o : ZobjectWildCard)
    (b : Bool) :
    s.assignZobjectWildCard { o with Unique := b }
      = { s.assignZobjectWildCard o with Unique := b } := by
  unfold PlantUMLArchimateSchema.assignZobjectWildCard
  cases s.lookup o.Name <;> rfl

lemma assignZobjectWildCard_idem (s : PlantUMLArchimateSchema) (o : ZobjectWildCard) :
    s.assignZobjectWildCard (s.assignZobjectWildCard o) = s.assignZobjectWildCard o := by
  unfold PlantUMLArchimateSchema.assignZobjectWildCard
  cases h : s.lookup o.Name with
  | none => simp only [h]
  | some d => simp only [h]

lemma assignZobjectSet_Unique (s : PlantUMLArchimateSchema) (o : ZobjectSet) (b : Bool) :
    s.assignZobjectSet { o with Unique := b } = { s.assignZobjectSet o with Unique := b } := by
  unfold PlantUMLArchimateSchema.assignZobjectSet
  cases s.lookup o.Name with
  | none => rfl
  | some d =>
    simp only
    cases s.findZRelation d.Name o.Relation <;> rfl

lemma assignZobjectSet_idem (s : PlantUMLArchimateSchema) (o : ZobjectSet) :
    s.assignZobjectSet (s.assignZobjectSet o) = s.assignZobjectSet o := by
  unfold PlantUMLArchimateSchema.assignZobjectSet
  cases h : s.lookup o.Name with
  | none => simp only [h]
  | some d =>
    simp only
    cases h2 : s.findZRelation d.Name o.Relation with
    | error e => simp only [h, h2]
    | ok r => simp only [h, h2]

lemma resolveRelation_idem (s : PlantUMLArchimateSchema) (zrel : ZRelation) :
    resolveRelation s (resolveRelation s zrel) = resolveRelation s zrel := by
  simp only [resolveRelation]
  rw [uniqueObjectLoop_map _ (assignZobject_Name s) (assignZobject_Unique s),
    uniqueObjectLoop_idem, ← uniqueObjectLoop_map _ (assignZobject_Name s) (assignZobject_Unique s),
    uniqueSetLoop_map _ (assignZobjectSet_setKey s) (assignZobjectSet_Unique s),
    uniqueSetLoop_idem, ← uniqueSetLoop_map _ (assignZobjectSet_setKey s) (assignZobjectSet_Unique s),
    uniqueWildCardLoop_map _ (assignZobjectWildCard_Name s) (assignZobjectWildCard_Unique s),
    uniqueWildCardLoop_idem,
    ← uniqueWildCardLoop_map _ (assignZobjectWildCard_Name s) (assignZobjectWildCard_Unique s)]
  simp only [List.map_map]
  have e1 : s.assignZobject ∘ s.assignZobject = s.assignZobject :=
    funext (assignZobject_idem s)
  have e2 : s.assignZobjectSet ∘ s.assignZobjectSet = s.assignZobjectSet :=
    funext (assignZobjectSet_idem s)
  have e3 : s.assignZobjectWildCard ∘ s.assignZobjectWildCard = s.assignZobjectWildCard :=
    funext (assignZobjectWildCard_idem s)
  rw [e1, e2, e3]

lemma resolveRelation_withRelations (s : PlantUMLArchimateSchema) :
    resolveRelation (withRelations (resolveRelation s) s) = resolveRelation s := by
  funext zrel
  simp only [resolveRelation, assignZobject_withRelations, assignZobjectWildCard_withRelations]
  rw [assignZobjectSet_withRelations (resolveRelation s) (fun _ => ⟨rfl, rfl⟩) s]

/-- The resolution of a resolved schema changes nothing. -/
lemma createIDforZdef_idem (s : PlantUMLArchimateSchema) :
    s.createIDforZdef.createIDforZdef = s.createIDforZdef := by
  rw [createIDforZdef_eq s, createIDforZdef_eq]
  have hG : resolveRelation (numbered s.Zdefs)
      = onRefs (fun l => uniqueObjectLoop [] (l.map (numbered s.Zdefs).assignZobject))
          (fun l => uniqueSetLoop [] (l.map (numbered s.Zdefs).assignZobjectSet))
          (fun l => uniqueWildCardLoop [] (l.map (numbered s.Zdefs).assignZobjectWildCard)) :=
    rfl
  have hz : (withRelations (resolveRelation (numbered s.Zdefs)) (numbered s.Zdefs)).Zdefs
      = forEachRelation (fun _ => resolveRelation (numbered s.Zdefs)) (numbered s.Zdefs).Zdefs :=
    rfl
  rw [hz]
  have hn : numbered (forEachRelation (fun _ => resolveRelation (numbered s.Zdefs))
      (numbered s.Zdefs).Zdefs)
      = withRelations (resolveRelation (numbered s.Zdefs)) (numbered s.Zdefs) := by
    rw [hG, numbered_forEachRelation, numbered_numbered]
  rw [hn, resolveRelation_withRelations, withRelations_comp]
  congr 1
  funext zrel
  exact resolveRelation_idem _ zrel

/-- C5: a second call of `Generate` on the schema that the first call has annotated returns
the same text as the first call, and leaves the schema as the first call left it. This holds
for every schema, in particular for every list of definitions returned by `ReadZSchema`. -/
theorem generate_twice_same_text (s : PlantUMLArchimateSchema) (t : GoString) :
    ((s.Generate t).1.Generate t).2 = (s.Generate t).2 ∧
    ((s.Generate t).1.Generate t).1 = (s.Generate t).1 := by
  simp only [PlantUMLArchimateSchema.Generate, createIDforZdef_idem, and_self]

/-! ## The names that the parser returns -/

lemma identLoop_spec (fuel : Nat) (l : Lexer) :
    (identLoop fuel l).input = l.input ∧ l.pos ≤ (identLoop fuel l).pos ∧
      ∀ k, l.pos ≤ k → k < (identLoop fuel l).pos → identChar (l.input.getD k 0) = true := by
  induction fuel generalizing l with
  | zero =>
    exact ⟨rfl, le_refl _, fun k h1 h2 => absurd (show k < l.pos from h2) (by omega)⟩
  | succ fuel ih =>
    simp only [identLoop]
    split
    · rename_i h
      obtain ⟨h1, h2, h3⟩ := ih { l with pos := l.pos + 1 }
      simp only at h1 h2 h3
      refine ⟨h1, by omega, fun k hk1 hk2 => ?_⟩
      by_cases hk : k = l.pos
      · subst hk
        simp only [Bool.and_eq_true, decide_eq_true_eq] at h
        exact h.2
      · exact h3 k (by omega) hk2
    · exact ⟨rfl, le_refl _, fun k h1 h2 => absurd h2 (by omega)⟩

lemma mem_slice (s : GoString) (i j : Nat) (b : Nat) (h : b ∈ slice s i j) :
    ∃ k, i ≤ k ∧ k < j ∧ s.getD k 0 = b := by
  unfold slice at h
  obtain ⟨n, hn⟩ := List.getElem?_of_mem h
  rw [List.getElem?_drop, List.getElem?_take] at hn
  split at hn
  · rename_i hlt
    refine ⟨i + n, by omega, hlt, ?_⟩
    simp [List.getD, hn]
  · simp at hn

lemma eatSpaceLoop_item (fuel : Nat) (l : Lexer) :
    (eatSpaceLoop fuel l).currentItem = l.currentItem ∧
      (eatSpaceLoop fuel l).input = l.input := by
  induction fuel generalizing l with
  | zero => exact ⟨rfl, rfl⟩
  | succ fuel ih =>
    simp only [eatSpaceLoop]
    split
    · exact ih _
    · exact ⟨rfl, rfl⟩

lemma IdentOK_NextToken (l : Lexer) : IdentOK l.NextToken := by
  unfold IdentOK Lexer.NextToken
  lift_lets
  intro l' l1
  by_cases c1 : l'.pos ≥ l'.length
  · rw [if_pos c1]; intro h; cases h
  rw [if_neg c1]
  by_cases c2 : hasPrefix (List.drop l'.pos l'.input) (bytes "definition") = true
  · rw [if_pos c2]; intro h; cases h
  rw [if_neg c2]
  by_cases c3 : hasPrefix (List.drop l'.pos l'.input) (bytes "relation") = true
  · rw [if_pos c3]; intro h; cases h
  rw [if_neg c3]
  by_cases c4 : (l'.cur == 58) = true
  · rw [if_pos c4]; intro h; cases h
  rw [if_neg c4]
  by_cases c5 : (l'.cur == 124) = true
  · rw [if_pos c5]; intro h; cases h
  rw [if_neg c5]
  by_cases c6 : (l'.cur == 123) = true
  · rw [if_pos c6]; intro h; cases h
  rw [if_neg c6]
  by_cases c7 : (l'.cur == 125) = true
  · rw [if_pos c7]; intro h; cases h
  rw [if_neg c7]
  by_cases c8 : (l'.cur == 35) = true
  · rw [if_pos c8]; intro h; cases h
  rw [if_neg c8]
  by_cases c9 : (l'.cur == 42) = true
  · rw [if_pos c9]; intro h; cases h
  rw [if_neg c9]
  by_cases c10 : isLetter l'.cur = true
  · rw [if_pos c10]
    intro _ b hb
    obtain ⟨k, hk1, hk2, hk3⟩ := mem_slice _ _ _ _ hb
    have := (identLoop_spec (l'.length - l'.pos) l').2.2 k hk1 hk2
    rw [hk3] at this
    exact this
  · rw [if_neg c10]; intro h; cases h

lemma readSname_ok (l : Lexer) (z : ZRelation) (hl : IdentOK l)
    (ht : l.currentItem.Token = IdentifierToken) (hz : RelOK z) :
    IdentOK (readSname l z).1 ∧ RelOK (readSname l z).2.1 := by
  unfold readSname
  lift_lets
  intro _name l1 l2
  by_cases c1 : l1.currentItem.Token = HashToken
  · rw [if_pos c1]
    cases h : l2.readAndMatchToken IdentifierToken with
    | some err => exact ⟨IdentOK_NextToken _, hz⟩
    | none =>
      refine ⟨IdentOK_NextToken _, ?_⟩
      intro o ho
      simp only [List.mem_append, List.mem_singleton] at ho
      rcases ho with ho | ho
      · exact hz o ho
      · subst ho
        exact hl ht
  · rw [if_neg c1]
    by_cases c2 : l1.currentItem.Token = ColonToken
    · rw [if_pos c2]
      cases h : l2.readAndMatchToken WildCard with
      | some err => exact ⟨IdentOK_NextToken _, hz⟩
      | none => exact ⟨IdentOK_NextToken _, hz⟩
    · rw [if_neg c2]
      exact ⟨IdentOK_NextToken _, hz⟩

lemma snameLoop_ok (fuel : Nat) (l : Lexer) (z : ZRelation) (hl : IdentOK l) (hz : RelOK z)
    (r : Lexer × ZRelation × Option GoString) (h : snameLoop fuel l z = some r) :
    IdentOK r.1 ∧ RelOK r.2.1 := by
  induction fuel generalizing l z with
  | zero =>
    simp only [snameLoop] at h
    split at h
    · cases h
    · cases h; exact ⟨hl, hz⟩
  | succ fuel ih =>
    simp only [snameLoop] at h
    split at h
    · rename_i ht
      have hs := readSname_ok l z hl ht hz
      split at h
      · rename_i l1 z1 err heq
        cases h
        rw [heq] at hs
        exact hs
      · rename_i l1 z1 heq
        rw [heq] at hs
        split at h
        · exact ih _ _ (IdentOK_NextToken _) hs.2 h
        · cases h; exact hs
    · cases h; exact ⟨hl, hz⟩

lemma readZRelation_ok (l : Lexer) (hl : IdentOK l)
    (r : Lexer × ZRelation × Option GoString) (h : l.readZRelation = some r) :
    IdentOK r.1 ∧ RelOK r.2.1 := by
  have h0 : ∀ n : GoString, RelOK { Name := n } := fun n o ho => by cases ho
  simp only [Lexer.readZRelation] at h
  split at h
  · cases h; exact ⟨hl, h0 _⟩
  · split at h
    · cases h; exact ⟨IdentOK_NextToken _, h0 _⟩
    · split at h
      · cases h; exact ⟨IdentOK_NextToken _, h0 _⟩
      · exact snameLoop_ok _ _ _ (IdentOK_NextToken _) (h0 _) r h

lemma bodyLoop_ok (fuel : Nat) (l : Lexer) (zdef : ZDef) (hl : IdentOK l) (hz : DefOK zdef)
    (r : Lexer × ZDef × Option GoString) (h : bodyLoop fuel l zdef = some r) :
    IdentOK r.1 ∧ DefOK r.2.1 := by
  induction fuel generalizing l zdef with
  | zero =>
    simp only [bodyLoop] at h
    split at h
    · cases h
    · cases h; exact ⟨hl, hz⟩
  | succ fuel ih =>
    simp only [bodyLoop] at h
    split at h
    · split at h
      · cases h
      · rename_i l1 rel err heq
        cases h
        exact ⟨(readZRelation_ok l hl _ heq).1, hz⟩
      · rename_i l1 rel heq
        have hr := readZRelation_ok l hl _ heq
        refine ih _ _ hr.1 ?_ h
        intro zrel hm
        simp only [List.mem_append, List.mem_singleton] at hm
        rcases hm with hm | hm
        · exact hz zrel hm
        · subst hm; exact hr.2
    · cases h; exact ⟨hl, hz⟩

lemma readZDef_ok (l : Lexer) (hl : IdentOK l)
    (r : Lexer × ZDef × Option GoString) (h : l.readZDef = some r) :
    IdentOK r.1 ∧ DefOK r.2.1 := by
  have h0 : ∀ n : GoString, DefOK { Name := n } := fun n o ho => by cases ho
  simp only [Lexer.readZDef, Lexer.readZBody] at h
  split at h
  · cases h; exact ⟨hl, h0 _⟩
  · split at h
    · cases h; exact ⟨IdentOK_NextToken _, h0 _⟩
    · split at h
      · cases h; exact ⟨IdentOK_NextToken _, h0 _⟩
      · split at h
        · cases h
        · rename_i l1 zdef err heq
          cases h
          exact bodyLoop_ok _ _ _ (IdentOK_NextToken _) (h0 _) _ heq
        · rename_i l1 zdef heq
          have hb := bodyLoop_ok _ _ _ (IdentOK_NextToken _) (h0 _) _ heq
          split at h
          · cases h; exact hb
          · cases h; exact hb

lemma schemaLoop_ok (fuel : Nat) (l : Lexer) (zdefs : List ZDef) (hl : IdentOK l)
    (hz : SchemaOK zdefs)
    (r : Lexer × List ZDef × Option GoString) (h : schemaLoop fuel l zdefs = some r) :
    SchemaOK r.2.1 := by
  induction fuel generalizing l zdefs with
  | zero =>
    simp only [schemaLoop] at h
    split at h
    · cases h
    · cases h; exact hz
  | succ fuel ih =>
    simp only [schemaLoop] at h
    split at h
    · split at h
      · cases h
      · cases h; exact hz
      · rename_i l1 zdef heq
        have hr := readZDef_ok l hl _ heq
        refine ih _ _ (IdentOK_NextToken _) ?_ h
        intro zd hm
        simp only [List.mem_append, List.mem_singleton] at hm
        rcases hm with hm | hm
        · exact hz zd hm
        · subst hm; exact hr.2
    · cases h; exact hz

/-- The object-set references of a parsed schema have names made of identifier bytes. -/
lemma Parse_ok (input : GoString) (zdefs : List ZDef) (err : Option GoString)
    (h : Parse input = some (zdefs, err)) : SchemaOK zdefs := by
  unfold Parse Lexer.ReadZSchema at h
  cases hr : schemaLoop ((NewLexer input).NextToken.length - (NewLexer input).NextToken.pos + 1)
      (NewLexer input).NextToken [] with
  | none => rw [hr] at h; cases h
  | some r =>
    rw [hr] at h
    simp only [Option.map_some', Option.some.injEq, Prod.mk.injEq] at h
    have := schemaLoop_ok _ _ _ (IdentOK_NextToken _) (fun zd hm => by cases hm) r hr
    rw [h.1] at this
    exact this

lemma setAt_ok (zdefs : List ZDef) (hz : SchemaOK zdefs) (d r j : Nat) (o : ZobjectSet)
    (h : setAt zdefs d r j = some o) : ∀ b ∈ o.Name, identChar b = true := by
  unfold setAt relationAt at h
  cases hd : zdefs[d]? with
  | none => rw [hd] at h; cases h
  | some zdef =>
    rw [hd] at h
    simp only [Option.some_bind] at h
    cases hr : zdef.Relations[r]? with
    | none => rw [hr] at h; cases h
    | some zrel =>
      rw [hr] at h
      simp only [Option.some_bind] at h
      exact hz zdef (List.getElem?_mem hd) zrel (List.getElem?_mem hr) o
        (List.getElem?_mem h)

lemma append_hash_inj (n1 r1 n2 r2 : GoString) (h1 : 35 ∉ n1) (h2 : 35 ∉ n2)
    (h : n1 ++ 35 :: r1 = n2 ++ 35 :: r2) : n1 = n2 ∧ r1 = r2 := by
  induction n1 generalizing n2 with
  | nil =>
    cases n2 with
    | nil => simpa using h
    | cons b n2 =>
      simp only [List.nil_append, List.cons_append, List.cons.injEq] at h
      exact absurd (by simp [h.1]) h2
  | cons a n1 ih =>
    cases n2 with
    | nil =>
      simp only [List.nil_append, List.cons_append, List.cons.injEq] at h
      exact absurd (by simp [h.1]) h1
    | cons b n2 =>
      simp only [List.cons_append, List.cons.injEq] at h
      have := ih n2 (fun hm => h1 (List.mem_cons_of_mem _ hm))
        (fun hm => h2 (List.mem_cons_of_mem _ hm)) h.2
      exact ⟨by rw [h.1, this.1], this.2⟩

lemma setKey_inj (a b : ZobjectSet) (ha : ∀ x ∈ a.Name, identChar x = true)
    (hb : ∀ x ∈ b.Name, identChar x = true) (h : setKey a = setKey b) :
    a.Name = b.Name ∧ a.Relation = b.Relation := by
  have e : bytes "#" = [35] := by decide
  unfold setKey at h
  rw [e] at h
  simp only [List.append_assoc, List.singleton_append] at h
  exact append_hash_inj _ _ _ _ (fun hm => by have := ha 35 hm; revert this; decide)
    (fun hm => by have := hb 35 hm; revert this; decide) h

/-- C9: for every schema that the parser returns, with or without an error, an object-set
reference has `Unique = true` after the resolution if and only if no earlier object-set
reference of the same relation has both the same definition name and the same relation
name: the names are identifiers of the lexer, which hold no `#`, so the key `name#relation`
of the source separates the pairs. -/
theorem set_unique_iff_no_earlier_same_pair (input : GoString) (zdefs : List ZDef)
    (err : Option GoString) (d r j : Nat) (o : ZobjectSet)
    (hp : Parse input = some (zdefs, err)) (h : setAt zdefs d r j = some o) :
    ∃ o', setAt (resolved zdefs) d r j = some o' ∧ o'.Name = o.Name ∧
      o'.Relation = o.Relation ∧
      (o'.Unique = true ↔
        ∀ i, i < j → ∀ oi, setAt zdefs d r i = some oi →
          ¬ (oi.Name = o.Name ∧ oi.Relation = o.Relation)) := by
  have hok := Parse_ok input zdefs err hp
  obtain ⟨b, hb, hiff⟩ := setAt_resolved zdefs d r j o h
  refine ⟨_, hb, (assignZobjectSet_Name _ o).1, (assignZobjectSet_Name _ o).2, ?_⟩
  rw [show ({ (numbered zdefs).assignZobjectSet o with Unique := b } : ZobjectSet).Unique = b
    from rfl, hiff]
  constructor
  · intro h1 i hi oi hoi hpair
    exact h1 i hi oi hoi (by simp only [setKey, hpair.1, hpair.2])
  · intro h1 i hi oi hoi hkey
    exact h1 i hi oi hoi
      (setKey_inj oi o (setAt_ok zdefs hok d r i oi hoi) (setAt_ok zdefs hok d r j o h) hkey)

/-- C9 on `definition d { relation r: a#b | a#c | a#b }` at the third reference. -/
theorem set_unique_iff_no_earlier_same_pair_witness :
    ∃ o', setAt (resolved exampleSetPairs) 0 0 2 = some o' ∧ o'.Name = bytes "a" ∧
      o'.Relation = bytes "b" ∧
      (o'.Unique = true ↔
        ∀ i, i < 2 → ∀ oi, setAt exampleSetPairs 0 0 i = some oi →
          ¬ (oi.Name = bytes "a" ∧ oi.Relation = bytes "b")) :=
  set_unique_iff_no_earlier_same_pair
    (bytes "definition d \x7b relation r: a#b | a#c | a#b \x7d") exampleSetPairs none 0 0 2
    { Name := bytes "a", Relation := bytes "b" } (by decide) (by decide)

/-! ## Names that the grammar allows and the lexer does not read -/

/-- C2: `definition _x { }` conforms to the grammar of the source, whose identifiers are
`[a-zA-Z_][a-zA-Z0-9_]*`, and is rejected: the lexer reads `_` as an invalid token. The same
happens to a name that begins with a keyword, as in `definition relations { }`. -/
theorem grammar_conforming_text_is_rejected :
    Parse (bytes "definition _x \x7b \x7d")
      = some ([], some (bytes "expected token 'Identifier', but got '_'")) ∧
    Parse (bytes "definition relations \x7b \x7d")
      = some ([], some (bytes "expected token 'Identifier', but got 'relation'")) := by
  constructor <;> decide

/-! ## What `Generate` prints for duplicates -/

/-- C14: on `definition user { } definition user { }` the second definition, which repeats
the name of the first, still gets an entity line, with the empty identifier:
`Business_Object(,"user")`. -/
theorem duplicate_definition_gets_entity_line :
    Parse (bytes "definition user \x7b \x7d definition user \x7b \x7d")
      = some (exampleTwoUsers, none) ∧
    generateLines (resolved exampleTwoUsers) (bytes "t")
      = [bytes "@startuml t", bytes "!include <archimate/Archimate>", bytes "scale 1.0",
         bytes "skinparam dpi 96", bytes "Business_Object(b1,\"user\")",
         bytes "Business_Object(,\"user\")", bytes "@enduml"] ∧
    (PlantUMLArchimateSchema.Generate { Zdefs := exampleTwoUsers } (bytes "t")).2
      = join (generateLines (resolved exampleTwoUsers) (bytes "t")) (bytes "\n") := by
  refine ⟨?_, ?_, ?_⟩
  · decide
  · decide
  · rfl

/-- C15: in `definition u { } definition g { relation m: u } definition d { relation r: u
relation r: g#m | u:* }` the second relation `r` is marked `NOTDRAW`, and besides its line
`relation r is duplicated` the output has the edges `Rel_Access_w(r1,NOTDRAW,"g#m")` and
`Rel_Access_w(NOTDRAW,b1,"ALL")` of its object-set and wildcard references. -/
theorem duplicate_relation_still_has_edges :
    Parse (bytes ("definition u \x7b \x7d definition g \x7b relation m: u \x7d " ++
        "definition d \x7b relation r: u relation r: g#m | u:* \x7d"))
      = some (exampleEdgesOfDuplicate, none) ∧
    (relationAt (resolved exampleEdgesOfDuplicate) 2 1).map (fun zrel => zrel.ID)
      = some (bytes "NOTDRAW") ∧
    generateLines (resolved exampleEdgesOfDuplicate) (bytes "t")
      = [bytes "@startuml t", bytes "!include <archimate/Archimate>", bytes "scale 1.0",
         bytes "skinparam dpi 96", bytes "Business_Object(b1,\"u\")",
         bytes "Business_Object(b2,\"g\")", bytes "Business_Object(b3,\"d\")",
         bytes "Business_Object(r1,\"m\") <<relation>>", bytes "Rel_Association(b2,r1)",
         bytes "Rel_Access_w(r1,b1)", bytes "Business_Object(r2,\"r\") <<relation>>",
         bytes "Rel_Association(b3,r2)", bytes "Rel_Access_w(r2,b1)",
         bytes "rectangle \"relation r is duplicated in definition d \" #red",
         bytes "Rel_Access_w(r1,NOTDRAW,\"g#m\")", bytes "Rel_Access_w(NOTDRAW,b1,\"ALL\")",
         bytes "@enduml"] := by
  refine ⟨?_, ?_, ?_⟩ <;> decide

/-- C16: on `definition user { } definition doc { relation r: user | user }` the line of the
second, not unique, reference `user` is `rectangle " doc is declared more that one in
relation r of definition doc" #red `: it names the definition `doc` in the place of the
reference and does not contain `user`. -/
theorem repeated_reference_line_names_the_definition :
    Parse (bytes "definition user \x7b \x7d definition doc \x7b relation r: user | user \x7d")
      = some (exampleRepeatedUser, none) ∧
    (plainAt (resolved exampleRepeatedUser) 1 0 1).map (fun o => (o.Name, o.ID, o.Unique))
      = some (bytes "user", bytes "b1", false) ∧
    generateLines (resolved exampleRepeatedUser) (bytes "t")
      = [bytes "@startuml t", bytes "!include <archimate/Archimate>", bytes "scale 1.0",
         bytes "skinparam dpi 96", bytes "Business_Object(b1,\"user\")",
         bytes "Business_Object(b2,\"doc\")", bytes "Business_Object(r1,\"r\") <<relation>>",
         bytes "Rel_Association(b2,r1)", bytes "Rel_Access_w(r1,b1)",
         bytes ("rectangle \" doc is declared more that one in relation r of definition doc\"" ++
           " #red "),
         bytes "@enduml"] ∧
    ¬ (bytes "user" <:+:
        bytes ("rectangle \" doc is declared more that one in relation r of definition doc\"" ++
           " #red ")) := by
  refine ⟨?_, ?_, ?_, ?_⟩ <;> decide

/-! ## Tokens of the lexer on concrete texts -/

/-- C20: `_x` matches `[a-zA-Z_][a-zA-Z0-9_]*` and is not read as one identifier: the lexer
returns an invalid token `_`, then the identifier `x`, then the end of the input. -/
theorem underscore_name_is_not_an_identifier :
    tokenStream 5 (NewLexer (bytes "_x"))
      = [{ Token := InvalidToken, Value := bytes "_" },
         { Token := IdentifierToken, Value := bytes "x" },
         { Token := EOFToken, Value := bytes "" }] := by
  decide

/-! ## The order of the lines of `Generate` -/

lemma linesOfRelations_length (f : ZDef → ZRelation → List GoString) (n : ZRelation → Nat)
    (h : ∀ zdef zrel, (f zdef zrel).length = n zrel) (zdefs : List ZDef) :
    (linesOfRelations f zdefs).length = countRefs n zdefs := by
  induction zdefs with
  | nil => rfl
  | cons zdef rest ih =>
    simp only [linesOfRelations, List.length_append, ih, countRefs, List.map_cons,
      List.sum_cons, List.length_flatten, List.map_map]
    congr 2
    apply List.map_congr_left
    intro zrel _
    exact h zdef zrel

lemma uniqueObjectLoop_length (keys : List GoString) (l : List Zobject) :
    (uniqueObjectLoop keys l).length = l.length := by
  simp [uniqueObjectLoop_eq, firstSeen_length]

lemma uniqueSetLoop_length (keys : List GoString) (l : List ZobjectSet) :
    (uniqueSetLoop keys l).length = l.length := by
  simp [uniqueSetLoop_eq, firstSeen_length]

lemma uniqueWildCardLoop_length (keys : List GoString) (l : List ZobjectWildCard) :
    (uniqueWildCardLoop keys l).length = l.length := by
  simp [uniqueWildCardLoop_eq, firstSeen_length]

/-- The resolution keeps the names and the shape of the schema: what `P` reads in a relation
is kept as soon as `P` reads neither identifiers nor back pointers nor the fields of the
references. -/
lemma resolved_map {α : Type} (P : ZRelation → α)
    (hP : ∀ (zrel : ZRelation) (id : GoString) (m : Option Nat),
      P { zrel with ID := id, myZDef := m } = P zrel)
    (hG : ∀ (s : PlantUMLArchimateSchema) (zrel : ZRelation),
      P (resolveRelation s zrel) = P zrel)
    (zdefs : List ZDef) :
    (resolved zdefs).map (fun d => (d.Name, d.Relations.map P))
      = zdefs.map (fun d => (d.Name, d.Relations.map P)) := by
  rw [resolved_eq]
  have h1 := congrArg (List.map (fun t : GoString × GoString × List α => (t.1, t.2.2)))
    (defRelIDLoop_map P hP 0 0 (zdefIDLoop 0 [] zdefs))
  have h2 := congrArg (List.map (fun t : GoString × List ZRelation => (t.1, t.2.map P)))
    (zdefIDLoop_relations 0 [] zdefs)
  simp only [List.map_map, Function.comp_def] at h1 h2
  have h3 : (numbered zdefs).Zdefs = defRelIDLoop 0 0 (zdefIDLoop 0 [] zdefs) := rfl
  rw [← h2, ← h1, ← h3]
  simp only [forEachRelation, List.map_map, Function.comp_def, hG]

lemma countRefs_resolved (n : ZRelation → Nat)
    (hP : ∀ (zrel : ZRelation) (id : GoString) (m : Option Nat),
      n { zrel with ID := id, myZDef := m } = n zrel)
    (hG : ∀ (s : PlantUMLArchimateSchema) (zrel : ZRelation),
      n (resolveRelation s zrel) = n zrel)
    (zdefs : List ZDef) : countRefs n (resolved zdefs) = countRefs n zdefs := by
  have h := congrArg (List.map (fun t : GoString × List Nat => t.2.sum))
    (resolved_map n hP hG zdefs)
  simp only [List.map_map, Function.comp_def] at h
  simp only [countRefs, h]

lemma resolved_length (zdefs : List ZDef) : (resolved zdefs).length = zdefs.length := by
  have h := congrArg List.length
    (resolved_map (fun _ => ()) (fun _ _ _ => rfl) (fun _ _ => rfl) zdefs)
  simpa using h

lemma createIDforZdef_Zdefs (s : PlantUMLArchimateSchema) :
    s.createIDforZdef.Zdefs = resolved s.Zdefs := by
  unfold resolved
  rw [createIDforZdef_eq s, createIDforZdef_eq]

/-- C17: the text of `Generate` is the join of the four header lines, then one line for
every definition in the order of the schema, then the lines of the relations with their
plain references, then the lines of all object-set references of the schema, then the lines
of all wildcard references, then `@enduml`. So every object-set line comes after every line
of a plain reference, and every wildcard line after every object-set line. -/
theorem generate_lines_in_passes (s : PlantUMLArchimateSchema) (t : GoString) :
    ∃ defLines relLines setLines wildLines : List GoString,
      (s.Generate t).2
        = join ([bytes "@startuml " ++ t, bytes "!include <archimate/Archimate>",
            bytes "scale 1.0", bytes "skinparam dpi 96"] ++ defLines ++ relLines ++
            setLines ++ wildLines ++ [bytes "@enduml"]) (bytes "\n") ∧
      defLines = (resolved s.Zdefs).map (fun zdef =>
        bytes "Business_Object(" ++ zdef.ID ++ bytes ",\"" ++ zdef.Name ++ bytes "\")") ∧
      (resolved s.Zdefs).map (fun zdef => zdef.Name) = s.Zdefs.map (fun zdef => zdef.Name) ∧
      defLines.length = s.Zdefs.length ∧
      relLines = linesOfRelations zrelLines (resolved s.Zdefs) ∧
      setLines = linesOfRelations
        (fun zdef zrel => zrel.ZobjectSets.map (zobjectSetLine zdef zrel)) (resolved s.Zdefs) ∧
      setLines.length = countRefs (fun zrel => zrel.ZobjectSets.length) s.Zdefs ∧
      wildLines = linesOfRelations
        (fun zdef zrel => zrel.ZobjectWildCards.map (zobjectWildCardLine zdef zrel))
        (resolved s.Zdefs) ∧
      wildLines.length = countRefs (fun zrel => zrel.ZobjectWildCards.length) s.Zdefs := by
  refine ⟨_, _, _, _, ?_, rfl, ?_, ?_, rfl, rfl, ?_, rfl, ?_⟩
  · simp only [PlantUMLArchimateSchema.Generate, generateLines, bodyLines,
      createIDforZdef_Zdefs, List.append_assoc]
  · have h := congrArg (List.map (fun p : GoString × List Unit => p.1))
      (resolved_map (fun _ => ()) (fun _ _ _ => rfl) (fun _ _ => rfl) s.Zdefs)
    simpa only [List.map_map, Function.comp_def] using h
  · rw [List.length_map, resolved_length]
  · rw [linesOfRelations_length _ (fun zrel => zrel.ZobjectSets.length)
      (fun _ _ => List.length_map _ _)]
    exact countRefs_resolved (fun zrel => zrel.ZobjectSets.length) (fun _ _ _ => rfl)
      (fun s zrel => by simp [resolveRelation, uniqueSetLoop_length]) s.Zdefs
  · rw [linesOfRelations_length _ (fun zrel => zrel.ZobjectWildCards.length)
      (fun _ _ => List.length_map _ _)]
    exact countRefs_resolved (fun zrel => zrel.ZobjectWildCards.length) (fun _ _ _ => rfl)
      (fun s zrel => by simp [resolveRelation, uniqueWildCardLoop_length]) s.Zdefs

/-! ## The identifiers of the definitions -/

lemma digitChar_toNat (k : Nat) (h : k < 10) : (Nat.digitChar k).toNat - 48 = k := by
  interval_cases k <;> rfl

lemma toDigitsCore_value (fuel n : Nat) (ds : List Char) (h : n < fuel) :
    List.foldl (fun a c => a * 10 + (c - 48)) 0
        ((Nat.toDigitsCore 10 fuel n ds).map Char.toNat)
      = List.foldl (fun a c => a * 10 + (c - 48)) n (ds.map Char.toNat) := by
  induction fuel generalizing n ds with
  | zero => omega
  | succ fuel ih =>
    simp only [Nat.toDigitsCore]
    by_cases h0 : n / 10 = 0
    · simp only [h0, if_true, List.map_cons, List.foldl_cons, Nat.zero_mul, Nat.zero_add]
      rw [digitChar_toNat _ (Nat.mod_lt _ (by norm_num))]
      have : n % 10 = n := Nat.mod_eq_of_lt (by omega)
      rw [this]
    · simp only [h0, if_false]
      rw [ih (n / 10) _ (by omega)]
      simp only [List.map_cons, List.foldl_cons]
      rw [digitChar_toNat _ (Nat.mod_lt _ (by norm_num))]
      have : n / 10 * 10 + n % 10 = n := by omega
      rw [this]

lemma decimalValue_decimal (n : Nat) : decimalValue (decimal n) = n := by
  unfold decimalValue decimal Nat.toDigits
  rw [toDigitsCore_value _ _ _ (Nat.lt_succ_self n)]
  rfl

lemma decimal_inj (n m : Nat) (h : decimal n = decimal m) : n = m := by
  have := congrArg decimalValue h
  rwa [decimalValue_decimal, decimalValue_decimal] at this

lemma numbered_ne_NOTDRAW (c : Nat) (n : Nat) (hc : c ≠ 78) :
    ([c] : GoString) ++ decimal n ≠ NOTDRAW := by
  intro h
  have e : NOTDRAW = 78 :: bytes "OTDRAW" := by decide
  rw [e] at h
  simp only [List.singleton_append, List.cons.injEq] at h
  exact hc h.1

lemma b_ne_NOTDRAW (n : Nat) : bytes "b" ++ decimal n ≠ NOTDRAW :=
  numbered_ne_NOTDRAW 98 n (by decide)

lemma r_ne_NOTDRAW (n : Nat) : bytes "r" ++ decimal n ≠ NOTDRAW :=
  numbered_ne_NOTDRAW 114 n (by decide)

lemma nil_ne_NOTDRAW : ([] : GoString) ≠ NOTDRAW := by decide

lemma decimal_ne_nil (n : Nat) : decimal n ≠ [] := by
  intro h
  cases n with
  | zero => revert h; decide
  | succ k =>
    have := decimalValue_decimal (k + 1)
    rw [h] at this
    simp [decimalValue] at this

lemma prefixed_decimal_inj (p : GoString) (n m : Nat) (h : p ++ decimal n = p ++ decimal m) :
    n = m :=
  decimal_inj n m (List.append_cancel_left h)

/-- The definition at a position after the first loop of `createIDforZdef`: it gets
`b<position>` when its name is new, and is left as it is when its name was seen. -/
lemma zdefIDLoop_getElem (i0 : Nat) (m : List (GoString × GoString)) (l : List ZDef)
    (j : Nat) (zd : ZDef) (h : l[j]? = some zd) :
    ∃ zd', (zdefIDLoop i0 m l)[j]? = some zd' ∧ zd'.Name = zd.Name ∧
      (((mapGet m zd.Name).isSome = true ∨ ∃ k, k < j ∧ ∃ zk, l[k]? = some zk ∧ zk.Name = zd.Name) →
        zd'.ID = zd.ID) ∧
      (¬ ((mapGet m zd.Name).isSome = true ∨
          ∃ k, k < j ∧ ∃ zk, l[k]? = some zk ∧ zk.Name = zd.Name) →
        zd'.ID = bytes "b" ++ decimal (i0 + j + 1)) := by
  induction l generalizing i0 m j with
  | nil => simp at h
  | cons a l ih =>
    cases j with
    | zero =>
      simp only [List.getElem?_cons_zero, Option.some.injEq] at h
      subst h
      simp only [zdefIDLoop]
      cases hm : mapGet m a.Name with
      | some v =>
        refine ⟨a, by simp, rfl, fun _ => rfl, fun hn => ?_⟩
        exact absurd (Or.inl (by simp)) hn
      | none =>
        refine ⟨{ a with ID := bytes "b" ++ decimal (i0 + 1) }, by simp, rfl, fun hs => ?_,
          fun _ => rfl⟩
        rcases hs with hs | ⟨k, hk, _⟩
        · exact absurd hs (by simp)
        · omega
    | succ j =>
      simp only [List.getElem?_cons_succ] at h
      simp only [zdefIDLoop]
      cases hm : mapGet m a.Name with
      | some v =>
        obtain ⟨zd', h1, h2, h3, h4⟩ := ih (i0 + 1) m j h
        refine ⟨zd', by simpa using h1, h2, fun hs => h3 ?_, fun hn => ?_⟩
        · rcases hs with hs | ⟨k, hk, zk, hzk, hname⟩
          · exact Or.inl hs
          · cases k with
            | zero =>
              simp only [List.getElem?_cons_zero, Option.some.injEq] at hzk
              subst hzk
              left; rw [← hname, hm]; rfl
            | succ k =>
              simp only [List.getElem?_cons_succ] at hzk
              exact Or.inr ⟨k, by omega, zk, hzk, hname⟩
        · have := h4 (fun hs => hn ?_)
          · rw [this]; congr 2; omega
          · rcases hs with hs | ⟨k, hk, zk, hzk, hname⟩
            · exact Or.inl hs
            · exact Or.inr ⟨k + 1, by omega, zk, by simpa using hzk, hname⟩
      | none =>
        obtain ⟨zd', h1, h2, h3, h4⟩ :=
          ih (i0 + 1) (mapSet m a.Name (bytes "b" ++ decimal (i0 + 1))) j h
        have key : ((mapGet (mapSet m a.Name (bytes "b" ++ decimal (i0 + 1))) zd.Name).isSome
              = true ∨ ∃ k, k < j ∧ ∃ zk, l[k]? = some zk ∧ zk.Name = zd.Name) ↔
            ((mapGet m zd.Name).isSome = true ∨
              ∃ k, k < j + 1 ∧ ∃ zk, (a :: l)[k]? = some zk ∧ zk.Name = zd.Name) := by
          simp only [mapSet, mapGet]
          constructor
          · rintro (hs | ⟨k, hk, zk, hzk, hname⟩)
            · by_cases e : a.Name = zd.Name
              · exact Or.inr ⟨0, by omega, a, by simp, e⟩
              · simp only [e, if_false] at hs
                exact Or.inl hs
            · exact Or.inr ⟨k + 1, by omega, zk, by simpa using hzk, hname⟩
          · rintro (hs | ⟨k, hk, zk, hzk, hname⟩)
            · by_cases e : a.Name = zd.Name
              · left; simp [e]
              · left; simp only [e, if_false]; exact hs
            · cases k with
              | zero =>
                simp only [List.getElem?_cons_zero, Option.some.injEq] at hzk
                subst hzk
                left; simp [hname]
              | succ k =>
                simp only [List.getElem?_cons_succ] at hzk
                exact Or.inr ⟨k, by omega, zk, hzk, hname⟩
        refine ⟨zd', by simpa using h1, h2, fun hs => h3 (key.2 hs), fun hn => ?_⟩
        have := h4 (fun hs => hn (key.1 hs))
        rw [this]; congr 2; omega

/-- The names and identifiers of the definitions after the resolution are those after the
first loop of `createIDforZdef`. -/
lemma resolved_heads (zdefs : List ZDef) :
    (resolved zdefs).map (fun d => (d.Name, d.ID))
      = (zdefIDLoop 0 [] zdefs).map (fun d => (d.Name, d.ID)) := by
  rw [resolved_eq]
  have h1 := congrArg (List.map (fun t : GoString × GoString × List Unit => (t.1, t.2.1)))
    (defRelIDLoop_map (fun _ => ()) (fun _ _ _ => rfl) 0 0 (zdefIDLoop 0 [] zdefs))
  simp only [List.map_map, Function.comp_def] at h1
  have h3 : (numbered zdefs).Zdefs = defRelIDLoop 0 0 (zdefIDLoop 0 [] zdefs) := rfl
  rw [← h1, ← h3]
  simp only [forEachRelation, List.map_map, Function.comp_def]

/-- The definition at a position after the resolution. -/
lemma resolved_getElem (zdefs : List ZDef) (j : Nat) (zd : ZDef) (h : zdefs[j]? = some zd) :
    ∃ zd', (resolved zdefs)[j]? = some zd' ∧ zd'.Name = zd.Name ∧
      ((∃ k, k < j ∧ ∃ zk, zdefs[k]? = some zk ∧ zk.Name = zd.Name) → zd'.ID = zd.ID) ∧
      (¬ (∃ k, k < j ∧ ∃ zk, zdefs[k]? = some zk ∧ zk.Name = zd.Name) →
        zd'.ID = bytes "b" ++ decimal (j + 1)) := by
  obtain ⟨zd1, h1, h2, h3, h4⟩ := zdefIDLoop_getElem 0 [] zdefs j zd h
  have hh := congrArg (fun l => l[j]?) (resolved_heads zdefs)
  simp only [List.getElem?_map, h1, Option.map_some'] at hh
  cases hr : (resolved zdefs)[j]? with
  | none => rw [hr] at hh; simp at hh
  | some zd' =>
    rw [hr] at hh
    simp only [Option.map_some', Option.some.injEq, Prod.mk.injEq] at hh
    refine ⟨zd', rfl, by rw [hh.1, h2], fun hs => ?_, fun hn => ?_⟩
    · rw [hh.2]; exact h3 (Or.inr hs)
    · rw [hh.2]
      have := h4 (fun hs => by
        rcases hs with hs | hs
        · simp [mapGet] at hs
        · exact hn hs)
      simpa using this

lemma bodyLoop_ID (fuel : Nat) (l : Lexer) (zdef : ZDef)
    (r : Lexer × ZDef × Option GoString) (h : bodyLoop fuel l zdef = some r) :
    r.2.1.ID = zdef.ID := by
  induction fuel generalizing l zdef with
  | zero =>
    simp only [bodyLoop] at h
    split at h
    · cases h
    · cases h; rfl
  | succ fuel ih =>
    simp only [bodyLoop] at h
    split at h
    · split at h
      · cases h
      · cases h; rfl
      · have h2 := ih _ _ h
        exact h2
    · cases h; rfl

lemma readZDef_ID (l : Lexer) (r : Lexer × ZDef × Option GoString)
    (h : l.readZDef = some r) : r.2.1.ID = [] := by
  simp only [Lexer.readZDef, Lexer.readZBody] at h
  split at h
  · cases h; rfl
  · split at h
    · cases h; rfl
    · split at h
      · cases h; rfl
      · split at h
        · cases h
        · rename_i l1 zdef err heq
          cases h
          exact bodyLoop_ID _ _ _ _ heq
        · rename_i l1 zdef heq
          have hb := bodyLoop_ID _ _ _ _ heq
          split at h
          · cases h; exact hb
          · cases h; exact hb

lemma schemaLoop_fresh (fuel : Nat) (l : Lexer) (zdefs : List ZDef) (hz : FreshID zdefs)
    (r : Lexer × List ZDef × Option GoString) (h : schemaLoop fuel l zdefs = some r) :
    FreshID r.2.1 := by
  induction fuel generalizing l zdefs with
  | zero =>
    simp only [schemaLoop] at h
    split at h
    · cases h
    · cases h; exact hz
  | succ fuel ih =>
    simp only [schemaLoop] at h
    split at h
    · split at h
      · cases h
      · cases h; exact hz
      · rename_i l1 zdef heq
        refine ih _ _ ?_ h
        intro zd hm
        simp only [List.mem_append, List.mem_singleton] at hm
        rcases hm with hm | hm
        · exact hz zd hm
        · subst hm; exact readZDef_ID l _ heq
    · cases h; exact hz

/-- The definitions that the parser returns have the empty identifier. -/
lemma Parse_fresh (input : GoString) (zdefs : List ZDef) (err : Option GoString)
    (h : Parse input = some (zdefs, err)) : FreshID zdefs := by
  unfold Parse Lexer.ReadZSchema at h
  cases hr : schemaLoop ((NewLexer input).NextToken.length - (NewLexer input).NextToken.pos + 1)
      (NewLexer input).NextToken [] with
  | none => rw [hr] at h; cases h
  | some r =>
    rw [hr] at h
    simp only [Option.map_some', Option.some.injEq, Prod.mk.injEq] at h
    have := schemaLoop_fresh _ _ _ (fun zd hm => by cases hm) r hr
    rw [h.1] at this
    exact this

lemma initZdefMapLoop_some (i : Nat) (m : List (GoString × Nat)) (l : List ZDef)
    (name : GoString) (k : Nat) (h : mapGet (initZdefMapLoop i m l) name = some k) :
    (∃ j zd, l[j]? = some zd ∧ zd.Name = name ∧ k = i + j) ∨ mapGet m name = some k := by
  induction l generalizing i m with
  | nil => exact Or.inr h
  | cons a l ih =>
    simp only [initZdefMapLoop] at h
    rcases ih (i + 1) _ h with ⟨j, zd, h1, h2, h3⟩ | h1
    · exact Or.inl ⟨j + 1, zd, by simpa using h1, h2, by omega⟩
    · simp only [mapSet, mapGet] at h1
      split at h1
      · rename_i e
        simp only [Option.some.injEq] at h1
        exact Or.inl ⟨0, a, by simp, e, by omega⟩
      · exact Or.inr h1

lemma initZdefMapLoop_none (i : Nat) (m : List (GoString × Nat)) (l : List ZDef)
    (name : GoString) (h : mapGet (initZdefMapLoop i m l) name = none) :
    mapGet m name = none ∧ ∀ zd ∈ l, zd.Name ≠ name := by
  induction l generalizing i m with
  | nil => exact ⟨h, fun zd hm => by cases hm⟩
  | cons a l ih =>
    simp only [initZdefMapLoop] at h
    obtain ⟨h1, h2⟩ := ih (i + 1) _ h
    simp only [mapSet, mapGet] at h1
    split at h1
    · cases h1
    · rename_i e
      refine ⟨h1, fun zd hm => ?_⟩
      simp only [List.mem_cons] at hm
      rcases hm with hm | hm
      · subst hm; exact e
      · exact h2 zd hm

lemma numbered_heads (zdefs : List ZDef) :
    (numbered zdefs).Zdefs.map (fun d => (d.Name, d.ID))
      = (zdefIDLoop 0 [] zdefs).map (fun d => (d.Name, d.ID)) := by
  have h1 := congrArg (List.map (fun t : GoString × GoString × List Unit => (t.1, t.2.1)))
    (defRelIDLoop_map (fun _ => ()) (fun _ _ _ => rfl) 0 0 (zdefIDLoop 0 [] zdefs))
  simp only [List.map_map, Function.comp_def] at h1
  exact h1

lemma numbered_names (zdefs : List ZDef) :
    (numbered zdefs).Zdefs.map (fun d => d.Name) = zdefs.map (fun d => d.Name) := by
  have h1 := congrArg (List.map (fun t : GoString × GoString => t.1)) (numbered_heads zdefs)
  have h2 := congrArg (List.map (fun t : GoString × List ZRelation => t.1))
    (zdefIDLoop_relations 0 [] zdefs)
  simp only [List.map_map, Function.comp_def] at h1 h2
  rw [h1, h2]

lemma zdefIDLoop_ID_shape (P : GoString → Prop) (hb : ∀ n, P (bytes "b" ++ decimal n))
    (i : Nat) (m : List (GoString × GoString)) (l : List ZDef) (hf : ∀ zd ∈ l, P zd.ID) :
    ∀ zd ∈ zdefIDLoop i m l, P zd.ID := by
  induction l generalizing i m with
  | nil => intro zd hm; cases hm
  | cons a l ih =>
    intro zd hm
    simp only [zdefIDLoop] at hm
    split at hm
    · simp only [List.mem_cons] at hm
      rcases hm with hm | hm
      · subst hm; exact hf _ (List.mem_cons_self _ _)
      · exact ih _ _ (fun z hz => hf z (List.mem_cons_of_mem _ hz)) zd hm
    · simp only [List.mem_cons] at hm
      rcases hm with hm | hm
      · subst hm; exact hb _
      · exact ih _ _ (fun z hz => hf z (List.mem_cons_of_mem _ hz)) zd hm

/-- With fresh definitions, no definition gets the marker `NOTDRAW` as its identifier. -/
lemma numbered_ID_ne_NOTDRAW (zdefs : List ZDef) (hf : FreshID zdefs) :
    ∀ d ∈ (numbered zdefs).Zdefs, d.ID ≠ NOTDRAW := by
  intro d hd
  have hm : (d.Name, d.ID) ∈ (numbered zdefs).Zdefs.map (fun d => (d.Name, d.ID)) :=
    List.mem_map_of_mem _ hd
  rw [numbered_heads] at hm
  obtain ⟨zd, hz1, hz2⟩ := List.mem_map.1 hm
  simp only [Prod.mk.injEq] at hz2
  rw [← hz2.2]
  exact zdefIDLoop_ID_shape (fun x => x ≠ NOTDRAW) b_ne_NOTDRAW 0 [] zdefs
    (fun z hz => by rw [hf z hz]; exact nil_ne_NOTDRAW) zd hz1

/-- The lookup of a name in the map of the numbered schema: it fails when no definition has
the name, and returns a definition of that name otherwise. -/
lemma numbered_lookup (zdefs : List ZDef) (name : GoString) :
    ((numbered zdefs).lookup name = none ∧ ∀ zd ∈ zdefs, zd.Name ≠ name) ∨
    (∃ d, (numbered zdefs).lookup name = some d ∧ d ∈ (numbered zdefs).Zdefs ∧
      d.Name = name ∧ ∃ zd ∈ zdefs, zd.Name = name) := by
  have hmap : (numbered zdefs).ZdefMap = initZdefMapLoop 0 [] (numbered zdefs).Zdefs := rfl
  unfold PlantUMLArchimateSchema.lookup
  rw [hmap]
  cases hg : mapGet (initZdefMapLoop 0 [] (numbered zdefs).Zdefs) name with
  | none =>
    left
    refine ⟨rfl, fun zd hz hname => ?_⟩
    have hm : zd.Name ∈ zdefs.map (fun d => d.Name) := List.mem_map_of_mem _ hz
    rw [← numbered_names] at hm
    obtain ⟨d, hd1, hd2⟩ := List.mem_map.1 hm
    exact (initZdefMapLoop_none _ _ _ _ hg).2 d hd1 (by rw [hd2, hname])
  | some k =>
    right
    rcases initZdefMapLoop_some _ _ _ _ _ hg with ⟨j, d, h1, h2, h3⟩ | h1
    · have hk : k = j := by omega
      subst hk
      refine ⟨d, by simpa using h1, List.getElem?_mem h1, h2, ?_⟩
      have hm : d.Name ∈ (numbered zdefs).Zdefs.map (fun d => d.Name) :=
        List.mem_map_of_mem _ (List.getElem?_mem h1)
      rw [numbered_names] at hm
      obtain ⟨zd, hz1, hz2⟩ := List.mem_map.1 hm
      exact ⟨zd, hz1, by rw [hz2, h2]⟩
    · simp [mapGet] at h1

lemma resolved_heads_numbered (zdefs : List ZDef) :
    (resolved zdefs).map (fun d => (d.Name, d.ID))
      = (numbered zdefs).Zdefs.map (fun d => (d.Name, d.ID)) := by
  rw [resolved_heads, numbered_heads]

lemma assignZobject_ID (s : PlantUMLArchimateSchema) (o : Zobject) :
    (s.lookup o.Name = none ∧ (s.assignZobject o).ID = NOTDRAW) ∨
    (∃ d, s.lookup o.Name = some d ∧ (s.assignZobject o).ID = d.ID) := by
  unfold PlantUMLArchimateSchema.assignZobject
  cases h : s.lookup o.Name with
  | none => exact Or.inl ⟨rfl, rfl⟩
  | some d => exact Or.inr ⟨d, rfl, rfl⟩

/-- C11: for every schema that the parser returns, a plain reference has the identifier
`NOTDRAW` after the resolution if and only if no definition of the schema has its name;
otherwise its identifier is the identifier of a definition of the resolved schema that has
its name. -/
theorem plain_reference_ID (input : GoString) (zdefs : List ZDef) (err : Option GoString)
    (d r j : Nat) (o : Zobject)
    (hp : Parse input = some (zdefs, err)) (h : plainAt zdefs d r j = some o) :
    ∃ o', plainAt (resolved zdefs) d r j = some o' ∧
      (o'.ID = NOTDRAW ↔ ∀ zdef ∈ zdefs, zdef.Name ≠ o.Name) ∧
      (o'.ID ≠ NOTDRAW → ∃ zdef ∈ resolved zdefs, zdef.Name = o.Name ∧ o'.ID = zdef.ID) := by
  have hf := Parse_fresh input zdefs err hp
  obtain ⟨b, hb, _⟩ := plainAt_resolved zdefs d r j o h
  refine ⟨_, hb, ?_⟩
  show (((numbered zdefs).assignZobject o).ID = NOTDRAW ↔ _) ∧
    (((numbered zdefs).assignZobject o).ID ≠ NOTDRAW →
      ∃ zdef ∈ resolved zdefs, zdef.Name = o.Name ∧
        ((numbered zdefs).assignZobject o).ID = zdef.ID)
  rcases numbered_lookup zdefs o.Name with ⟨hl, hno⟩ | ⟨dd, hl, hmem, hname, hex⟩
  · rcases assignZobject_ID (numbered zdefs) o with ⟨_, hid⟩ | ⟨d2, hl2, _⟩
    · exact ⟨⟨fun _ => hno, fun _ => hid⟩, fun hne => absurd hid hne⟩
    · rw [hl] at hl2; cases hl2
  · rcases assignZobject_ID (numbered zdefs) o with ⟨hl2, _⟩ | ⟨d2, hl2, hid⟩
    · rw [hl] at hl2; cases hl2
    · rw [hl] at hl2
      cases hl2
      have hne : dd.ID ≠ NOTDRAW := numbered_ID_ne_NOTDRAW zdefs hf dd hmem
      refine ⟨⟨fun e => absurd (hid ▸ e) hne, fun hall => ?_⟩, fun _ => ?_⟩
      · obtain ⟨zd, hz1, hz2⟩ := hex
        exact absurd hz2 (hall zd hz1)
      · have hm : (dd.Name, dd.ID) ∈ (numbered zdefs).Zdefs.map (fun d => (d.Name, d.ID)) :=
          List.mem_map_of_mem _ hmem
        rw [← resolved_heads_numbered] at hm
        obtain ⟨zr, hr1, hr2⟩ := List.mem_map.1 hm
        simp only [Prod.mk.injEq] at hr2
        exact ⟨zr, hr1, by rw [hr2.1, hname], by rw [hid, hr2.2]⟩

/-- C11 on `definition user { } definition doc { relation r: user | ghost }`: the reference
`ghost`, whose name no definition has, gets `NOTDRAW`. -/
theorem plain_reference_ID_witness :
    ∃ o', plainAt (resolved exampleDanglingPlain) 1 0 1 = some o' ∧ o'.ID = NOTDRAW := by
  obtain ⟨o', h1, h2, _⟩ := plain_reference_ID
    (bytes "definition user \x7b \x7d definition doc \x7b relation r: user | ghost \x7d")
    exampleDanglingPlain none 1 0 1 { Name := bytes "ghost" } (by decide) (by decide)
  exact ⟨o', h1, h2.2 (by decide)⟩

/-- C12, as the claim states it, fails in its last part: in `definition a { } definition b { }
definition a { } definition b { }` the third and the fourth definition have the distinct names
`a` and `b` and the same, empty, identifier. -/
theorem duplicates_of_distinct_names_share_the_empty_ID :
    Parse (bytes ("definition a \x7b \x7d definition b \x7b \x7d " ++
        "definition a \x7b \x7d definition b \x7b \x7d"))
      = some (exampleABAB, none) ∧
    (resolved exampleABAB).map (fun zdef => (zdef.Name, zdef.ID))
      = [(bytes "a", bytes "b1"), (bytes "b", bytes "b2"), (bytes "a", bytes ""),
         (bytes "b", bytes "")] := by
  constructor <;> decide

/-- C12, amended: for every schema that the parser returns, the definition at position `i`
(counted from 0) gets the identifier `b` followed by the decimal of `i + 1` when no earlier
definition has its name, and keeps the empty identifier when an earlier definition has its
name; so the identifiers of two different definitions that are each the first of their name
are different. -/
theorem definition_ID_by_position (input : GoString) (zdefs : List ZDef)
    (err : Option GoString) (hp : Parse input = some (zdefs, err)) :
    (∀ (i : Nat) (zd : ZDef), zdefs[i]? = some zd →
      ∃ zd', (resolved zdefs)[i]? = some zd' ∧ zd'.Name = zd.Name ∧
        ((¬ ∃ k, k < i ∧ ∃ zk, zdefs[k]? = some zk ∧ zk.Name = zd.Name) →
          zd'.ID = bytes "b" ++ decimal (i + 1)) ∧
        ((∃ k, k < i ∧ ∃ zk, zdefs[k]? = some zk ∧ zk.Name = zd.Name) → zd'.ID = [])) ∧
    (∀ (i j : Nat) (zi zj zi' zj' : ZDef), i ≠ j → zdefs[i]? = some zi → zdefs[j]? = some zj →
      (¬ ∃ k, k < i ∧ ∃ zk, zdefs[k]? = some zk ∧ zk.Name = zi.Name) →
      (¬ ∃ k, k < j ∧ ∃ zk, zdefs[k]? = some zk ∧ zk.Name = zj.Name) →
      (resolved zdefs)[i]? = some zi' → (resolved zdefs)[j]? = some zj' → zi'.ID ≠ zj'.ID) := by
  have hf := Parse_fresh input zdefs err hp
  constructor
  · intro i zd h
    obtain ⟨zd', h1, h2, h3, h4⟩ := resolved_getElem zdefs i zd h
    exact ⟨zd', h1, h2, h4, fun hs => by rw [h3 hs]; exact hf zd (List.getElem?_mem h)⟩
  · intro i j zi zj zi' zj' hij hi hj hfi hfj hi' hj' e
    obtain ⟨a, a1, _, _, a4⟩ := resolved_getElem zdefs i zi hi
    obtain ⟨b, b1, _, _, b4⟩ := resolved_getElem zdefs j zj hj
    rw [hi'] at a1
    rw [hj'] at b1
    cases a1
    cases b1
    rw [a4 hfi, b4 hfj] at e
    exact hij (Nat.add_right_cancel (prefixed_decimal_inj _ _ _ e))

/-- The amended C12 on `definition a { } definition b { } definition a { } definition b { }`:
the second definition gets `b2` and the third keeps the empty identifier. -/
theorem definition_ID_by_position_witness :
    (∃ zd', (resolved exampleABAB)[1]? = some zd' ∧ zd'.ID = bytes "b" ++ decimal 2) ∧
    (∃ zd', (resolved exampleABAB)[2]? = some zd' ∧ zd'.ID = []) := by
  have h := definition_ID_by_position
    (bytes ("definition a \x7b \x7d definition b \x7b \x7d " ++
        "definition a \x7b \x7d definition b \x7b \x7d")) exampleABAB none (by decide)
  constructor
  · obtain ⟨zd', h1, _, h3, _⟩ := h.1 1 { Name := bytes "b" } (by decide)
    refine ⟨zd', h1, h3 ?_⟩
    rintro ⟨k, hk, zk, hzk, hname⟩
    have : k = 0 := by omega
    subst this
    revert hname
    simp only [exampleABAB, List.getElem?_cons_zero, Option.some.injEq] at hzk
    subst hzk
    decide
  · obtain ⟨zd', h1, _, _, h4⟩ := h.1 2 { Name := bytes "a" } (by decide)
    exact ⟨zd', h1, h4 ⟨0, by omega, { Name := bytes "a" }, by decide, rfl⟩⟩

/-! ## The identifiers of the relations -/

lemma relIDLoop_count (di c : Nat) (names : List GoString) (rels : List ZRelation) :
    (relIDLoop di c names rels).2 = c + rels.length := by
  induction rels generalizing c names with
  | nil => rfl
  | cons a rels ih =>
    simp only [relIDLoop]
    split
    · simp only [ih, List.length_cons]; omega
    · simp only [ih, List.length_cons]; omega

/-- The relation at a position after the inner loop of `createIDforZdefRelations`. -/
lemma relIDLoop_getElem (di c : Nat) (names : List GoString) (rels : List ZRelation)
    (j : Nat) (zrel : ZRelation) (h : rels[j]? = some zrel) :
    ∃ zrel', (relIDLoop di c names rels).1[j]? = some zrel' ∧ zrel'.Name = zrel.Name ∧
      ((zrel.Name ∈ names ∨ ∃ k, k < j ∧ ∃ zk, rels[k]? = some zk ∧ zk.Name = zrel.Name) →
        zrel'.ID = NOTDRAW) ∧
      (¬ (zrel.Name ∈ names ∨ ∃ k, k < j ∧ ∃ zk, rels[k]? = some zk ∧ zk.Name = zrel.Name) →
        zrel'.ID = bytes "r" ++ decimal (c + j + 1)) := by
  induction rels generalizing c names j with
  | nil => simp at h
  | cons a rels ih =>
    cases j with
    | zero =>
      simp only [List.getElem?_cons_zero, Option.some.injEq] at h
      subst h
      simp only [relIDLoop]
      by_cases hc : contains names a.Name = true
      · simp only [hc, if_true]
        refine ⟨{ a with ID := NOTDRAW }, by simp, rfl, fun _ => rfl, fun hn => ?_⟩
        exact absurd (Or.inl ((contains_iff _ _).1 hc)) hn
      · simp only [hc]
        refine ⟨{ a with ID := bytes "r" ++ decimal (c + 1), myZDef := some di }, by simp, rfl,
          fun hs => ?_, fun _ => rfl⟩
        rcases hs with hs | ⟨k, hk, _⟩
        · exact absurd ((contains_iff _ _).2 hs) hc
        · omega
    | succ j =>
      simp only [List.getElem?_cons_succ] at h
      simp only [relIDLoop]
      by_cases hc : contains names a.Name = true
      · simp only [hc, if_true]
        obtain ⟨zrel', h1, h2, h3, h4⟩ := ih (c + 1) names j h
        refine ⟨zrel', by simpa using h1, h2, fun hs => h3 ?_, fun hn => ?_⟩
        · rcases hs with hs | ⟨k, hk, zk, hzk, hname⟩
          · exact Or.inl hs
          · cases k with
            | zero =>
              simp only [List.getElem?_cons_zero, Option.some.injEq] at hzk
              subst hzk
              left; rw [← hname]; exact (contains_iff _ _).1 hc
            | succ k =>
              simp only [List.getElem?_cons_succ] at hzk
              exact Or.inr ⟨k, by omega, zk, hzk, hname⟩
        · have := h4 (fun hs => hn ?_)
          · rw [this]; congr 2; omega
          · rcases hs with hs | ⟨k, hk, zk, hzk, hname⟩
            · exact Or.inl hs
            · exact Or.inr ⟨k + 1, by omega, zk, by simpa using hzk, hname⟩
      · simp only [hc]
        obtain ⟨zrel', h1, h2, h3, h4⟩ := ih (c + 1) (names ++ [a.Name]) j h
        have key : (zrel.Name ∈ names ++ [a.Name] ∨
              ∃ k, k < j ∧ ∃ zk, rels[k]? = some zk ∧ zk.Name = zrel.Name) ↔
            (zrel.Name ∈ names ∨
              ∃ k, k < j + 1 ∧ ∃ zk, (a :: rels)[k]? = some zk ∧ zk.Name = zrel.Name) := by
          simp only [List.mem_append, List.mem_singleton]
          constructor
          · rintro ((hs | hs) | ⟨k, hk, zk, hzk, hname⟩)
            · exact Or.inl hs
            · exact Or.inr ⟨0, by omega, a, by simp, hs.symm⟩
            · exact Or.inr ⟨k + 1, by omega, zk, by simpa using hzk, hname⟩
          · rintro (hs | ⟨k, hk, zk, hzk, hname⟩)
            · exact Or.inl (Or.inl hs)
            · cases k with
              | zero =>
                simp only [List.getElem?_cons_zero, Option.some.injEq] at hzk
                subst hzk
                exact Or.inl (Or.inr hname.symm)
              | succ k =>
                simp only [List.getElem?_cons_succ] at hzk
                exact Or.inr ⟨k, by omega, zk, hzk, hname⟩
        refine ⟨zrel', by simpa using h1, h2, fun hs => h3 (key.2 hs), fun hn => ?_⟩
        have := h4 (fun hs => hn (key.1 hs))
        rw [this]; congr 2; omega

/-- The definition at a position after the outer loop of `createIDforZdefRelations`. -/
lemma defRelIDLoop_getElem (i c : Nat) (l : List ZDef) (d : Nat) (zd : ZDef)
    (h : l[d]? = some zd) :
    (defRelIDLoop i c l)[d]?
      = some { zd with
          Relations := (relIDLoop (i + d) (c + relationsBefore l d) [] zd.Relations).1 } := by
  induction l generalizing i c d with
  | nil => simp at h
  | cons a l ih =>
    cases d with
    | zero =>
      simp only [List.getElem?_cons_zero, Option.some.injEq] at h
      subst h
      simp [defRelIDLoop, relationsBefore]
    | succ d =>
      simp only [List.getElem?_cons_succ] at h
      simp only [defRelIDLoop, List.getElem?_cons_succ]
      rw [ih _ _ d h, relIDLoop_count]
      simp only [relationsBefore, List.take_succ_cons, List.map_cons, List.sum_cons]
      congr 4
      · omega
      · omega

lemma relationsBefore_lt (l : List ZDef) (d1 d2 r1 : Nat) (zd : ZDef) (h : l[d1]? = some zd)
    (hr : r1 < zd.Relations.length) (hd : d1 < d2) :
    relationsBefore l d1 + r1 < relationsBefore l d2 := by
  induction l generalizing d1 d2 with
  | nil => simp at h
  | cons a l ih =>
    cases d2 with
    | zero => omega
    | succ d2 =>
      cases d1 with
      | zero =>
        simp only [List.getElem?_cons_zero, Option.some.injEq] at h
        subst h
        simp only [relationsBefore, List.take_zero, List.map_nil, List.sum_nil,
          List.take_succ_cons, List.map_cons, List.sum_cons]
        omega
      | succ d1 =>
        simp only [List.getElem?_cons_succ] at h
        have := ih d1 d2 h (by omega)
        simp only [relationsBefore, List.take_succ_cons, List.map_cons, List.sum_cons] at this ⊢
        omega

lemma relationsBefore_eq_of_map (x y : List ZDef)
    (h : x.map (fun d => (d.Name, d.Relations)) = y.map (fun d => (d.Name, d.Relations)))
    (d : Nat) : relationsBefore x d = relationsBefore y d := by
  have h2 := congrArg (List.map (fun t : GoString × List ZRelation => t.2.length)) h
  simp only [List.map_map, Function.comp_def] at h2
  simp only [relationsBefore, List.map_take]
  rw [h2]

lemma relationAt_eq_some (z : List ZDef) (d r : Nat) (zrel : ZRelation)
    (h : relationAt z d r = some zrel) :
    ∃ zd, z[d]? = some zd ∧ zd.Relations[r]? = some zrel := by
  unfold relationAt at h
  cases hd : z[d]? with
  | none => rw [hd] at h; cases h
  | some zd =>
    rw [hd] at h
    exact ⟨zd, rfl, h⟩

lemma relationAt_of_getElem (z : List ZDef) (d r : Nat) (zd : ZDef) (h : z[d]? = some zd) :
    relationAt z d r = zd.Relations[r]? := by
  unfold relationAt
  rw [h]
  rfl

/-- The relation at a position after the identifiers of the relations have been given. -/
lemma relationAt_numbered_ID (z : List ZDef) (d r : Nat) (zrel : ZRelation)
    (h : relationAt z d r = some zrel) :
    ∃ nrel, relationAt (numbered z).Zdefs d r = some nrel ∧ nrel.Name = zrel.Name ∧
      ((∃ k, k < r ∧ ∃ zk, relationAt z d k = some zk ∧ zk.Name = zrel.Name) →
        nrel.ID = NOTDRAW) ∧
      (¬ (∃ k, k < r ∧ ∃ zk, relationAt z d k = some zk ∧ zk.Name = zrel.Name) →
        nrel.ID = bytes "r" ++ decimal (relationsBefore z d + r + 1)) := by
  obtain ⟨zd, hd, hr⟩ := relationAt_eq_some z d r zrel h
  have hmap := zdefIDLoop_relations 0 [] z
  have hz := congrArg (fun l => l[d]?) hmap
  simp only [List.getElem?_map, hd, Option.map_some'] at hz
  cases hz1 : (zdefIDLoop 0 [] z)[d]? with
  | none => rw [hz1] at hz; simp at hz
  | some zd1 =>
    rw [hz1] at hz
    simp only [Option.map_some', Option.some.injEq, Prod.mk.injEq] at hz
    have hN : (numbered z).Zdefs = defRelIDLoop 0 0 (zdefIDLoop 0 [] z) := rfl
    have hNd := defRelIDLoop_getElem 0 0 (zdefIDLoop 0 [] z) d zd1 hz1
    rw [relationsBefore_eq_of_map _ _ hmap, hz.2] at hNd
    simp only [Nat.zero_add] at hNd
    obtain ⟨nrel, h1, h2, h3, h4⟩ :=
      relIDLoop_getElem d (relationsBefore z d) [] zd.Relations r zrel hr
    refine ⟨nrel, ?_, h2, fun hs => h3 (Or.inr ?_), fun hn => h4 ?_⟩
    · rw [hN, relationAt_of_getElem _ d r _ hNd]
      exact h1
    · obtain ⟨k, hk, zk, hzk, hname⟩ := hs
      rw [relationAt_of_getElem z d k zd hd] at hzk
      exact ⟨k, hk, zk, hzk, hname⟩
    · rintro (hs | ⟨k, hk, zk, hzk, hname⟩)
      · cases hs
      · exact hn ⟨k, hk, zk, by rw [relationAt_of_getElem z d k zd hd]; exact hzk, hname⟩

/-- The relation at a position after the resolution: its name and identifier. -/
lemma relationAt_resolved_ID (z : List ZDef) (d r : Nat) (zrel : ZRelation)
    (h : relationAt z d r = some zrel) :
    ∃ zrel', relationAt (resolved z) d r = some zrel' ∧ zrel'.Name = zrel.Name ∧
      ((∃ k, k < r ∧ ∃ zk, relationAt z d k = some zk ∧ zk.Name = zrel.Name) →
        zrel'.ID = NOTDRAW) ∧
      (¬ (∃ k, k < r ∧ ∃ zk, relationAt z d k = some zk ∧ zk.Name = zrel.Name) →
        zrel'.ID = bytes "r" ++ decimal (relationsBefore z d + r + 1)) := by
  obtain ⟨nrel, h1, h2, h3, h4⟩ := relationAt_numbered_ID z d r zrel h
  refine ⟨resolveRelation (numbered z) nrel, ?_, h2, h3, h4⟩
  rw [relationAt_resolved, h1]
  rfl

/-- A position holds a relation after the resolution only if it held one before. -/
lemma relationAt_of_resolved (z : List ZDef) (d r : Nat) (zrel' : ZRelation)
    (h : relationAt (resolved z) d r = some zrel') : ∃ zrel, relationAt z d r = some zrel := by
  have h1 := relationAt_map (fun _ => ()) (resolved z) d r
  have h2 := relationAt_map (fun _ => ()) z d r
  have h3 := congrArg (List.map (fun t : GoString × List Unit => t.2))
    (resolved_map (fun _ => ()) (fun _ _ _ => rfl) (fun _ _ => rfl) z)
  simp only [List.map_map, Function.comp_def] at h3
  rw [h3, ← h2, h] at h1
  cases hz : relationAt z d r with
  | none => rw [hz] at h1; simp at h1
  | some zrel => exact ⟨zrel, rfl⟩

lemma relationsBefore_inj (z : List ZDef) (d1 r1 d2 r2 : Nat) (a b : ZRelation)
    (h1 : relationAt z d1 r1 = some a) (h2 : relationAt z d2 r2 = some b)
    (e : relationsBefore z d1 + r1 = relationsBefore z d2 + r2) : d1 = d2 ∧ r1 = r2 := by
  obtain ⟨zd1, hd1, hr1⟩ := relationAt_eq_some z d1 r1 a h1
  obtain ⟨zd2, hd2, hr2⟩ := relationAt_eq_some z d2 r2 b h2
  have l1 : r1 < zd1.Relations.length := (List.getElem?_eq_some.1 hr1).1
  have l2 : r2 < zd2.Relations.length := (List.getElem?_eq_some.1 hr2).1
  rcases Nat.lt_trichotomy d1 d2 with hlt | heq | hgt
  · have := relationsBefore_lt z d1 d2 r1 zd1 hd1 l1 hlt
    omega
  · subst heq
    exact ⟨rfl, by omega⟩
  · have := relationsBefore_lt z d2 d1 r2 zd2 hd2 l2 hgt
    omega

/-- C13: after the resolution a relation has the identifier `NOTDRAW` if and only if an
earlier relation of the same definition has the same name; every other relation gets `r`
followed by the decimal of its position, counted from 1, among all the relations of the
schema in the order of declaration, duplicates counted; so two different relations that are
drawn have different identifiers. -/
theorem relation_ID_by_position (zdefs : List ZDef) :
    (∀ (d r : Nat) (zrel : ZRelation), relationAt zdefs d r = some zrel →
      ∃ zrel', relationAt (resolved zdefs) d r = some zrel' ∧ zrel'.Name = zrel.Name ∧
        (zrel'.ID = NOTDRAW ↔
          ∃ k, k < r ∧ ∃ zk, relationAt zdefs d k = some zk ∧ zk.Name = zrel.Name) ∧
        (zrel'.ID ≠ NOTDRAW →
          zrel'.ID = bytes "r" ++ decimal (relationsBefore zdefs d + r + 1))) ∧
    (∀ (d1 r1 d2 r2 : Nat) (z1 z2 : ZRelation), (d1, r1) ≠ (d2, r2) →
      relationAt (resolved zdefs) d1 r1 = some z1 →
      relationAt (resolved zdefs) d2 r2 = some z2 →
      z1.ID ≠ NOTDRAW → z2.ID ≠ NOTDRAW → z1.ID ≠ z2.ID) := by
  have part1 : ∀ (d r : Nat) (zrel : ZRelation), relationAt zdefs d r = some zrel →
      ∃ zrel', relationAt (resolved zdefs) d r = some zrel' ∧ zrel'.Name = zrel.Name ∧
        (zrel'.ID = NOTDRAW ↔
          ∃ k, k < r ∧ ∃ zk, relationAt zdefs d k = some zk ∧ zk.Name = zrel.Name) ∧
        (zrel'.ID ≠ NOTDRAW →
          zrel'.ID = bytes "r" ++ decimal (relationsBefore zdefs d + r + 1)) := by
    intro d r zrel h
    obtain ⟨zrel', h1, h2, h3, h4⟩ := relationAt_resolved_ID zdefs d r zrel h
    refine ⟨zrel', h1, h2, ⟨fun e => ?_, h3⟩, fun hne => ?_⟩
    · by_contra hn
      rw [h4 hn] at e
      exact r_ne_NOTDRAW _ e
    · by_contra hx
      have hs : ∃ k, k < r ∧ ∃ zk, relationAt zdefs d k = some zk ∧ zk.Name = zrel.Name := by
        by_contra hn
        exact hx (h4 hn)
      exact hne (h3 hs)
  refine ⟨part1, ?_⟩
  intro d1 r1 d2 r2 z1 z2 hne h1 h2 n1 n2 e
  obtain ⟨a, ha⟩ := relationAt_of_resolved zdefs d1 r1 z1 h1
  obtain ⟨b, hb⟩ := relationAt_of_resolved zdefs d2 r2 z2 h2
  obtain ⟨a', ha1, _, _, ha4⟩ := part1 d1 r1 a ha
  obtain ⟨b', hb1, _, _, hb4⟩ := part1 d2 r2 b hb
  rw [h1] at ha1
  rw [h2] at hb1
  cases ha1
  cases hb1
  rw [ha4 n1, hb4 n2] at e
  have e2 := Nat.add_right_cancel (prefixed_decimal_inj _ _ _ e)
  obtain ⟨e3, e4⟩ := relationsBefore_inj zdefs d1 r1 d2 r2 a b ha hb e2
  exact hne (by rw [e3, e4])

/-- C13 on `definition user { } definition group { relation member: user relation member:
user } definition doc { relation reader: group#member }`: the second `member` is `NOTDRAW`,
and the drawn relations `member` and `reader` have different identifiers. -/
theorem relation_ID_by_position_witness :
    (∃ zrel', relationAt (resolved exampleDoubleRelation) 1 1 = some zrel' ∧
      zrel'.ID = NOTDRAW) ∧
    (∀ z1 z2 : ZRelation, relationAt (resolved exampleDoubleRelation) 1 0 = some z1 →
      relationAt (resolved exampleDoubleRelation) 2 0 = some z2 → z1.ID ≠ z2.ID) := by
  constructor
  · obtain ⟨zrel', h1, _, h3, _⟩ := (relation_ID_by_position exampleDoubleRelation).1 1 1
      { Name := bytes "member", Zobjects := [{ Name := bytes "user" }] } (by decide)
    exact ⟨zrel', h1, h3.2 ⟨0, by omega,
      { Name := bytes "member", Zobjects := [{ Name := bytes "user" }] }, by decide, rfl⟩⟩
  · intro z1 z2 h1 h2
    have e1 : z1.ID ≠ NOTDRAW := by
      have : (relationAt (resolved exampleDoubleRelation) 1 0).map (fun z => z.ID)
          = some (bytes "r1") := by decide
      rw [h1] at this
      simp only [Option.map_some', Option.some.injEq] at this
      rw [this]
      decide
    have e2 : z2.ID ≠ NOTDRAW := by
      have : (relationAt (resolved exampleDoubleRelation) 2 0).map (fun z => z.ID)
          = some (bytes "r3") := by decide
      rw [h2] at this
      simp only [Option.map_some', Option.some.injEq] at this
      rw [this]
      decide
    exact (relation_ID_by_position exampleDoubleRelation).2 1 0 2 0 z1 z2 (by decide) h1 h2
      e1 e2

/-! ## The lexer at a position of its input -/

lemma At_drop (l : Lexer) (pre rest : GoString) (h : At l pre rest) :
    l.input.drop l.pos = rest := by
  rw [h.1, h.2.1]
  exact List.drop_left _ _

lemma At_cur (l : Lexer) (pre : GoString) (c : Nat) (rest : GoString)
    (h : At l pre (c :: rest)) : l.cur = c := by
  unfold Lexer.cur
  rw [h.1, h.2.1]
  have e : (pre ++ c :: rest)[pre.length]? = some c := by
    rw [List.getElem?_append_right (le_refl _)]
    simp
  simp [List.getD_eq_getElem?_getD, e]

lemma At_lt (l : Lexer) (pre : GoString) (c : Nat) (rest : GoString)
    (h : At l pre (c :: rest)) : l.pos < l.length := by
  rw [h.2.2, h.1, h.2.1]
  simp

lemma At_ge (l : Lexer) (pre : GoString) (h : At l pre []) : l.pos ≥ l.length := by
  rw [h.2.2, h.1, h.2.1]
  simp

lemma At_step (l : Lexer) (pre : GoString) (c : Nat) (rest : GoString)
    (h : At l pre (c :: rest)) : At { l with pos := l.pos + 1 } (pre ++ [c]) rest := by
  refine ⟨?_, ?_, h.2.2⟩
  · show l.input = _
    rw [h.1]; simp
  · show l.pos + 1 = _
    rw [h.2.1]; simp

/-- The loop of `eatSpace` runs over a run of white space that ends the input or is
followed by another byte. -/
lemma eatSpaceLoop_at (ws : GoString) (hws : ∀ b ∈ ws, isSpace b = true) (fuel : Nat)
    (l : Lexer) (pre rest : GoString) (h : At l pre (ws ++ rest))
    (hrest : ∀ c t, rest = c :: t → isSpace c = false) (hf : ws.length ≤ fuel) :
    eatSpaceLoop fuel l = { l with pos := l.pos + ws.length } := by
  induction ws generalizing fuel l pre with
  | nil =>
    cases fuel with
    | zero => rfl
    | succ fuel =>
      simp only [eatSpaceLoop]
      cases rest with
      | nil =>
        have := At_ge l pre h
        have hn : ¬ (l.pos < l.length) := by omega
        simp [hn]
      | cons c t =>
        have hc := At_cur l pre c t h
        simp [hc, hrest c t rfl]
  | cons b ws ih =>
    cases fuel with
    | zero => simp at hf
    | succ fuel =>
      have hlt := At_lt l pre b (ws ++ rest) h
      have hc := At_cur l pre b (ws ++ rest) h
      have hb := hws b (List.mem_cons_self _ _)
      simp only [eatSpaceLoop, hlt, hc, hb, decide_True, Bool.and_self, if_true]
      rw [ih (fun x hx => hws x (List.mem_cons_of_mem _ hx)) fuel _ (pre ++ [b])
        (At_step l pre b _ h) (by simpa using hf)]
      simp only [List.length_cons, Lexer.mk.injEq, true_and, and_true]
      omega

lemma eatSpace_at (ws : GoString) (hws : ∀ b ∈ ws, isSpace b = true)
    (l : Lexer) (pre rest : GoString) (h : At l pre (ws ++ rest))
    (hrest : ∀ c t, rest = c :: t → isSpace c = false) :
    l.eatSpace = { l with pos := l.pos + ws.length } ∧ At l.eatSpace (pre ++ ws) rest := by
  have e : l.eatSpace = { l with pos := l.pos + ws.length } := by
    unfold Lexer.eatSpace
    apply eatSpaceLoop_at ws hws _ l pre rest h hrest
    rw [h.2.2, h.1, h.2.1]
    simp
  refine ⟨e, ?_⟩
  rw [e]
  refine ⟨?_, ?_, h.2.2⟩
  · show l.input = _
    rw [h.1]; simp
  · show l.pos + ws.length = _
    rw [h.2.1]; simp

/-- The loop of the identifiers runs over a run of identifier bytes that ends the input or
is followed by another byte. -/
lemma identLoop_at (X : GoString) (hX : ∀ b ∈ X, identChar b = true) (fuel : Nat)
    (l : Lexer) (pre rest : GoString) (h : At l pre (X ++ rest))
    (hrest : ∀ c t, rest = c :: t → identChar c = false) (hf : X.length ≤ fuel) :
    identLoop fuel l = { l with pos := l.pos + X.length } := by
  induction X generalizing fuel l pre with
  | nil =>
    cases fuel with
    | zero => rfl
    | succ fuel =>
      simp only [identLoop]
      cases rest with
      | nil =>
        have := At_ge l pre h
        have hn : ¬ (l.pos < l.length) := by omega
        simp [hn]
      | cons c t =>
        have hc := At_cur l pre c t h
        have := hrest c t rfl
        unfold identChar at this
        simp only [Bool.or_eq_false_iff] at this
        simp [hc, this.1.1, this.1.2, this.2]
  | cons b X ih =>
    cases fuel with
    | zero => simp at hf
    | succ fuel =>
      have hlt := At_lt l pre b (X ++ rest) h
      have hc := At_cur l pre b (X ++ rest) h
      have hb := hX b (List.mem_cons_self _ _)
      unfold identChar at hb
      simp only [identLoop, hlt, hc, hb, decide_True, Bool.and_self, if_true]
      rw [ih (fun x hx => hX x (List.mem_cons_of_mem _ hx)) fuel _ (pre ++ [b])
        (At_step l pre b _ h) (by simpa using hf)]
      simp only [List.length_cons, Lexer.mk.injEq, true_and, and_true]
      omega

lemma slice_at (pre X rest : GoString) :
    slice (pre ++ X ++ rest) pre.length (pre.length + X.length) = X := by
  unfold slice
  rw [List.append_assoc, ← List.length_append, ← List.append_assoc,
    List.take_left, List.drop_left]

/-- What `NextToken` returns when, after a run of white space, the next byte is `c`: the
cases of the source, read on `c` and on the bytes `t` after it. -/
lemma NextToken_at (ws : GoString) (hws : ∀ b ∈ ws, isSpace b = true)
    (l : Lexer) (pre : GoString) (c : Nat) (t : GoString) (h : At l pre (ws ++ c :: t))
    (hc : isSpace c = false) :
    l.NextToken =
      if hasPrefix (c :: t) (bytes "definition") then
        { input := l.input, pos := l.pos + ws.length + 10, length := l.length,
          currentItem := { Token := DefinitionToken, Value := bytes "definition" } }
      else if hasPrefix (c :: t) (bytes "relation") then
        { input := l.input, pos := l.pos + ws.length + 8, length := l.length,
          currentItem := { Token := RelationToken, Value := bytes "relation" } }
      else if c == 58 then
        { input := l.input, pos := l.pos + ws.length + 1, length := l.length,
          currentItem := { Token := ColonToken, Value := bytes ":" } }
      else if c == 124 then
        { input := l.input, pos := l.pos + ws.length + 1, length := l.length,
          currentItem := { Token := OrToken, Value := bytes "|" } }
      else if c == 123 then
        { input := l.input, pos := l.pos + ws.length + 1, length := l.length,
          currentItem := { Token := LeftBraceToken, Value := bytes "\x7b" } }
      else if c == 125 then
        { input := l.input, pos := l.pos + ws.length + 1, length := l.length,
          currentItem := { Token := RightBraceToken, Value := bytes "\x7d" } }
      else if c == 35 then
        { input := l.input, pos := l.pos + ws.length + 1, length := l.length,
          currentItem := { Token := HashToken, Value := bytes "#" } }
      else if c == 42 then
        { input := l.input, pos := l.pos + ws.length + 1, length := l.length,
          currentItem := { Token := WildCard, Value := bytes "*" } }
      else if isLetter c then
        { input := l.input,
          pos := (identLoop (l.length - (l.pos + ws.length))
            { l with pos := l.pos + ws.length }).pos,
          length := l.length,
          currentItem :=
            { Token := IdentifierToken,
              Value := slice l.input (l.pos + ws.length)
                (identLoop (l.length - (l.pos + ws.length))
                  { l with pos := l.pos + ws.length }).pos } }
      else
        { input := l.input, pos := l.pos + ws.length + 1, length := l.length,
          currentItem := { Token := InvalidToken, Value := runeString c } } := by
  obtain ⟨he, hA⟩ := eatSpace_at ws hws l pre (c :: t) h (fun c' t' e => by cases e; exact hc)
  have hlt : ¬ (l.eatSpace.pos ≥ l.eatSpace.length) := by
    have := At_lt _ _ _ _ hA
    omega
  have hd := At_drop _ _ _ hA
  have hcur := At_cur _ _ _ _ hA
  have hinput : (identLoop (l.eatSpace.length - l.eatSpace.pos) l.eatSpace).input = l.input := by
    rw [(identLoop_spec _ _).1, he]
  have hlength : ∀ f e, (identLoop f e).length = e.length := by
    intro f
    induction f with
    | zero => intro e; rfl
    | succ f ih =>
      intro e
      simp only [identLoop]
      split
      · rw [ih]
      · rfl
  unfold Lexer.NextToken
  lift_lets
  intro e l1
  have e1 : e = l.eatSpace := rfl
  have e2 : l1 = identLoop (e.length - e.pos) e := rfl
  clear_value l1 e
  subst e2
  subst e1
  rw [if_neg hlt, hd, hcur, hinput, hlength]
  rw [he]
  rfl

lemma isSpace_cases (c : Nat) (h : isSpace c = true) :
    c = 9 ∨ c = 10 ∨ c = 11 ∨ c = 12 ∨ c = 13 ∨ c = 32 ∨ c = 133 ∨ c = 160 := by
  unfold isSpace at h
  simp only [Bool.or_eq_true, beq_iff_eq] at h
  omega

lemma isSpace_of_isLetter (c : Nat) (h : isLetter c = true) : isSpace c = false := by
  cases hs : isSpace c with
  | false => rfl
  | true =>
    rcases isSpace_cases c hs with e | e | e | e | e | e | e | e <;> subst e <;>
      exact absurd h (by decide)

lemma not_symbol_of_isLetter (c : Nat) (h : isLetter c = true) :
    (c == 58) = false ∧ (c == 124) = false ∧ (c == 123) = false ∧ (c == 125) = false ∧
      (c == 35) = false ∧ (c == 42) = false := by
  refine ⟨?_, ?_, ?_, ?_, ?_, ?_⟩ <;>
    · cases hc : (c == _) with
      | false => rfl
      | true =>
        have e := beq_iff_eq.1 hc
        subst e
        exact absurd h (by decide)

/-- A keyword is not a prefix of an identifier that does not begin with it, whatever
follows the identifier. -/
lemma not_prefix_append (kw : GoString) (hkw : ∀ b ∈ kw, identChar b = true) (X rest : GoString)
    (hrest : ∀ c t, rest = c :: t → identChar c = false) (h : kw.isPrefixOf X = false) :
    kw.isPrefixOf (X ++ rest) = false := by
  induction kw generalizing X with
  | nil => simp [List.isPrefixOf] at h
  | cons k kw ih =>
    cases X with
    | nil =>
      cases rest with
      | nil => rfl
      | cons c t =>
        simp only [List.nil_append, List.isPrefixOf, Bool.and_eq_false_imp, beq_iff_eq]
        intro e
        subst e
        have h1 := hkw k (List.mem_cons_self _ _)
        rw [hrest k t rfl] at h1
        cases h1
    | cons x X =>
      simp only [List.cons_append, List.isPrefixOf, Bool.and_eq_false_imp, beq_iff_eq] at h ⊢
      intro e
      exact ih (fun b hb => hkw b (List.mem_cons_of_mem _ hb)) X (h e)

lemma isIdentifier_spec (X : GoString) (h : isIdentifier X = true) :
    ∃ c t, X = c :: t ∧ isLetter c = true ∧ (∀ b ∈ X, identChar b = true) ∧
      hasPrefix X (bytes "definition") = false ∧ hasPrefix X (bytes "relation") = false := by
  cases X with
  | nil => simp [isIdentifier] at h
  | cons c t =>
    simp only [isIdentifier, Bool.and_eq_true, Bool.not_eq_true', List.all_eq_true] at h
    exact ⟨c, t, rfl, h.1.1.1, h.1.1.2, h.1.2, h.2⟩

/-- At the end of the input, after white space, `NextToken` returns `EOFToken`. -/
lemma NextToken_eof (ws : GoString) (hws : ∀ b ∈ ws, isSpace b = true)
    (l : Lexer) (pre : GoString) (h : At l pre ws) :
    l.NextToken.currentItem = { Token := EOFToken, Value := [] } ∧
      At l.NextToken (pre ++ ws) [] := by
  obtain ⟨he, hA⟩ := eatSpace_at ws hws l pre [] (by simpa using h) (fun c t e => by cases e)
  have hge := At_ge _ _ hA
  have e : l.NextToken = { l.eatSpace with currentItem := { Token := EOFToken, Value := [] } } := by
    unfold Lexer.NextToken
    lift_lets
    intro e l1
    rw [if_pos hge]
  rw [e]
  exact ⟨rfl, hA⟩

/-- After white space, the keyword `definition` is read as `DefinitionToken`, whatever
follows it. -/
lemma NextToken_definition (ws : GoString) (hws : ∀ b ∈ ws, isSpace b = true)
    (l : Lexer) (pre rest : GoString) (h : At l pre (ws ++ bytes "definition" ++ rest)) :
    l.NextToken.currentItem = { Token := DefinitionToken, Value := bytes "definition" } ∧
      At l.NextToken (pre ++ ws ++ bytes "definition") rest := by
  have hb : bytes "definition" = 100 :: bytes "efinition" := by decide
  have h' : At l pre (ws ++ 100 :: (bytes "efinition" ++ rest)) := by
    rw [hb] at h
    simpa using h
  have hp : hasPrefix (100 :: (bytes "efinition" ++ rest)) (bytes "definition") = true := by
    rw [hb]
    simp [hasPrefix, List.isPrefixOf]
  rw [NextToken_at ws hws l pre 100 _ h' (by decide), if_pos hp]
  refine ⟨rfl, ?_, ?_, h.2.2⟩
  · show l.input = _
    rw [h.1]; simp
  · show l.pos + ws.length + 10 = _
    rw [h.2.1, hb]
    simp [bytes]
    omega

/-- After white space, `{` is read as `LeftBraceToken`. -/
lemma NextToken_leftBrace (ws : GoString) (hws : ∀ b ∈ ws, isSpace b = true)
    (l : Lexer) (pre rest : GoString) (h : At l pre (ws ++ 123 :: rest)) :
    l.NextToken.currentItem = { Token := LeftBraceToken, Value := bytes "\x7b" } ∧
      At l.NextToken (pre ++ ws ++ [123]) rest := by
  rw [NextToken_at ws hws l pre 123 _ h (by decide)]
  have h1 : hasPrefix (123 :: rest) (bytes "definition") = false := rfl
  have h2 : hasPrefix (123 :: rest) (bytes "relation") = false := rfl
  rw [if_neg (by rw [h1]; simp), if_neg (by rw [h2]; simp)]
  refine ⟨rfl, ?_, ?_, h.2.2⟩
  · show l.input = _
    rw [h.1]; simp
  · show l.pos + ws.length + 1 = _
    rw [h.2.1]
    simp
    omega

/-- After white space, an identifier that ends the input or is followed by a byte that is
not an identifier byte is read as `IdentifierToken` with the identifier as value. -/
lemma NextToken_identifier (ws : GoString) (hws : ∀ b ∈ ws, isSpace b = true)
    (l : Lexer) (pre X rest : GoString) (h : At l pre (ws ++ X ++ rest))
    (hX : isIdentifier X = true) (hrest : ∀ c t, rest = c :: t → identChar c = false) :
    l.NextToken.currentItem = { Token := IdentifierToken, Value := X } ∧
      At l.NextToken (pre ++ ws ++ X) rest := by
  obtain ⟨c, t, hXc, hlet, hall, hkd, hkr⟩ := isIdentifier_spec X hX
  have h' : At l pre (ws ++ c :: (t ++ rest)) := by
    rw [hXc] at h
    simpa using h
  have hkwd : ∀ b ∈ bytes "definition", identChar b = true := by decide
  have hkwr : ∀ b ∈ bytes "relation", identChar b = true := by decide
  have h1 : hasPrefix (c :: (t ++ rest)) (bytes "definition") = false := by
    have := not_prefix_append _ hkwd X rest hrest hkd
    rw [hXc] at this
    exact this
  have h2 : hasPrefix (c :: (t ++ rest)) (bytes "relation") = false := by
    have := not_prefix_append _ hkwr X rest hrest hkr
    rw [hXc] at this
    exact this
  obtain ⟨n1, n2, n3, n4, n5, n6⟩ := not_symbol_of_isLetter c hlet
  have hA2 : At { l with pos := l.pos + ws.length } (pre ++ ws) (X ++ rest) := by
    refine ⟨?_, ?_, h.2.2⟩
    · show l.input = _
      rw [h.1]; simp
    · show l.pos + ws.length = _
      rw [h.2.1]; simp
  have hfuel : X.length ≤ l.length - (l.pos + ws.length) := by
    rw [h.2.2, h.1, h.2.1]
    simp
    omega
  have hloop := identLoop_at X hall _ _ (pre ++ ws) rest hA2 hrest hfuel
  rw [NextToken_at ws hws l pre c _ h' (isSpace_of_isLetter c hlet)]
  rw [if_neg (by rw [h1]; simp), if_neg (by rw [h2]; simp), if_neg (by rw [n1]; simp),
    if_neg (by rw [n2]; simp), if_neg (by rw [n3]; simp), if_neg (by rw [n4]; simp),
    if_neg (by rw [n5]; simp), if_neg (by rw [n6]; simp), if_pos hlet, hloop]
  refine ⟨?_, ?_, ?_, h.2.2⟩
  · show Item.mk IdentifierToken (slice l.input (l.pos + ws.length) (l.pos + ws.length + X.length))
      = _
    have hs := slice_at (pre ++ ws) X rest
    rw [h.1, h.2.1]
    simp only [List.length_append, List.append_assoc] at hs ⊢
    rw [hs]
  · show l.input = _
    rw [h.1]; simp
  · show l.pos + ws.length + X.length = _
    rw [h.2.1]
    simp
    omega

/-- C18, as the claim states it, fails on the names that the lexer does not read as one
identifier: for `relations` and `definitionFoo`, which begin with a keyword, and for `_x`, which
begins with an underscore, the truncated text `definition X {` is rejected at the name, and
the message names the identifier that is missing, not the closing brace. -/
theorem truncated_definition_fails_at_the_name :
    Parse (bytes "definition relations \x7b")
      = some ([], some (bytes "expected token 'Identifier', but got 'relation'")) ∧
    Parse (bytes "definition definitionFoo \x7b")
      = some ([], some (bytes "expected token 'Identifier', but got 'definition'")) ∧
    Parse (bytes "definition _x \x7b")
      = some ([], some (bytes "expected token 'Identifier', but got '_'")) := by
  refine ⟨?_, ?_, ?_⟩ <;> decide

/-- C18, amended: for every name `X` that the lexer reads as one identifier (it starts with a
letter, is made of letters, digits and underscores, and does not begin with `definition` or
`relation`), parsing the truncated text `definition X {` returns no definition and the error
`expected token '}', but got ''`: the closing brace is missing and the token found is the end
of the input, whose value is empty. -/
theorem truncated_definition_is_rejected (X : GoString) (hX : isIdentifier X = true) :
    Parse (bytes "definition " ++ X ++ bytes " \x7b")
      = some ([], some (bytes "expected token '\x7d', but got ''")) := by
  have hin : bytes "definition " ++ X ++ bytes " \x7b"
      = [] ++ bytes "definition" ++ ([32] ++ X ++ ([32] ++ 123 :: [])) := by
    have e1 : bytes "definition " = bytes "definition" ++ [32] := by decide
    have e2 : bytes " \x7b" = [32, 123] := by decide
    rw [e1, e2]
    simp
  have hsp : ∀ b ∈ ([32] : GoString), isSpace b = true := by decide
  have hnil : ∀ b ∈ ([] : GoString), isSpace b = true := by decide
  rw [hin]
  generalize hinput : ([] ++ bytes "definition" ++ ([32] ++ X ++ ([32] ++ 123 :: [])) : GoString)
      = input
  have hA : At (NewLexer input) [] ([] ++ bytes "definition" ++ ([32] ++ X ++ ([32] ++ 123 :: []))) :=
    ⟨by rw [hinput]; rfl, rfl, rfl⟩
  obtain ⟨i0, A0⟩ := NextToken_definition [] hnil _ _ _ hA
  obtain ⟨i1, A1⟩ := NextToken_identifier [32] hsp _ _ X _ A0 hX
    (fun c t e => by cases e; decide)
  obtain ⟨i2, A2⟩ := NextToken_leftBrace [32] hsp _ _ _ A1
  obtain ⟨i3, _⟩ := NextToken_eof [] hnil _ _ A2
  generalize h0 : (NewLexer input).NextToken = l0 at i0 i1 i2 i3
  generalize h1 : l0.NextToken = l1 at i1 i2 i3
  generalize h2 : l1.NextToken = l2 at i2 i3
  generalize h3 : l2.NextToken = l3 at i3
  have t0 : l0.currentItem.Token = DefinitionToken := by rw [i0]
  have t1 : l1.currentItem.Token = IdentifierToken := by rw [i1]
  have v1 : l1.currentItem.Value = X := by rw [i1]
  have t2 : l2.currentItem.Token = LeftBraceToken := by rw [i2]
  have t3 : l3.currentItem.Token = EOFToken := by rw [i3]
  have v3 : l3.currentItem.Value = [] := by rw [i3]
  have hbody : l3.readZBody { Name := X } = some (l3, { Name := X }, none) := by
    unfold Lexer.readZBody
    rw [bodyLoop, t3]
    rfl
  have hdef : l0.readZDef
      = some (l3, { Name := X }, some (bytes "expected token '\x7d', but got ''")) := by
    unfold Lexer.readZDef
    have hmsg : bytes "expected token '" ++ TokenToString RightBraceToken ++
        bytes "', but got '" ++ [] ++ bytes "'" = bytes "expected token '\x7d', but got ''" := by
      decide
    simp only [Lexer.readAndMatchToken, t0, h1, t1, v1, h2, t2, h3, if_true, hbody, t3, v3]
    rw [if_neg (by decide : ¬ EOFToken = RightBraceToken)]
    simp only [hmsg]
  unfold Parse Lexer.ReadZSchema
  rw [h0, schemaLoop, t0, if_pos (by decide), hdef]
  rfl

lemma NextToken_eq_lexNext (l : Lexer) : l.NextToken = lexNext l.eatSpace := rfl

lemma shift_cur (p : GoString) (it : Item) (l : Lexer) : (shift p it l).cur = l.cur := by
  unfold Lexer.cur shift
  simp only [List.getD_eq_getElem?_getD]
  rw [List.getElem?_append_right (by omega)]
  simp

lemma shift_drop (p : GoString) (it : Item) (l : Lexer) :
    (shift p it l).input.drop (shift p it l).pos = l.input.drop l.pos := by
  unfold shift
  simp only
  rw [Nat.add_comm, ← List.drop_drop, List.drop_left]

lemma shift_step (p : GoString) (it : Item) (l : Lexer) (k : Nat) :
    ({ shift p it l with pos := (shift p it l).pos + k } : Lexer)
      = shift p it { l with pos := l.pos + k } := by
  simp only [shift, Lexer.mk.injEq, true_and, and_true]
  omega

lemma eatSpaceLoop_shift (p : GoString) (it : Item) (fuel : Nat) (l : Lexer) :
    eatSpaceLoop fuel (shift p it l) = shift p it (eatSpaceLoop fuel l) := by
  induction fuel generalizing l with
  | zero => rfl
  | succ fuel ih =>
    simp only [eatSpaceLoop, shift_cur]
    have hc : decide ((shift p it l).pos < (shift p it l).length) = decide (l.pos < l.length) := by
      simp [shift]
    rw [hc]
    split
    · rw [shift_step, ih]
    · rfl

lemma eatSpace_shift (p : GoString) (it : Item) (l : Lexer) :
    (shift p it l).eatSpace = shift p it l.eatSpace := by
  unfold Lexer.eatSpace
  rw [← eatSpaceLoop_shift]
  congr 1
  simp only [shift]
  omega

lemma identLoop_shift (p : GoString) (it : Item) (fuel : Nat) (l : Lexer) :
    identLoop fuel (shift p it l) = shift p it (identLoop fuel l) := by
  induction fuel generalizing l with
  | zero => rfl
  | succ fuel ih =>
    simp only [identLoop, shift_cur]
    have hc : decide ((shift p it l).pos < (shift p it l).length) = decide (l.pos < l.length) := by
      simp [shift]
    rw [hc]
    split
    · rw [shift_step, ih]
    · rfl

lemma slice_shift (p s : GoString) (i j : Nat) :
    slice (p ++ s) (i + p.length) (j + p.length) = slice s i j := by
  unfold slice
  rw [Nat.add_comm j, List.take_append, Nat.add_comm i, ← List.drop_drop, List.drop_left]

lemma lexNext_shift (p : GoString) (it : Item) (e : Lexer) :
    lexNext (shift p it e) = shift p (lexNext e).currentItem (lexNext e) := by
  have hd := shift_drop p it e
  have hcur := shift_cur p it e
  have hil := identLoop_shift p it (e.length - e.pos) e
  have hfuel : (shift p it e).length - (shift p it e).pos = e.length - e.pos := by
    simp only [shift]; omega
  by_cases c1 : e.pos ≥ e.length
  · have c1' : (shift p it e).pos ≥ (shift p it e).length := by
      simp only [shift]; omega
    rw [lexNext, if_pos c1', lexNext, if_pos c1]
    rfl
  have c1' : ¬ (shift p it e).pos ≥ (shift p it e).length := by
    simp only [shift]; omega
  rw [lexNext, if_neg c1', hd, hcur, hfuel, hil]
  generalize hr : lexNext e = r
  rw [lexNext, if_neg c1] at hr
  by_cases c2 : hasPrefix (List.drop e.pos e.input) (bytes "definition") = true
  · rw [if_pos c2] at hr ⊢
    subst hr
    simp only [shift, Lexer.mk.injEq, true_and, and_true]
    omega
  rw [if_neg c2] at hr ⊢
  by_cases c3 : hasPrefix (List.drop e.pos e.input) (bytes "relation") = true
  · rw [if_pos c3] at hr ⊢
    subst hr
    simp only [shift, Lexer.mk.injEq, true_and, and_true]
    omega
  rw [if_neg c3] at hr ⊢
  by_cases c4 : (e.cur == 58) = true
  · rw [if_pos c4] at hr ⊢
    subst hr
    simp only [shift, Lexer.mk.injEq, true_and, and_true]
    omega
  rw [if_neg c4] at hr ⊢
  by_cases c5 : (e.cur == 124) = true
  · rw [if_pos c5] at hr ⊢
    subst hr
    simp only [shift, Lexer.mk.injEq, true_and, and_true]
    omega
  rw [if_neg c5] at hr ⊢
  by_cases c6 : (e.cur == 123) = true
  · rw [if_pos c6] at hr ⊢
    subst hr
    simp only [shift, Lexer.mk.injEq, true_and, and_true]
    omega
  rw [if_neg c6] at hr ⊢
  by_cases c7 : (e.cur == 125) = true
  · rw [if_pos c7] at hr ⊢
    subst hr
    simp only [shift, Lexer.mk.injEq, true_and, and_true]
    omega
  rw [if_neg c7] at hr ⊢
  by_cases c8 : (e.cur == 35) = true
  · rw [if_pos c8] at hr ⊢
    subst hr
    simp only [shift, Lexer.mk.injEq, true_and, and_true]
    omega
  rw [if_neg c8] at hr ⊢
  by_cases c9 : (e.cur == 42) = true
  · rw [if_pos c9] at hr ⊢
    subst hr
    simp only [shift, Lexer.mk.injEq, true_and, and_true]
    omega
  rw [if_neg c9] at hr ⊢
  by_cases c10 : isLetter e.cur = true
  · rw [if_pos c10] at hr ⊢
    subst hr
    simp only [shift, Lexer.mk.injEq, true_and, and_true, Item.mk.injEq]
    exact slice_shift p e.input e.pos _
  · rw [if_neg c10] at hr ⊢
    subst hr
    simp only [shift, Lexer.mk.injEq, true_and, and_true]
    omega

/-- `NextToken` reads the input from the cursor on only: a text put before the input moves
the positions and nothing else, and the current item is not read. -/
lemma NextToken_shift (p : GoString) (it : Item) (l : Lexer) :
    (shift p it l).NextToken = shift p l.NextToken.currentItem l.NextToken := by
  rw [NextToken_eq_lexNext, NextToken_eq_lexNext, eatSpace_shift, lexNext_shift]

lemma tokenStream_shift (p : GoString) (it : Item) (n : Nat) (l : Lexer) :
    tokenStream n (shift p it l) = tokenStream n l := by
  induction n generalizing it l with
  | zero => rfl
  | succ n ih =>
    simp only [tokenStream]
    rw [NextToken_shift]
    have e : (shift p l.NextToken.currentItem l.NextToken).currentItem
        = l.NextToken.currentItem := rfl
    rw [e, ih]

/-- After white space, the keyword `relation` is read as `RelationToken`, whatever follows
it. -/
lemma NextToken_relation (ws : GoString) (hws : ∀ b ∈ ws, isSpace b = true)
    (l : Lexer) (pre rest : GoString) (h : At l pre (ws ++ bytes "relation" ++ rest)) :
    l.NextToken.currentItem = { Token := RelationToken, Value := bytes "relation" } ∧
      At l.NextToken (pre ++ ws ++ bytes "relation") rest := by
  have hb : bytes "relation" = 114 :: bytes "elation" := by decide
  have h' : At l pre (ws ++ 114 :: (bytes "elation" ++ rest)) := by
    rw [hb] at h
    simpa using h
  have hp1 : hasPrefix (114 :: (bytes "elation" ++ rest)) (bytes "definition") = false := rfl
  have hp : hasPrefix (114 :: (bytes "elation" ++ rest)) (bytes "relation") = true := by
    rw [hb]
    simp [hasPrefix, List.isPrefixOf]
  rw [NextToken_at ws hws l pre 114 _ h' (by decide), if_neg (by rw [hp1]; simp), if_pos hp]
  refine ⟨rfl, ?_, ?_, h.2.2⟩
  · show l.input = _
    rw [h.1]; simp
  · show l.pos + ws.length + 8 = _
    rw [h.2.1, hb]
    simp [bytes]
    omega

lemma At_eq_shift (l : Lexer) (p s : GoString) (h : At l p s) :
    l = shift p l.currentItem (NewLexer s) := by
  obtain ⟨h1, h2, h3⟩ := h
  cases l with
  | mk input pos length currentItem =>
    simp only at h1 h2 h3
    subst h1 h2 h3
    simp [shift, NewLexer, Nat.add_comm]

/-- C19: the keywords are matched on a prefix, without a word boundary. For every string
`s`, the first token of `"definition" ++ s` is the keyword `definition`, the cursor then
stands at the start of `s`, and the tokens that follow are the tokens of `s`; the same holds
for `relation`. So `definitionFoo` gives the keyword, the identifier `Foo` and the end of the
input. -/
theorem keyword_is_matched_on_prefix (s : GoString) :
    ((NewLexer (bytes "definition" ++ s)).NextToken.currentItem
        = { Token := DefinitionToken, Value := bytes "definition" } ∧
      (NewLexer (bytes "definition" ++ s)).NextToken.input.drop
        (NewLexer (bytes "definition" ++ s)).NextToken.pos = s ∧
      ∀ n, tokenStream n (NewLexer (bytes "definition" ++ s)).NextToken
        = tokenStream n (NewLexer s)) ∧
    ((NewLexer (bytes "relation" ++ s)).NextToken.currentItem
        = { Token := RelationToken, Value := bytes "relation" } ∧
      (NewLexer (bytes "relation" ++ s)).NextToken.input.drop
        (NewLexer (bytes "relation" ++ s)).NextToken.pos = s ∧
      ∀ n, tokenStream n (NewLexer (bytes "relation" ++ s)).NextToken
        = tokenStream n (NewLexer s)) ∧
    tokenStream 5 (NewLexer (bytes "definitionFoo"))
      = [{ Token := DefinitionToken, Value := bytes "definition" },
         { Token := IdentifierToken, Value := bytes "Foo" },
         { Token := EOFToken, Value := bytes "" }] := by
  have hnil : ∀ b ∈ ([] : GoString), isSpace b = true := by decide
  refine ⟨?_, ?_, by decide⟩
  · have hA : At (NewLexer (bytes "definition" ++ s)) [] ([] ++ bytes "definition" ++ s) :=
      ⟨rfl, rfl, rfl⟩
    obtain ⟨hi, hAt⟩ := NextToken_definition [] hnil _ _ _ hA
    simp only [List.nil_append] at hAt
    refine ⟨hi, At_drop _ _ _ hAt, fun n => ?_⟩
    rw [At_eq_shift _ _ _ hAt, tokenStream_shift]
  · have hA : At (NewLexer (bytes "relation" ++ s)) [] ([] ++ bytes "relation" ++ s) :=
      ⟨rfl, rfl, rfl⟩
    obtain ⟨hi, hAt⟩ := NextToken_relation [] hnil _ _ _ hA
    simp only [List.nil_append] at hAt
    refine ⟨hi, At_drop _ _ _ hAt, fun n => ?_⟩
    rw [At_eq_shift _ _ _ hAt, tokenStream_shift]

/-- The amended C18 on the identifier `X`. -/
theorem truncated_definition_is_rejected_witness :
    isIdentifier (bytes "X") = true ∧
    Parse (bytes "definition " ++ bytes "X" ++ bytes " \x7b")
      = some ([], some (bytes "expected token '\x7d', but got ''")) :=
  ⟨by decide, truncated_definition_is_rejected (bytes "X") (by decide)⟩

/-! ## The cursor of the lexer -/

lemma Later_refl (l : Lexer) (h : InBounds l) : Later l l := ⟨h, rfl, le_refl _⟩

lemma Later_trans (a b c : Lexer) (h1 : Later a b) (h2 : Later b c) : Later a c :=
  ⟨h2.1, h2.2.1.trans h1.2.1, le_trans h1.2.2 h2.2.2⟩

lemma Later_length (l l1 : Lexer) (h : InBounds l) (h1 : Later l l1) : l1.length = l.length := by
  rw [h1.1.1, h1.2.1, h.1]

lemma eatSpaceLoop_bounds (fuel : Nat) (l : Lexer) :
    (eatSpaceLoop fuel l).length = l.length ∧ l.pos ≤ (eatSpaceLoop fuel l).pos ∧
      (l.pos ≤ l.length → (eatSpaceLoop fuel l).pos ≤ l.length) := by
  induction fuel generalizing l with
  | zero => exact ⟨rfl, le_refl _, id⟩
  | succ fuel ih =>
    simp only [eatSpaceLoop]
    split
    · rename_i h
      simp only [Bool.and_eq_true, decide_eq_true_eq] at h
      obtain ⟨h1, h2, h3⟩ := ih { l with pos := l.pos + 1 }
      simp only at h1 h2 h3
      exact ⟨h1, by omega, fun _ => h3 (by omega)⟩
    · exact ⟨rfl, le_refl _, id⟩

lemma identLoop_bounds (fuel : Nat) (l : Lexer) :
    (identLoop fuel l).length = l.length ∧ (identLoop fuel l).currentItem = l.currentItem ∧
      (l.pos ≤ l.length → (identLoop fuel l).pos ≤ l.length) := by
  induction fuel generalizing l with
  | zero => exact ⟨rfl, rfl, id⟩
  | succ fuel ih =>
    simp only [identLoop]
    split
    · rename_i h
      simp only [Bool.and_eq_true, decide_eq_true_eq] at h
      obtain ⟨h1, h2, h3⟩ := ih { l with pos := l.pos + 1 }
      simp only at h1 h2 h3
      exact ⟨h1, h2, fun _ => h3 (by omega)⟩
    · exact ⟨rfl, rfl, id⟩

/-- The loop of the identifiers reads the letter it starts on. -/
lemma identLoop_first (fuel : Nat) (l : Lexer) (hlt : l.pos < l.length)
    (hc : isLetter l.cur = true) (hf : 0 < fuel) : l.pos < (identLoop fuel l).pos := by
  cases fuel with
  | zero => omega
  | succ fuel =>
    simp only [identLoop, hlt, hc, decide_True, Bool.true_or, Bool.and_self, if_true]
    have := (identLoop_spec fuel { l with pos := l.pos + 1 }).2.1
    simp only at this
    omega

lemma eatSpace_later (l : Lexer) (h : InBounds l) :
    Later l l.eatSpace ∧ l.eatSpace.currentItem = l.currentItem := by
  unfold Lexer.eatSpace
  obtain ⟨h1, h2, h3⟩ := eatSpaceLoop_bounds (l.length - l.pos) l
  obtain ⟨h4, h5⟩ := eatSpaceLoop_item (l.length - l.pos) l
  refine ⟨⟨⟨?_, ?_⟩, h5, h2⟩, h4⟩
  · rw [h1, h5]; exact h.1
  · rw [h1]; exact h3 h.2

lemma isPrefixOf_length (p s : GoString) (h : p.isPrefixOf s = true) : p.length ≤ s.length := by
  induction p generalizing s with
  | nil => exact Nat.zero_le _
  | cons a p ih =>
    cases s with
    | nil => simp [List.isPrefixOf] at h
    | cons b s =>
      simp only [List.isPrefixOf, Bool.and_eq_true] at h
      simp only [List.length_cons]
      exact Nat.succ_le_succ (ih s h.2)

lemma hasPrefix_drop_length (s p : GoString) (n : Nat) (h : hasPrefix (s.drop n) p = true) :
    n + p.length ≤ s.length ∨ p = [] := by
  unfold hasPrefix at h
  have h1 := isPrefixOf_length _ _ h
  rw [List.length_drop] at h1
  by_cases hp : p = []
  · exact Or.inr hp
  · left
    have : 0 < p.length := List.length_pos.2 hp
    omega

/-- The cursor after a token: in bounds, not before the cursor before it, and strictly after
it unless the token is the end of the input. -/
lemma lexNext_later (e : Lexer) (h : InBounds e) :
    Later e (lexNext e) ∧
      ((lexNext e).currentItem.Token ≠ EOFToken → e.pos < (lexNext e).pos) := by
  have one : ∀ it : Item, e.pos < e.length →
      Later e { e with currentItem := it, pos := e.pos + 1 } ∧
        e.pos < ({ e with currentItem := it, pos := e.pos + 1 } : Lexer).pos := by
    intro it hlt
    refine ⟨⟨⟨h.1, ?_⟩, rfl, ?_⟩, ?_⟩
    · show e.pos + 1 ≤ e.length
      omega
    · show e.pos ≤ e.pos + 1
      omega
    · show e.pos < e.pos + 1
      omega
  generalize hr : lexNext e = r
  rw [lexNext] at hr
  by_cases c1 : e.pos ≥ e.length
  · rw [if_pos c1] at hr
    subst hr
    exact ⟨⟨h, rfl, le_refl _⟩, fun hne => absurd rfl hne⟩
  rw [if_neg c1] at hr
  have hlt : e.pos < e.length := by omega
  by_cases c2 : hasPrefix (List.drop e.pos e.input) (bytes "definition") = true
  · rw [if_pos c2] at hr
    subst hr
    have hl := hasPrefix_drop_length _ _ _ c2
    have hk : (bytes "definition").length = 10 := rfl
    have hne : bytes "definition" ≠ [] := by decide
    have hh := h.1
    refine ⟨⟨⟨h.1, ?_⟩, rfl, ?_⟩, fun _ => ?_⟩
    · show e.pos + (bytes "definition").length ≤ e.length
      rcases hl with hl | hl
      · omega
      · exact absurd hl hne
    · show e.pos ≤ e.pos + (bytes "definition").length
      omega
    · show e.pos < e.pos + (bytes "definition").length
      omega
  rw [if_neg c2] at hr
  by_cases c3 : hasPrefix (List.drop e.pos e.input) (bytes "relation") = true
  · rw [if_pos c3] at hr
    subst hr
    have hl := hasPrefix_drop_length _ _ _ c3
    have hk : (bytes "relation").length = 8 := rfl
    have hne : bytes "relation" ≠ [] := by decide
    have hh := h.1
    refine ⟨⟨⟨h.1, ?_⟩, rfl, ?_⟩, fun _ => ?_⟩
    · show e.pos + (bytes "relation").length ≤ e.length
      rcases hl with hl | hl
      · omega
      · exact absurd hl hne
    · show e.pos ≤ e.pos + (bytes "relation").length
      omega
    · show e.pos < e.pos + (bytes "relation").length
      omega
  rw [if_neg c3] at hr
  by_cases c4 : (e.cur == 58) = true
  · rw [if_pos c4] at hr
    subst hr
    exact ⟨(one _ hlt).1, fun _ => (one _ hlt).2⟩
  rw [if_neg c4] at hr
  by_cases c5 : (e.cur == 124) = true
  · rw [if_pos c5] at hr
    subst hr
    exact ⟨(one _ hlt).1, fun _ => (one _ hlt).2⟩
  rw [if_neg c5] at hr
  by_cases c6 : (e.cur == 123) = true
  · rw [if_pos c6] at hr
    subst hr
    exact ⟨(one _ hlt).1, fun _ => (one _ hlt).2⟩
  rw [if_neg c6] at hr
  by_cases c7 : (e.cur == 125) = true
  · rw [if_pos c7] at hr
    subst hr
    exact ⟨(one _ hlt).1, fun _ => (one _ hlt).2⟩
  rw [if_neg c7] at hr
  by_cases c8 : (e.cur == 35) = true
  · rw [if_pos c8] at hr
    subst hr
    exact ⟨(one _ hlt).1, fun _ => (one _ hlt).2⟩
  rw [if_neg c8] at hr
  by_cases c9 : (e.cur == 42) = true
  · rw [if_pos c9] at hr
    subst hr
    exact ⟨(one _ hlt).1, fun _ => (one _ hlt).2⟩
  rw [if_neg c9] at hr
  by_cases c10 : isLetter e.cur = true
  · rw [if_pos c10] at hr
    subst hr
    obtain ⟨b1, _, b3⟩ := identLoop_bounds (e.length - e.pos) e
    obtain ⟨s1, s2, _⟩ := identLoop_spec (e.length - e.pos) e
    have f1 := identLoop_first (e.length - e.pos) e hlt c10 (by omega)
    refine ⟨⟨⟨?_, ?_⟩, s1, s2⟩, fun _ => f1⟩
    · show (identLoop (e.length - e.pos) e).length = (identLoop (e.length - e.pos) e).input.length
      rw [b1, s1]
      exact h.1
    · show (identLoop (e.length - e.pos) e).pos ≤ (identLoop (e.length - e.pos) e).length
      rw [b1]
      exact b3 h.2
  · rw [if_neg c10] at hr
    subst hr
    exact ⟨(one _ hlt).1, fun _ => (one _ hlt).2⟩

/-- `NextToken` keeps the cursor in bounds and moves it forward, strictly unless it returns
the end of the input. -/
lemma NextToken_later (l : Lexer) (h : InBounds l) :
    Later l l.NextToken ∧ (l.NextToken.currentItem.Token ≠ EOFToken → l.pos < l.NextToken.pos) := by
  rw [NextToken_eq_lexNext]
  obtain ⟨h1, _⟩ := eatSpace_later l h
  obtain ⟨h2, h3⟩ := lexNext_later l.eatSpace h1.1
  exact ⟨Later_trans _ _ _ h1 h2, fun hne => lt_of_le_of_lt h1.2.2 (h3 hne)⟩

lemma NewLexer_inBounds (input : GoString) : InBounds (NewLexer input) :=
  ⟨rfl, Nat.zero_le _⟩

/-! ## The parser returns on every input -/

/-- The three cases of one `<Sname>`, on the tokens that follow its name. -/
lemma readSname_eq (l : Lexer) (z : ZRelation) :
    readSname l z =
      if l.NextToken.currentItem.Token = HashToken then
        if l.NextToken.NextToken.currentItem.Token = IdentifierToken then
          (l.NextToken.NextToken.NextToken,
            { z with ZobjectSets := z.ZobjectSets ++
                [{ Name := l.currentItem.Value,
                   Relation := l.NextToken.NextToken.currentItem.Value }] },
            none)
        else
          (l.NextToken.NextToken, z, l.NextToken.NextToken.readAndMatchToken IdentifierToken)
      else if l.NextToken.currentItem.Token = ColonToken then
        if l.NextToken.NextToken.currentItem.Token = WildCard then
          (l.NextToken.NextToken.NextToken,
            { z with ZobjectWildCards := z.ZobjectWildCards ++ [{ Name := l.currentItem.Value }] },
            none)
        else
          (l.NextToken.NextToken, z, l.NextToken.NextToken.readAndMatchToken WildCard)
      else
        (l.NextToken, { z with Zobjects := z.Zobjects ++ [{ Name := l.currentItem.Value }] },
          none) := by
  unfold readSname
  dsimp only
  generalize l.NextToken.NextToken.NextToken = c
  generalize l.NextToken.NextToken = b
  generalize l.NextToken = a
  unfold Lexer.readAndMatchToken
  by_cases c1 : a.currentItem.Token = HashToken
  · rw [if_pos c1, if_pos c1]
    by_cases c2 : b.currentItem.Token = IdentifierToken
    · rw [if_pos c2, if_pos c2]
    · rw [if_neg c2, if_neg c2]
  · rw [if_neg c1, if_neg c1]
    by_cases c3 : a.currentItem.Token = ColonToken
    · rw [if_pos c3, if_pos c3]
      by_cases c2 : b.currentItem.Token = WildCard
      · rw [if_pos c2, if_pos c2]
      · rw [if_neg c2, if_neg c2]
    · rw [if_neg c3, if_neg c3]

lemma readSname_shape (l : Lexer) (z : ZRelation) :
    (readSname l z).1 = l.NextToken ∨ (readSname l z).1 = l.NextToken.NextToken ∨
      (readSname l z).1 = l.NextToken.NextToken.NextToken := by
  rw [readSname_eq]
  generalize l.NextToken.NextToken.NextToken = c
  generalize l.NextToken.NextToken = b
  generalize l.NextToken = a
  by_cases c1 : a.currentItem.Token = HashToken
  · rw [if_pos c1]
    by_cases c2 : b.currentItem.Token = IdentifierToken
    · rw [if_pos c2]; exact Or.inr (Or.inr rfl)
    · rw [if_neg c2]; exact Or.inr (Or.inl rfl)
  · rw [if_neg c1]
    by_cases c3 : a.currentItem.Token = ColonToken
    · rw [if_pos c3]
      by_cases c2 : b.currentItem.Token = WildCard
      · rw [if_pos c2]; exact Or.inr (Or.inr rfl)
      · rw [if_neg c2]; exact Or.inr (Or.inl rfl)
    · rw [if_neg c3]; exact Or.inl rfl

lemma readSname_later (l : Lexer) (z : ZRelation) (h : InBounds l) :
    Later l (readSname l z).1 ∧
      ((readSname l z).1.currentItem.Token ≠ EOFToken → l.pos < (readSname l z).1.pos) := by
  obtain ⟨a1, a2⟩ := NextToken_later l h
  obtain ⟨b1, b2⟩ := NextToken_later l.NextToken a1.1
  obtain ⟨c1, c2⟩ := NextToken_later l.NextToken.NextToken b1.1
  have ab := Later_trans _ _ _ a1 b1
  have abc := Later_trans _ _ _ ab c1
  rcases readSname_shape l z with e | e | e <;> rw [e]
  · exact ⟨a1, a2⟩
  · exact ⟨ab, fun hne => lt_of_le_of_lt a1.2.2 (b2 hne)⟩
  · exact ⟨abc, fun hne => lt_of_le_of_lt ab.2.2 (c2 hne)⟩

/-- The loop of `readZRelation` ends when its fuel is at least the text not read yet. -/
lemma snameLoop_total (fuel : Nat) (l : Lexer) (z : ZRelation) (h : InBounds l)
    (hf : l.length - l.pos + 1 ≤ fuel) :
    ∃ r, snameLoop fuel l z = some r ∧ Later l r.1 := by
  induction fuel generalizing l z with
  | zero => omega
  | succ fuel ih =>
    simp only [snameLoop]
    by_cases c : l.currentItem.Token = IdentifierToken
    · rw [if_pos c]
      obtain ⟨hs1, hs2⟩ := readSname_later l z h
      rcases hrs : readSname l z with ⟨l1, z1, e⟩
      rw [hrs] at hs1 hs2
      simp only at hs1 hs2
      cases e with
      | some err => exact ⟨_, rfl, hs1⟩
      | none =>
        simp only
        by_cases co : l1.currentItem.Token = OrToken
        · rw [if_pos co]
          have hlt := hs2 (by rw [co]; decide)
          obtain ⟨n1, _⟩ := NextToken_later l1 hs1.1
          have hlen := Later_length _ _ h (Later_trans _ _ _ hs1 n1)
          have hb := n1.1.2
          have hp := n1.2.2
          obtain ⟨r, hr, hL⟩ := ih l1.NextToken z1 n1.1 (by omega)
          exact ⟨r, hr, Later_trans _ _ _ (Later_trans _ _ _ hs1 n1) hL⟩
        · rw [if_neg co]
          exact ⟨_, rfl, hs1⟩
    · rw [if_neg c]
      exact ⟨_, rfl, Later_refl l h⟩

/-- The function `readZRelation` returns on every lexer in bounds, and a relation that it
reads without error has moved the cursor. -/
lemma readZRelation_total (l : Lexer) (h : InBounds l) :
    ∃ r, l.readZRelation = some r ∧ Later l r.1 ∧ (r.2.2 = none → l.pos < r.1.pos) := by
  obtain ⟨a1, a2⟩ := NextToken_later l h
  obtain ⟨b1, _⟩ := NextToken_later l.NextToken a1.1
  obtain ⟨c1, _⟩ := NextToken_later l.NextToken.NextToken b1.1
  have ab := Later_trans _ _ _ a1 b1
  have abc := Later_trans _ _ _ ab c1
  simp only [Lexer.readZRelation]
  split
  · exact ⟨_, rfl, Later_refl l h, fun hn => by cases hn⟩
  · split
    · exact ⟨_, rfl, a1, fun hn => by cases hn⟩
    · rename_i hm
      have ht : l.NextToken.currentItem.Token = IdentifierToken := by
        unfold Lexer.readAndMatchToken at hm
        split at hm
        · assumption
        · cases hm
      have hlt := a2 (by rw [ht]; decide)
      split
      · exact ⟨_, rfl, ab, fun hn => by cases hn⟩
      · obtain ⟨r, hr, hL⟩ := snameLoop_total
          (l.NextToken.NextToken.NextToken.length - l.NextToken.NextToken.NextToken.pos + 1)
          l.NextToken.NextToken.NextToken { Name := l.NextToken.currentItem.Value } abc.1
          (le_refl _)
        refine ⟨r, hr, Later_trans _ _ _ abc hL, fun _ => ?_⟩
        have := hL.2.2
        have := b1.2.2
        have := c1.2.2
        omega

/-- The loop of `readZBody` ends when its fuel is at least the text not read yet. -/
lemma bodyLoop_total (fuel : Nat) (l : Lexer) (zdef : ZDef) (h : InBounds l)
    (hf : l.length - l.pos + 1 ≤ fuel) :
    ∃ r, bodyLoop fuel l zdef = some r ∧ Later l r.1 := by
  induction fuel generalizing l zdef with
  | zero => omega
  | succ fuel ih =>
    simp only [bodyLoop]
    by_cases c : l.currentItem.Token = RelationToken
    · rw [if_pos c]
      obtain ⟨⟨l1, rel, e⟩, hr, hL, hp⟩ := readZRelation_total l h
      rw [hr]
      cases e with
      | some err => exact ⟨_, rfl, hL⟩
      | none =>
        simp only
        have hlt := hp rfl
        simp only at hlt hL
        have hlen := Later_length _ _ h hL
        have hb := hL.1.2
        obtain ⟨r, hr2, hL2⟩ := ih l1 { zdef with Relations := zdef.Relations ++ [rel] } hL.1
          (by omega)
        exact ⟨r, hr2, Later_trans _ _ _ hL hL2⟩
    · rw [if_neg c]
      exact ⟨_, rfl, Later_refl l h⟩

/-- The function `readZDef` returns on every lexer in bounds, and a definition that it reads
without error has moved the cursor. -/
lemma readZDef_total (l : Lexer) (h : InBounds l) :
    ∃ r, l.readZDef = some r ∧ Later l r.1 ∧ (r.2.2 = none → l.pos < r.1.pos) := by
  obtain ⟨a1, a2⟩ := NextToken_later l h
  obtain ⟨b1, _⟩ := NextToken_later l.NextToken a1.1
  obtain ⟨c1, _⟩ := NextToken_later l.NextToken.NextToken b1.1
  have ab := Later_trans _ _ _ a1 b1
  have abc := Later_trans _ _ _ ab c1
  simp only [Lexer.readZDef, Lexer.readZBody]
  split
  · exact ⟨_, rfl, Later_refl l h, fun hn => by cases hn⟩
  · split
    · exact ⟨_, rfl, a1, fun hn => by cases hn⟩
    · rename_i hm
      have ht : l.NextToken.currentItem.Token = IdentifierToken := by
        unfold Lexer.readAndMatchToken at hm
        split at hm
        · assumption
        · cases hm
      have hlt := a2 (by rw [ht]; decide)
      split
      · exact ⟨_, rfl, ab, fun hn => by cases hn⟩
      · obtain ⟨⟨l1, zdef, e⟩, hr, hL⟩ := bodyLoop_total
          (l.NextToken.NextToken.NextToken.length - l.NextToken.NextToken.NextToken.pos + 1)
          l.NextToken.NextToken.NextToken { Name := l.NextToken.currentItem.Value } abc.1
          (le_refl _)
        rw [hr]
        have hL' := Later_trans _ _ _ abc hL
        have h3 : l.NextToken.NextToken.NextToken.pos ≤ l1.pos := hL.2.2
        have hpos : l.pos < l1.pos := by
          have := b1.2.2
          have := c1.2.2
          omega
        cases e with
        | some err => exact ⟨_, rfl, hL', fun hn => by cases hn⟩
        | none =>
          simp only
          split
          · exact ⟨_, rfl, hL', fun hn => by cases hn⟩
          · exact ⟨_, rfl, hL', fun _ => hpos⟩

/-- The loop of `ReadZSchema` ends when its fuel is at least the text not read yet. -/
lemma schemaLoop_total (fuel : Nat) (l : Lexer) (zdefs : List ZDef) (h : InBounds l)
    (hf : l.length - l.pos + 1 ≤ fuel) :
    ∃ r, schemaLoop fuel l zdefs = some r := by
  induction fuel generalizing l zdefs with
  | zero => omega
  | succ fuel ih =>
    simp only [schemaLoop]
    by_cases c : l.currentItem.Token ≠ EOFToken
    · rw [if_pos c]
      obtain ⟨⟨l1, zdef, e⟩, hr, hL, hp⟩ := readZDef_total l h
      rw [hr]
      cases e with
      | some err => exact ⟨_, rfl⟩
      | none =>
        simp only
        have hlt := hp rfl
        simp only at hlt hL
        obtain ⟨n1, _⟩ := NextToken_later l1 hL.1
        have hlen := Later_length _ _ h (Later_trans _ _ _ hL n1)
        have hb := n1.1.2
        have hq := n1.2.2
        exact ih l1.NextToken (zdefs ++ [zdef]) n1.1 (by omega)
    · rw [if_neg c]
      exact ⟨_, rfl⟩

/-- More fuel does not change what the loop of `readZRelation` returns. -/
lemma snameLoop_mono (fuel : Nat) (l : Lexer) (z : ZRelation)
    (r : Lexer × ZRelation × Option GoString) (h : snameLoop fuel l z = some r) :
    snameLoop (fuel + 1) l z = some r := by
  induction fuel generalizing l z with
  | zero =>
    simp only [snameLoop] at h ⊢
    split at h
    · cases h
    · rename_i c
      rw [if_neg c]
      exact h
  | succ fuel ih =>
    rw [snameLoop] at h ⊢
    by_cases c : l.currentItem.Token = IdentifierToken
    · rw [if_pos c] at h ⊢
      rcases hrs : readSname l z with ⟨l1, z1, e⟩
      rw [hrs] at h
      cases e with
      | some err => exact h
      | none =>
        simp only at h ⊢
        by_cases co : l1.currentItem.Token = OrToken
        · rw [if_pos co] at h ⊢
          exact ih _ _ h
        · rw [if_neg co] at h ⊢
          exact h
    · rw [if_neg c] at h ⊢
      exact h

lemma snameLoop_le (f f' : Nat) (hle : f ≤ f') (l : Lexer) (z : ZRelation)
    (r : Lexer × ZRelation × Option GoString) (h : snameLoop f l z = some r) :
    snameLoop f' l z = some r := by
  induction hle with
  | refl => exact h
  | step _ ih => exact snameLoop_mono _ _ _ _ ih

/-- What the loop of `readZRelation` returns on some fuel, it returns on the fuel of the
source. -/
lemma snameLoop_enough (f : Nat) (l : Lexer) (z : ZRelation) (hb : InBounds l)
    (r : Lexer × ZRelation × Option GoString) (h : snameLoop f l z = some r) :
    snameLoop (l.length - l.pos + 1) l z = some r := by
  obtain ⟨r', hr', _⟩ := snameLoop_total (l.length - l.pos + 1) l z hb (le_refl _)
  have h1 := snameLoop_le _ _ (le_max_left f (l.length - l.pos + 1)) l z r h
  have h2 := snameLoop_le _ _ (le_max_right f (l.length - l.pos + 1)) l z r' hr'
  rw [h1] at h2
  rw [hr', ← h2]

/-- More fuel does not change what the loop of `readZBody` returns. -/
lemma bodyLoop_mono (fuel : Nat) (l : Lexer) (zdef : ZDef)
    (r : Lexer × ZDef × Option GoString) (h : bodyLoop fuel l zdef = some r) :
    bodyLoop (fuel + 1) l zdef = some r := by
  induction fuel generalizing l zdef with
  | zero =>
    simp only [bodyLoop] at h ⊢
    split at h
    · cases h
    · rename_i c
      rw [if_neg c]
      exact h
  | succ fuel ih =>
    rw [bodyLoop] at h ⊢
    by_cases c : l.currentItem.Token = RelationToken
    · rw [if_pos c] at h ⊢
      cases hrs : l.readZRelation with
      | none => rw [hrs] at h; cases h
      | some q =>
        obtain ⟨l1, rel, e⟩ := q
        rw [hrs] at h
        cases e with
        | some err => exact h
        | none =>
          simp only at h ⊢
          exact ih _ _ h
    · rw [if_neg c] at h ⊢
      exact h

lemma bodyLoop_le (f f' : Nat) (hle : f ≤ f') (l : Lexer) (zdef : ZDef)
    (r : Lexer × ZDef × Option GoString) (h : bodyLoop f l zdef = some r) :
    bodyLoop f' l zdef = some r := by
  induction hle with
  | refl => exact h
  | step _ ih => exact bodyLoop_mono _ _ _ _ ih

/-- What the loop of `readZBody` returns on some fuel, it returns on the fuel of the source. -/
lemma bodyLoop_enough (f : Nat) (l : Lexer) (zdef : ZDef) (hb : InBounds l)
    (r : Lexer × ZDef × Option GoString) (h : bodyLoop f l zdef = some r) :
    bodyLoop (l.length - l.pos + 1) l zdef = some r := by
  obtain ⟨r', hr', _⟩ := bodyLoop_total (l.length - l.pos + 1) l zdef hb (le_refl _)
  have h1 := bodyLoop_le _ _ (le_max_left f (l.length - l.pos + 1)) l zdef r h
  have h2 := bodyLoop_le _ _ (le_max_right f (l.length - l.pos + 1)) l zdef r' hr'
  rw [h1] at h2
  rw [hr', ← h2]

/-- More fuel does not change what the loop of `ReadZSchema` returns. -/
lemma schemaLoop_mono (fuel : Nat) (l : Lexer) (zdefs : List ZDef)
    (r : Lexer × List ZDef × Option GoString) (h : schemaLoop fuel l zdefs = some r) :
    schemaLoop (fuel + 1) l zdefs = some r := by
  induction fuel generalizing l zdefs with
  | zero =>
    simp only [schemaLoop] at h ⊢
    split at h
    · cases h
    · rename_i c
      rw [if_neg c]
      exact h
  | succ fuel ih =>
    rw [schemaLoop] at h ⊢
    by_cases c : l.currentItem.Token ≠ EOFToken
    · rw [if_pos c] at h ⊢
      cases hrs : l.readZDef with
      | none => rw [hrs] at h; cases h
      | some q =>
        obtain ⟨l1, zdef, e⟩ := q
        rw [hrs] at h
        cases e with
        | some err => exact h
        | none =>
          simp only at h ⊢
          exact ih _ _ h
    · rw [if_neg c] at h ⊢
      exact h

lemma schemaLoop_le (f f' : Nat) (hle : f ≤ f') (l : Lexer) (zdefs : List ZDef)
    (r : Lexer × List ZDef × Option GoString) (h : schemaLoop f l zdefs = some r) :
    schemaLoop f' l zdefs = some r := by
  induction hle with
  | refl => exact h
  | step _ ih => exact schemaLoop_mono _ _ _ _ ih

/-- What the loop of `ReadZSchema` returns on some fuel, it returns on the fuel of the
source. -/
lemma schemaLoop_enough (f : Nat) (l : Lexer) (zdefs : List ZDef) (hb : InBounds l)
    (r : Lexer × List ZDef × Option GoString) (h : schemaLoop f l zdefs = some r) :
    schemaLoop (l.length - l.pos + 1) l zdefs = some r := by
  obtain ⟨r', hr'⟩ := schemaLoop_total (l.length - l.pos + 1) l zdefs hb (le_refl _)
  have h1 := schemaLoop_le _ _ (le_max_left f (l.length - l.pos + 1)) l zdefs r h
  have h2 := schemaLoop_le _ _ (le_max_right f (l.length - l.pos + 1)) l zdefs r' hr'
  rw [h1] at h2
  rw [hr', ← h2]

/-- On every input the parser returns. -/
lemma Parse_total (input : GoString) : ∃ zdefs err, Parse input = some (zdefs, err) := by
  obtain ⟨n1, _⟩ := NextToken_later _ (NewLexer_inBounds input)
  obtain ⟨r, hr⟩ := schemaLoop_total
    ((NewLexer input).NextToken.length - (NewLexer input).NextToken.pos + 1)
    (NewLexer input).NextToken [] n1.1 (le_refl _)
  refine ⟨r.2.1, r.2.2, ?_⟩
  unfold Parse Lexer.ReadZSchema
  rw [hr]
  rfl

/-- The tokens of a lexer in bounds end with the end of the input after at most as many
calls of `NextToken` as there are bytes not read yet, plus one. -/
lemma tokenStream_ends (n : Nat) (l : Lexer) (h : InBounds l) (hf : l.length - l.pos + 1 ≤ n) :
    ((tokenStream n l).getLast?).map (fun it => it.Token) = some EOFToken := by
  induction n generalizing l with
  | zero => omega
  | succ n ih =>
    obtain ⟨n1, n2⟩ := NextToken_later l h
    simp only [tokenStream]
    by_cases c : l.NextToken.currentItem.Token = EOFToken
    · rw [if_pos c]
      simp [c]
    · rw [if_neg c]
      have hlt := n2 c
      have hlen := Later_length _ _ h n1
      have hb := n1.1.2
      have hi := ih l.NextToken n1.1 (by omega)
      cases hs : tokenStream n l.NextToken with
      | nil => rw [hs] at hi; simp at hi
      | cons a rest =>
        rw [hs] at hi
        rw [List.getLast?_cons_cons]
        exact hi

/-- The function `ReadZSchema` returns on every lexer in bounds. -/
lemma ReadZSchema_total (l : Lexer) (h : InBounds l) : ∃ r, l.ReadZSchema = some r :=
  schemaLoop_total _ l [] h (le_refl _)

/-- C24: the lexer makes progress and stays in bounds, and the parser returns on every
input. For every lexer whose `length` is the length of its input and whose cursor is at most
`length`, `NextToken` leaves the input and `length` as they are and the cursor at most
`length`, and when the token is not `EOFToken` the cursor has strictly increased. So the
tokens of an input reach `EOFToken` within as many calls as the input has bytes, plus one,
and `ReadZSchema`, whose loops run on a fuel in the embedding, never runs out of it:
it returns on every such lexer, and `Parse` returns on every input. -/
theorem lexer_makes_progress_and_parser_returns :
    (∀ l : Lexer, l.length = l.input.length → l.pos ≤ l.length →
      l.NextToken.input = l.input ∧ l.NextToken.length = l.length ∧
      l.NextToken.pos ≤ l.NextToken.length ∧ l.pos ≤ l.NextToken.pos ∧
      (l.NextToken.currentItem.Token ≠ EOFToken → l.pos < l.NextToken.pos)) ∧
    (∀ input : GoString,
      ((tokenStream (input.length + 1) (NewLexer input)).getLast?).map (fun it => it.Token)
        = some EOFToken) ∧
    (∀ l : Lexer, l.length = l.input.length → l.pos ≤ l.length →
      ∃ r, l.ReadZSchema = some r) ∧
    (∀ input : GoString, ∃ zdefs err, Parse input = some (zdefs, err)) := by
  refine ⟨fun l h1 h2 => ?_, fun input => ?_, fun l h1 h2 => ReadZSchema_total l ⟨h1, h2⟩,
    Parse_total⟩
  · obtain ⟨n1, n2⟩ := NextToken_later l ⟨h1, h2⟩
    exact ⟨n1.2.1, Later_length _ _ ⟨h1, h2⟩ n1, n1.1.2, n1.2.2, n2⟩
  · exact tokenStream_ends _ _ (NewLexer_inBounds input) (le_of_eq rfl)

/-- C24 on the lexer of `ab cd` before its first token: the token is not the end of the
input and the cursor moves from 0 to 2, within the 5 bytes of the input. -/
theorem lexer_makes_progress_and_parser_returns_witness :
    (NewLexer (bytes "ab cd")).NextToken.currentItem.Token ≠ EOFToken ∧
    (NewLexer (bytes "ab cd")).NextToken.pos = 2 ∧
    (NewLexer (bytes "ab cd")).NextToken.pos ≤ (NewLexer (bytes "ab cd")).NextToken.length ∧
    (NewLexer (bytes "ab cd")).pos < (NewLexer (bytes "ab cd")).NextToken.pos :=
  ⟨by decide, by decide,
    (lexer_makes_progress_and_parser_returns.1 (NewLexer (bytes "ab cd")) rfl
      (by decide)).2.2.1,
    (lexer_makes_progress_and_parser_returns.1 (NewLexer (bytes "ab cd")) rfl
      (by decide)).2.2.2.2 (by decide)⟩

/-! ## The resolution changes annotations only -/

lemma uniqueObjectLoop_strip (keys : List GoString) (l : List Zobject) :
    (uniqueObjectLoop keys l).map stripObject = l.map stripObject := by
  induction l generalizing keys with
  | nil => rfl
  | cons o l ih =>
    simp only [uniqueObjectLoop]
    split <;> simp only [List.map_cons, ih] <;> rfl

lemma uniqueSetLoop_strip (keys : List GoString) (l : List ZobjectSet) :
    (uniqueSetLoop keys l).map stripSet = l.map stripSet := by
  induction l generalizing keys with
  | nil => rfl
  | cons o l ih =>
    simp only [uniqueSetLoop]
    split <;> simp only [List.map_cons, ih] <;> rfl

lemma uniqueWildCardLoop_strip (keys : List GoString) (l : List ZobjectWildCard) :
    (uniqueWildCardLoop keys l).map stripWildCard = l.map stripWildCard := by
  induction l generalizing keys with
  | nil => rfl
  | cons o l ih =>
    simp only [uniqueWildCardLoop]
    split <;> simp only [List.map_cons, ih] <;> rfl

lemma resolveRelation_strip (s : PlantUMLArchimateSchema) (zrel : ZRelation) :
    stripRelation (resolveRelation s zrel) = stripRelation zrel := by
  have h1 : ∀ o, stripObject (s.assignZobject o) = stripObject o := fun o => by
    unfold stripObject
    rw [assignZobject_Name]
  have h2 : ∀ o, stripSet (s.assignZobjectSet o) = stripSet o := fun o => by
    unfold stripSet
    rw [(assignZobjectSet_Name s o).1, (assignZobjectSet_Name s o).2]
  have h3 : ∀ o, stripWildCard (s.assignZobjectWildCard o) = stripWildCard o := fun o => by
    unfold stripWildCard
    rw [assignZobjectWildCard_Name]
  unfold stripRelation resolveRelation
  simp only [uniqueObjectLoop_strip, uniqueSetLoop_strip, uniqueWildCardLoop_strip,
    List.map_map, Function.comp_def, h1, h2, h3]

/-- C21: the resolution only annotates. For every schema, the definitions after
`createIDforZdef`, read without the annotations `ID`, `IDRelation`, `Unique` and the back
references `myZDef`, are the definitions before it, read in the same way: the list of the
definitions and their names, the list of the relations of every definition and their names,
and the three lists of references of every relation with their order and their fields `Name`
and `Relation` are unchanged. -/
theorem resolution_only_annotates (s : PlantUMLArchimateSchema) :
    s.createIDforZdef.Zdefs.map stripDef = s.Zdefs.map stripDef := by
  rw [createIDforZdef_Zdefs]
  have h := congrArg
    (List.map (fun t : GoString × List ZRelation => ({ Name := t.1, Relations := t.2 } : ZDef)))
    (resolved_map stripRelation (fun _ _ _ => rfl) resolveRelation_strip s.Zdefs)
  simp only [List.map_map, Function.comp_def] at h
  exact h

/-! ## Parsing a printed schema -/

lemma At_inBounds (l : Lexer) (pre rest : GoString) (h : At l pre rest) : InBounds l := by
  refine ⟨h.2.2, ?_⟩
  rw [h.2.2, h.1, h.2.1]
  simp

/-- After white space, a symbol is read as its token. -/
lemma NextToken_symbol (t : Token) (c : Nat)
    (htc : (t = ColonToken ∧ c = 58) ∨ (t = OrToken ∧ c = 124) ∨ (t = LeftBraceToken ∧ c = 123) ∨
      (t = RightBraceToken ∧ c = 125) ∨ (t = HashToken ∧ c = 35) ∨ (t = WildCard ∧ c = 42))
    (ws : GoString) (hws : ∀ b ∈ ws, isSpace b = true)
    (l : Lexer) (pre rest : GoString) (h : At l pre (ws ++ c :: rest)) :
    l.NextToken.currentItem = tokenItem t ∧ At l.NextToken (pre ++ ws ++ [c]) rest := by
  have hA : At (Lexer.mk l.input (l.pos + ws.length + 1) l.length (tokenItem t))
      (pre ++ ws ++ [c]) rest := by
    refine ⟨?_, ?_, h.2.2⟩
    · show l.input = _
      rw [h.1]; simp
    · show l.pos + ws.length + 1 = _
      rw [h.2.1]
      simp
      omega
  have hsp : isSpace c = false := by
    rcases htc with ⟨_, e⟩ | ⟨_, e⟩ | ⟨_, e⟩ | ⟨_, e⟩ | ⟨_, e⟩ | ⟨_, e⟩ <;> subst e <;> rfl
  have h1 : hasPrefix (c :: rest) (bytes "definition") = false := by
    rcases htc with ⟨_, e⟩ | ⟨_, e⟩ | ⟨_, e⟩ | ⟨_, e⟩ | ⟨_, e⟩ | ⟨_, e⟩ <;> subst e <;> rfl
  have h2 : hasPrefix (c :: rest) (bytes "relation") = false := by
    rcases htc with ⟨_, e⟩ | ⟨_, e⟩ | ⟨_, e⟩ | ⟨_, e⟩ | ⟨_, e⟩ | ⟨_, e⟩ <;> subst e <;> rfl
  rw [NextToken_at ws hws l pre c _ h hsp, if_neg (by rw [h1]; simp),
    if_neg (by rw [h2]; simp)]
  rcases htc with ⟨e1, e⟩ | ⟨e1, e⟩ | ⟨e1, e⟩ | ⟨e1, e⟩ | ⟨e1, e⟩ | ⟨e1, e⟩ <;> subst e <;>
    subst e1
  · rw [if_pos (by decide)]
    exact ⟨rfl, hA⟩
  · rw [if_neg (by decide), if_pos (by decide)]
    exact ⟨rfl, hA⟩
  · rw [if_neg (by decide), if_neg (by decide), if_pos (by decide)]
    exact ⟨rfl, hA⟩
  · rw [if_neg (by decide), if_neg (by decide), if_neg (by decide), if_pos (by decide)]
    exact ⟨rfl, hA⟩
  · rw [if_neg (by decide), if_neg (by decide), if_neg (by decide), if_neg (by decide),
      if_pos (by decide)]
    exact ⟨rfl, hA⟩
  · rw [if_neg (by decide), if_neg (by decide), if_neg (by decide), if_neg (by decide),
      if_neg (by decide), if_pos (by decide)]
    exact ⟨rfl, hA⟩

/-- After white space, the text of a readable item is read as that item, when the text ends
the input or is followed by a byte that is not an identifier byte. -/
lemma NextToken_readable (it : Item) (hit : readable it = true)
    (ws : GoString) (hws : ∀ b ∈ ws, isSpace b = true)
    (l : Lexer) (pre rest : GoString) (h : At l pre (ws ++ it.Value ++ rest))
    (hrest : ∀ c t, rest = c :: t → identChar c = false) :
    l.NextToken.currentItem = it ∧ At l.NextToken (pre ++ ws ++ it.Value) rest := by
  obtain ⟨t, v⟩ := it
  have sym : ∀ c : Nat, v = [c] →
      ((t = ColonToken ∧ c = 58) ∨ (t = OrToken ∧ c = 124) ∨ (t = LeftBraceToken ∧ c = 123) ∨
        (t = RightBraceToken ∧ c = 125) ∨ (t = HashToken ∧ c = 35) ∨ (t = WildCard ∧ c = 42)) →
      l.NextToken.currentItem = { Token := t, Value := v } ∧
        At l.NextToken (pre ++ ws ++ v) rest := by
    intro c hv htc
    subst hv
    have h' : At l pre (ws ++ c :: rest) := by simpa using h
    have := NextToken_symbol t c htc ws hws l pre rest h'
    have hv : tokenItem t = { Token := t, Value := [c] } := by
      rcases htc with ⟨e1, e⟩ | ⟨e1, e⟩ | ⟨e1, e⟩ | ⟨e1, e⟩ | ⟨e1, e⟩ | ⟨e1, e⟩ <;> subst e <;>
        subst e1 <;> rfl
    rw [hv] at this
    exact this
  cases t with
  | DefinitionToken =>
    have hv : v = bytes "definition" := by simpa [readable, TokenToString] using hit
    subst hv
    exact NextToken_definition ws hws l pre rest h
  | RelationToken =>
    have hv : v = bytes "relation" := by simpa [readable, TokenToString] using hit
    subst hv
    exact NextToken_relation ws hws l pre rest h
  | ColonToken =>
    have hv : v = [58] := by simpa [readable, TokenToString] using hit
    exact sym 58 hv (by simp)
  | OrToken =>
    have hv : v = [124] := by simpa [readable, TokenToString] using hit
    exact sym 124 hv (by simp)
  | LeftBraceToken =>
    have hv : v = [123] := by simpa [readable, TokenToString] using hit
    exact sym 123 hv (by simp)
  | RightBraceToken =>
    have hv : v = [125] := by simpa [readable, TokenToString] using hit
    exact sym 125 hv (by simp)
  | HashToken =>
    have hv : v = [35] := by simpa [readable, TokenToString] using hit
    exact sym 35 hv (by simp)
  | WildCard =>
    have hv : v = [42] := by simpa [readable, TokenToString] using hit
    exact sym 42 hv (by simp)
  | IdentifierToken =>
    exact NextToken_identifier ws hws l pre v rest h (by simpa [readable] using hit) hrest
  | EOFToken => simp [readable] at hit
  | InvalidToken => simp [readable] at hit

lemma spaced_rest (its : List Item) : ∀ c t, spaced its = c :: t → identChar c = false := by
  intro c t h
  cases its with
  | nil => cases h
  | cons it its =>
    simp only [spaced, List.cons_append, List.cons.injEq] at h
    rw [← h.1]
    rfl

/-- The lexer reads back a text of readable items that stand after one space each, and
then the end of the input. -/
lemma reads_spaced (its : List Item) (hits : ∀ it ∈ its, readable it = true)
    (l : Lexer) (pre : GoString) (h : At l pre (spaced its)) :
    Reads l.NextToken (its ++ [{ Token := EOFToken, Value := [] }]) := by
  induction its generalizing l pre with
  | nil =>
    have := NextToken_eof [] (by simp) l pre h
    exact ⟨this.1, trivial⟩
  | cons it its ih =>
    have h' : At l pre ([32] ++ it.Value ++ spaced its) := by simpa [spaced] using h
    obtain ⟨h1, h2⟩ := NextToken_readable it (hits it (List.mem_cons_self _ _)) [32]
      (by decide) l pre (spaced its) h' (spaced_rest its)
    exact ⟨h1, ih (fun x hx => hits x (List.mem_cons_of_mem _ hx)) _ _ h2⟩

lemma join_spaced (it : Item) (its : List Item) :
    join ((it :: its).map (fun it => it.Value)) (bytes " ") = it.Value ++ spaced its := by
  induction its generalizing it with
  | nil => simp [join, spaced]
  | cons a its ih =>
    have e : bytes " " = [32] := by decide
    simp only [List.map_cons, join, spaced] at ih ⊢
    rw [ih a, e]
    simp

/-- The lexer reads back a text of readable items separated by single spaces, and then the
end of the input. -/
lemma reads_join (its : List Item) (hits : ∀ it ∈ its, readable it = true) :
    Reads (NewLexer (join (its.map (fun it => it.Value)) (bytes " "))).NextToken
      (its ++ [{ Token := EOFToken, Value := [] }]) := by
  cases its with
  | nil =>
    have hA : At (NewLexer (join [] (bytes " "))) [] [] := ⟨rfl, rfl, rfl⟩
    have := NextToken_eof [] (by simp) _ _ hA
    exact ⟨this.1, trivial⟩
  | cons it its =>
    rw [join_spaced]
    have hA : At (NewLexer (it.Value ++ spaced its)) [] ([] ++ it.Value ++ spaced its) :=
      ⟨rfl, rfl, rfl⟩
    obtain ⟨h1, h2⟩ := NextToken_readable it (hits it (List.mem_cons_self _ _)) []
      (by simp) _ _ _ hA (spaced_rest its)
    exact ⟨h1, reads_spaced its (fun x hx => hits x (List.mem_cons_of_mem _ hx)) _ _ h2⟩

/-- One `<Sname>` that is followed by a token other than `#` and `:` is read as the
reference that it writes. -/
lemma readSname_reads (s : Sname) (l : Lexer) (z : ZRelation) (next : Item) (rest : List Item)
    (h1 : next.Token ≠ HashToken) (h2 : next.Token ≠ ColonToken)
    (h : Reads l (s.items ++ next :: rest)) (hb : InBounds l) :
    ∃ l1, readSname l z = (l1, s.addTo z, none) ∧ Reads l1 (next :: rest) ∧ InBounds l1 := by
  have b1 := (NextToken_later l hb).1.1
  have b2 := (NextToken_later _ b1).1.1
  have b3 := (NextToken_later _ b2).1.1
  rw [readSname_eq]
  cases s with
  | plain n =>
    simp only [Sname.items, List.cons_append, List.nil_append, Reads] at h
    obtain ⟨e0, e1, e2⟩ := h
    generalize l.NextToken.NextToken.NextToken = c at *
    generalize hab : l.NextToken.NextToken = b at *
    generalize l.NextToken = a at *
    subst e1
    rw [if_neg h1, if_neg h2, e0]
    rw [← hab] at e2
    exact ⟨a, rfl, ⟨rfl, e2⟩, b1⟩
  | set n r =>
    simp only [Sname.items, List.cons_append, List.nil_append, Reads] at h
    obtain ⟨e0, e1, e2, e3, e4⟩ := h
    generalize l.NextToken.NextToken.NextToken = c at *
    generalize l.NextToken.NextToken = b at *
    generalize l.NextToken = a at *
    rw [e1, if_pos (by rfl), e2, if_pos (by rfl), e0]
    exact ⟨c, rfl, ⟨e3, e4⟩, b3⟩
  | wild n =>
    simp only [Sname.items, List.cons_append, List.nil_append, Reads] at h
    obtain ⟨e0, e1, e2, e3, e4⟩ := h
    generalize l.NextToken.NextToken.NextToken = c at *
    generalize l.NextToken.NextToken = b at *
    generalize l.NextToken = a at *
    rw [e1, if_neg (by decide), if_pos (by rfl), e2, if_pos (by rfl), e0]
    exact ⟨c, rfl, ⟨e3, e4⟩, b3⟩

lemma Sname_items_head (s : Sname) : ∃ n tl, s.items = identItem n :: tl := by
  cases s with
  | plain n => exact ⟨n, _, rfl⟩
  | set n r => exact ⟨n, _, rfl⟩
  | wild n => exact ⟨n, _, rfl⟩

/-- A list of references joined by `|` that is followed by a token other than `#`, `:` and
`|` is read as these references, in their order. -/
lemma snameLoop_reads (ss : List Sname) (s : Sname) (fuel : Nat) (l : Lexer) (z : ZRelation)
    (next : Item) (rest : List Item) (hf : ss.length + 1 ≤ fuel)
    (h1 : next.Token ≠ HashToken) (h2 : next.Token ≠ ColonToken) (h3 : next.Token ≠ OrToken)
    (h : Reads l (orSeparated (s :: ss) ++ next :: rest)) (hb : InBounds l) :
    ∃ l1, snameLoop fuel l z = some (l1, (s :: ss).foldl Sname.addTo z, none) ∧
      Reads l1 (next :: rest) ∧ InBounds l1 := by
  induction ss generalizing s fuel l z with
  | nil =>
    cases fuel with
    | zero => omega
    | succ fuel =>
      simp only [orSeparated] at h
      obtain ⟨n, tl, hs⟩ := Sname_items_head s
      have ht : l.currentItem.Token = IdentifierToken := by
        rw [hs] at h
        rw [h.1]
        rfl
      obtain ⟨l1, hr, hR, hb1⟩ := readSname_reads s l z next rest h1 h2 h hb
      rw [snameLoop, if_pos ht, hr]
      simp only
      have hn : ¬ l1.currentItem.Token = OrToken := by
        rw [hR.1]
        exact h3
      rw [if_neg hn]
      exact ⟨l1, rfl, hR, hb1⟩
  | cons t ss ih =>
    cases fuel with
    | zero => omega
    | succ fuel =>
      simp only [orSeparated, List.append_assoc, List.cons_append] at h
      obtain ⟨n, tl, hs⟩ := Sname_items_head s
      have ht : l.currentItem.Token = IdentifierToken := by
        rw [hs] at h
        rw [h.1]
        rfl
      obtain ⟨l1, hr, hR, hb1⟩ := readSname_reads s l z (tokenItem OrToken) _
        (by decide) (by decide) h hb
      rw [snameLoop, if_pos ht, hr]
      simp only
      have hn : l1.currentItem.Token = OrToken := by
        rw [hR.1]
        rfl
      rw [if_pos hn]
      have hb2 := (NextToken_later l1 hb1).1.1
      simp only [List.length_cons] at hf
      obtain ⟨l2, hr2, hR2, hb3⟩ := ih t fuel l1.NextToken (s.addTo z) (by omega) hR.2 hb2
      exact ⟨l2, hr2, hR2, hb3⟩

lemma foldl_plain (os : List Zobject) (z : ZRelation) :
    (os.map (fun o => Sname.plain o.Name)).foldl Sname.addTo z
      = { z with Zobjects := z.Zobjects ++ os.map stripObject } := by
  induction os generalizing z with
  | nil => simp
  | cons o os ih =>
    simp only [List.map_cons, List.foldl_cons, ih, Sname.addTo, List.append_assoc,
      List.singleton_append]
    rfl

lemma foldl_set (os : List ZobjectSet) (z : ZRelation) :
    (os.map (fun o => Sname.set o.Name o.Relation)).foldl Sname.addTo z
      = { z with ZobjectSets := z.ZobjectSets ++ os.map stripSet } := by
  induction os generalizing z with
  | nil => simp
  | cons o os ih =>
    simp only [List.map_cons, List.foldl_cons, ih, Sname.addTo, List.append_assoc,
      List.singleton_append]
    rfl

lemma foldl_wild (os : List ZobjectWildCard) (z : ZRelation) :
    (os.map (fun o => Sname.wild o.Name)).foldl Sname.addTo z
      = { z with ZobjectWildCards := z.ZobjectWildCards ++ os.map stripWildCard } := by
  induction os generalizing z with
  | nil => simp
  | cons o os ih =>
    simp only [List.map_cons, List.foldl_cons, ih, Sname.addTo, List.append_assoc,
      List.singleton_append]
    rfl

/-- The references of a relation, appended one by one to the relation that has its name
only, give the relation without its annotations. -/
lemma foldl_snamesOf (zrel : ZRelation) :
    (snamesOf zrel).foldl Sname.addTo { Name := zrel.Name } = stripRelation zrel := by
  unfold snamesOf stripRelation
  rw [List.foldl_append, List.foldl_append, foldl_plain, foldl_set, foldl_wild]
  simp

/-- The tokens of a relation with at least one reference, followed by a token other than
`#`, `:` and `|`, are read as the relation without annotations. -/
lemma readZRelation_reads (zrel : ZRelation) (l : Lexer) (next : Item) (rest : List Item)
    (hne : snamesOf zrel ≠ [])
    (h1 : next.Token ≠ HashToken) (h2 : next.Token ≠ ColonToken) (h3 : next.Token ≠ OrToken)
    (h : Reads l (relationItems zrel ++ next :: rest)) (hb : InBounds l) :
    ∃ l1, l.readZRelation = some (l1, stripRelation zrel, none) ∧
      Reads l1 (next :: rest) ∧ InBounds l1 := by
  have b1 := (NextToken_later l hb).1.1
  have b2 := (NextToken_later _ b1).1.1
  have b3 := (NextToken_later _ b2).1.1
  simp only [relationItems, List.cons_append, List.nil_append, Reads] at h
  obtain ⟨e0, e1, e2, e3⟩ := h
  cases hs : snamesOf zrel with
  | nil => exact absurd hs hne
  | cons s ss =>
    rw [hs] at e3
    obtain ⟨l1, hr, hR, hb1⟩ := snameLoop_reads ss s (ss.length + 1)
      l.NextToken.NextToken.NextToken { Name := zrel.Name } next rest (le_refl _) h1 h2 h3 e3 b3
    have hr' := snameLoop_enough _ _ _ b3 _ hr
    rw [← hs, foldl_snamesOf] at hr'
    refine ⟨l1, ?_, hR, hb1⟩
    unfold Lexer.readZRelation
    dsimp only
    generalize l.NextToken.NextToken.NextToken = c at *
    generalize l.NextToken.NextToken = b at *
    generalize l.NextToken = a at *
    unfold Lexer.readAndMatchToken
    rw [e0, e1, e2]
    rw [if_neg (by decide), if_pos (by rfl)]
    dsimp only
    rw [if_pos (by rfl)]
    exact hr'

/-- What follows the relations of a body begins with `relation` or with the closing brace. -/
lemma relations_next (rels : List ZRelation) (rest : List Item) :
    ∃ next rest', (rels.map relationItems).flatten ++ tokenItem RightBraceToken :: rest
        = next :: rest' ∧
      next.Token ≠ HashToken ∧ next.Token ≠ ColonToken ∧ next.Token ≠ OrToken := by
  cases rels with
  | nil => exact ⟨_, _, rfl, by decide, by decide, by decide⟩
  | cons r rs =>
    refine ⟨tokenItem RelationToken,
      [identItem r.Name, tokenItem ColonToken] ++ orSeparated (snamesOf r) ++
        ((rs.map relationItems).flatten ++ tokenItem RightBraceToken :: rest),
      ?_, by decide, by decide, by decide⟩
    simp [relationItems]

/-- The tokens of relations with at least one reference each, followed by the closing
brace, are read as these relations without annotations. -/
lemma bodyLoop_reads (rels : List ZRelation) (fuel : Nat) (l : Lexer) (zdef : ZDef)
    (rest : List Item) (hf : rels.length ≤ fuel) (hne : ∀ zrel ∈ rels, snamesOf zrel ≠ [])
    (h : Reads l ((rels.map relationItems).flatten ++ tokenItem RightBraceToken :: rest))
    (hb : InBounds l) :
    ∃ l1, bodyLoop fuel l zdef
        = some (l1, { zdef with Relations := zdef.Relations ++ rels.map stripRelation }, none) ∧
      Reads l1 (tokenItem RightBraceToken :: rest) ∧ InBounds l1 := by
  induction rels generalizing fuel l zdef with
  | nil =>
    have ht : ¬ l.currentItem.Token = RelationToken := by
      rw [h.1]
      decide
    refine ⟨l, ?_, h, hb⟩
    cases fuel with
    | zero =>
      rw [bodyLoop, if_neg ht]
      simp
    | succ fuel =>
      rw [bodyLoop, if_neg ht]
      simp
  | cons r rs ih =>
    cases fuel with
    | zero => simp at hf
    | succ fuel =>
      simp only [List.map_cons, List.flatten_cons, List.append_assoc] at h
      have ht : l.currentItem.Token = RelationToken := by
        simp only [relationItems, List.cons_append, Reads] at h
        rw [h.1]
        rfl
      obtain ⟨next, rest', hn, n1, n2, n3⟩ := relations_next rs rest
      rw [hn] at h
      obtain ⟨l1, hr, hR, hb1⟩ := readZRelation_reads r l next rest'
        (hne r (List.mem_cons_self _ _)) n1 n2 n3 h hb
      rw [← hn] at hR
      obtain ⟨l2, hr2, hR2, hb2⟩ := ih fuel l1
        { zdef with Relations := zdef.Relations ++ [stripRelation r] }
        (by simpa using hf) (fun z hz => hne z (List.mem_cons_of_mem _ hz)) hR hb1
      refine ⟨l2, ?_, hR2, hb2⟩
      rw [bodyLoop, if_pos ht, hr]
      dsimp only
      rw [hr2]
      simp

/-- The tokens of a definition whose relations have at least one reference each are read as
the definition without annotations, up to its closing brace. -/
lemma readZDef_reads (zdef : ZDef) (l : Lexer) (rest : List Item)
    (hne : ∀ zrel ∈ zdef.Relations, snamesOf zrel ≠ [])
    (h : Reads l (defItems zdef ++ rest)) (hb : InBounds l) :
    ∃ l1, l.readZDef = some (l1, stripDef zdef, none) ∧
      Reads l1 (tokenItem RightBraceToken :: rest) ∧ InBounds l1 := by
  have b1 := (NextToken_later l hb).1.1
  have b2 := (NextToken_later _ b1).1.1
  have b3 := (NextToken_later _ b2).1.1
  have hd : defItems zdef ++ rest
      = tokenItem DefinitionToken :: identItem zdef.Name :: tokenItem LeftBraceToken ::
        ((zdef.Relations.map relationItems).flatten ++ tokenItem RightBraceToken :: rest) := by
    simp [defItems]
  rw [hd] at h
  obtain ⟨e0, e1, e2, e3⟩ := h
  obtain ⟨l1, hr, hR, hb1⟩ := bodyLoop_reads zdef.Relations zdef.Relations.length
    l.NextToken.NextToken.NextToken { Name := zdef.Name } rest (le_refl _) hne e3 b3
  have hr' := bodyLoop_enough _ _ _ b3 _ hr
  refine ⟨l1, ?_, hR, hb1⟩
  unfold Lexer.readZDef Lexer.readZBody
  dsimp only
  generalize l.NextToken.NextToken.NextToken = c at *
  generalize l.NextToken.NextToken = b at *
  generalize l.NextToken = a at *
  unfold Lexer.readAndMatchToken
  rw [e0, e1, e2]
  rw [if_pos (by rfl)]
  dsimp only
  rw [if_pos (by rfl)]
  dsimp only
  rw [if_pos (by rfl)]
  dsimp only
  have hv : (identItem zdef.Name).Value = zdef.Name := rfl
  rw [hv, hr']
  dsimp only
  rw [hR.1, if_pos (by rfl)]
  simp [stripDef]

/-- The tokens of a schema whose relations have at least one reference each, followed by the
end of the input, are read as the schema without annotations. -/
lemma schemaLoop_reads (zdefs : List ZDef) (fuel : Nat) (l : Lexer) (acc : List ZDef)
    (hf : zdefs.length ≤ fuel)
    (hne : ∀ zdef ∈ zdefs, ∀ zrel ∈ zdef.Relations, snamesOf zrel ≠ [])
    (h : Reads l (schemaItems zdefs ++ [{ Token := EOFToken, Value := [] }]))
    (hb : InBounds l) :
    ∃ l1, schemaLoop fuel l acc = some (l1, acc ++ zdefs.map stripDef, none) := by
  induction zdefs generalizing fuel l acc with
  | nil =>
    have ht : ¬ l.currentItem.Token ≠ EOFToken := by
      rw [h.1]
      decide
    refine ⟨l, ?_⟩
    cases fuel with
    | zero =>
      rw [schemaLoop, if_neg ht]
      simp
    | succ fuel =>
      rw [schemaLoop, if_neg ht]
      simp
  | cons d ds ih =>
    cases fuel with
    | zero => simp at hf
    | succ fuel =>
      simp only [schemaItems, List.map_cons, List.flatten_cons, List.append_assoc] at h
      have ht : l.currentItem.Token ≠ EOFToken := by
        simp only [defItems, List.cons_append, Reads] at h
        rw [h.1]
        decide
      obtain ⟨l1, hr, hR, hb1⟩ := readZDef_reads d l _ (hne d (List.mem_cons_self _ _)) h hb
      have hb2 := (NextToken_later l1 hb1).1.1
      obtain ⟨l2, hr2⟩ := ih fuel l1.NextToken (acc ++ [stripDef d]) (by simpa using hf)
        (fun z hz => hne z (List.mem_cons_of_mem _ hz)) hR.2 hb2
      refine ⟨l2, ?_⟩
      rw [schemaLoop, if_pos ht, hr]
      dsimp only
      rw [hr2]
      simp

lemma asciiName_isIdentifier (X : GoString) (h : asciiName X = true) :
    isIdentifier X = true := by
  have hl : ∀ b, asciiLetter b = true → isLetter b = true := by
    intro b hb
    unfold asciiLetter at hb
    unfold isLetter
    simp only [Bool.or_eq_true, Bool.and_eq_true, decide_eq_true_eq] at hb ⊢
    omega
  cases X with
  | nil => simp [asciiName] at h
  | cons c t =>
    simp only [asciiName, Bool.and_eq_true, Bool.not_eq_true', List.all_eq_true,
      Bool.or_eq_true] at h
    obtain ⟨⟨⟨h1, h2⟩, h3⟩, h4⟩ := h
    simp only [isIdentifier, Bool.and_eq_true, Bool.not_eq_true', List.all_eq_true]
    refine ⟨⟨⟨hl c h1, fun b hb => ?_⟩, h3⟩, h4⟩
    unfold identChar
    simp only [Bool.or_eq_true]
    rcases h2 b hb with (h5 | h5) | h5
    · exact Or.inl (Or.inl (hl b h5))
    · exact Or.inl (Or.inr h5)
    · exact Or.inr h5

lemma readable_identItem (X : GoString) (h : asciiName X = true) :
    readable (identItem X) = true := asciiName_isIdentifier X h

lemma Sname_items_readable (s : Sname)
    (h : match s with
      | .plain n => asciiName n = true
      | .set n r => asciiName n = true ∧ asciiName r = true
      | .wild n => asciiName n = true) :
    ∀ it ∈ s.items, readable it = true := by
  intro it hit
  cases s with
  | plain n =>
    simp only [Sname.items, List.mem_singleton] at hit
    subst hit
    exact readable_identItem n h
  | set n r =>
    simp only [Sname.items, List.mem_cons, List.mem_singleton, List.not_mem_nil, or_false] at hit
    rcases hit with e | e | e <;> subst e
    · exact readable_identItem n h.1
    · rfl
    · exact readable_identItem r h.2
  | wild n =>
    simp only [Sname.items, List.mem_cons, List.mem_singleton, List.not_mem_nil, or_false] at hit
    rcases hit with e | e | e <;> subst e
    · exact readable_identItem n h
    · rfl
    · rfl

lemma orSeparated_readable (ss : List Sname)
    (h : ∀ s ∈ ss, ∀ it ∈ s.items, readable it = true) :
    ∀ it ∈ orSeparated ss, readable it = true := by
  induction ss with
  | nil => intro it hit; cases hit
  | cons s ss ih =>
    cases ss with
    | nil =>
      intro it hit
      exact h s (List.mem_cons_self _ _) it hit
    | cons t ss =>
      intro it hit
      simp only [orSeparated, List.mem_append, List.mem_cons] at hit
      rcases hit with e | e | e
      · exact h s (List.mem_cons_self _ _) it e
      · subst e; rfl
      · exact ih (fun x hx => h x (List.mem_cons_of_mem _ hx)) it e

lemma relationItems_readable (zrel : ZRelation) (h : printableRelation zrel = true) :
    (∀ it ∈ relationItems zrel, readable it = true) ∧ snamesOf zrel ≠ [] := by
  simp only [printableRelation, Bool.and_eq_true, List.all_eq_true, decide_eq_true_eq] at h
  obtain ⟨⟨⟨⟨h1, h2⟩, h3⟩, h4⟩, h5⟩ := h
  constructor
  · intro it hit
    simp only [relationItems, List.cons_append, List.nil_append, List.mem_cons] at hit
    rcases hit with e | e | e | e
    · subst e; rfl
    · subst e; exact readable_identItem _ h1
    · subst e; rfl
    · refine orSeparated_readable _ (fun s hs => ?_) it e
      simp only [snamesOf, List.mem_append, List.mem_map] at hs
      rcases hs with (⟨o, ho, e⟩ | ⟨o, ho, e⟩) | ⟨o, ho, e⟩ <;> subst e
      · exact Sname_items_readable _ (h2 o ho)
      · exact Sname_items_readable _ (h3 o ho)
      · exact Sname_items_readable _ (h4 o ho)
  · intro e
    have := congrArg List.length e
    simp only [snamesOf, List.length_append, List.length_map, List.length_nil] at this
    omega

lemma schemaItems_readable (zdefs : List ZDef) (h : printableSchema zdefs = true) :
    (∀ it ∈ schemaItems zdefs, readable it = true) ∧
      ∀ zdef ∈ zdefs, ∀ zrel ∈ zdef.Relations, snamesOf zrel ≠ [] := by
  simp only [printableSchema, printableDef, List.all_eq_true, Bool.and_eq_true] at h
  constructor
  · intro it hit
    simp only [schemaItems, List.mem_flatten, List.mem_map] at hit
    obtain ⟨_, ⟨d, hd, rfl⟩, hit⟩ := hit
    simp only [defItems, List.cons_append, List.nil_append, List.mem_cons, List.mem_append,
      List.mem_flatten, List.mem_map, List.mem_singleton, List.not_mem_nil, or_false] at hit
    rcases hit with e | e | e | ⟨_, ⟨r, hr, rfl⟩, e⟩ | e
    · subst e; rfl
    · subst e; exact readable_identItem _ (h d hd).1
    · subst e; rfl
    · exact (relationItems_readable r ((h d hd).2 r hr)).1 it e
    · subst e; rfl
  · intro d hd r hr
    exact (relationItems_readable r ((h d hd).2 r hr)).2

/-- The text of a printable schema is parsed as the schema without annotations. -/
lemma Parse_printSchema (zdefs : List ZDef) (hp : printableSchema zdefs = true) :
    Parse (printSchema zdefs) = some (zdefs.map stripDef, none) := by
  obtain ⟨h1, h2⟩ := schemaItems_readable zdefs hp
  have hR := reads_join (schemaItems zdefs) h1
  have hb := (NextToken_later _ (NewLexer_inBounds (printSchema zdefs))).1.1
  obtain ⟨l1, hr⟩ := schemaLoop_reads zdefs zdefs.length _ [] (le_refl _) h2 hR hb
  have hr' := schemaLoop_enough _ _ _ hb _ hr
  unfold Parse Lexer.ReadZSchema
  rw [hr']
  rfl

/-- C22: parsing inverts printing. For every schema without annotations whose names all
start with an ASCII letter, are made of ASCII letters, digits and underscores and do not
begin with `definition` or `relation`, and whose relations have at least one reference each,
the text of its tokens separated by single spaces, where every relation lists its plain
references, then its object-set references, then its wildcard references, joined by `|`, is
parsed without error as the same schema. -/
theorem parsing_inverts_printing (zdefs : List ZDef) (hu : zdefs.map stripDef = zdefs)
    (hp : printableSchema zdefs = true) :
    Parse (printSchema zdefs) = some (zdefs, none) := by
  have h := Parse_printSchema zdefs hp
  rw [hu] at h
  exact h

/-- C22 on the schema of three definitions `user`, `group` and `document`: its text and what
the parser returns on it. -/
theorem parsing_inverts_printing_witness :
    exampleDocument.map stripDef = exampleDocument ∧
    printableSchema exampleDocument = true ∧
    printSchema exampleDocument
      = bytes ("definition user \x7b \x7d definition group \x7b relation member : user \x7d " ++
          "definition document \x7b relation reader : user | group # member | user : * \x7d") ∧
    Parse (printSchema exampleDocument) = some (exampleDocument, none) :=
  ⟨by decide, by decide, by decide,
    parsing_inverts_printing exampleDocument (by decide) (by decide)⟩

/-! ## The input cut at a position -/

lemma cut_inBounds (n : Nat) (l : Lexer) (h : InBounds l) (hn : l.pos ≤ n) :
    InBounds (cut n l) := by
  refine ⟨?_, ?_⟩
  · show min n l.length = (l.input.take n).length
    rw [List.length_take, h.1]
  · show l.pos ≤ min n l.length
    have := h.2
    omega

lemma cut_cur (n : Nat) (l : Lexer) (h : l.pos < n) : (cut n l).cur = l.cur := by
  show (l.input.take n).getD l.pos 0 = l.input.getD l.pos 0
  simp only [List.getD_eq_getElem?_getD]
  rw [List.getElem?_take]
  simp [h]

lemma cut_step (n : Nat) (l : Lexer) (k : Nat) :
    ({ cut n l with pos := (cut n l).pos + k } : Lexer) = cut n { l with pos := l.pos + k } :=
  rfl

lemma eatSpaceLoop_cut (n : Nat) (f f' : Nat) (l : Lexer)
    (hp : (eatSpaceLoop f l).pos ≤ n) (hf : l.length - l.pos ≤ f)
    (hf' : min n l.length - l.pos ≤ f') :
    eatSpaceLoop f' (cut n l) = cut n (eatSpaceLoop f l) := by
  induction f generalizing f' l with
  | zero =>
    show eatSpaceLoop f' (cut n l) = cut n l
    cases f' with
    | zero => rfl
    | succ f' =>
      have hc : ¬ ((cut n l).pos < (cut n l).length) := by
        show ¬ (l.pos < min n l.length)
        omega
      simp only [eatSpaceLoop, hc, decide_False, Bool.false_and]
      rfl
  | succ f ih =>
    by_cases c : (l.pos < l.length && isSpace l.cur) = true
    · simp only [eatSpaceLoop, c, if_true] at hp ⊢
      have hge := (eatSpaceLoop_bounds f { l with pos := l.pos + 1 }).2.1
      have hlt : l.pos < n := by
        simp only at hge
        omega
      simp only [Bool.and_eq_true, decide_eq_true_eq] at c
      cases f' with
      | zero =>
        have := c.1
        omega
      | succ f' =>
        have hc : ((cut n l).pos < (cut n l).length && isSpace (cut n l).cur) = true := by
          rw [cut_cur n l hlt]
          simp only [Bool.and_eq_true, decide_eq_true_eq]
          refine ⟨?_, c.2⟩
          show l.pos < min n l.length
          have := c.1
          omega
        simp only [eatSpaceLoop, hc, if_true]
        rw [cut_step]
        exact ih _ _ hp (by simp only; omega) (by simp only; omega)
    · simp only [eatSpaceLoop, c] at hp ⊢
      show eatSpaceLoop f' (cut n l) = cut n l
      cases f' with
      | zero => rfl
      | succ f' =>
        have hc : ¬ (((cut n l).pos < (cut n l).length && isSpace (cut n l).cur) = true) := by
          intro hc
          simp only [Bool.and_eq_true, decide_eq_true_eq] at hc c
          have h1 : l.pos < min n l.length := hc.1
          rw [cut_cur n l (by omega)] at hc
          exact c ⟨by omega, hc.2⟩
        simp only [eatSpaceLoop, hc]
        rfl

lemma eatSpace_cut (n : Nat) (l : Lexer) (hp : l.eatSpace.pos ≤ n) :
    (cut n l).eatSpace = cut n l.eatSpace := by
  unfold Lexer.eatSpace at hp ⊢
  exact eatSpaceLoop_cut n _ _ l hp (le_refl _) (le_refl _)

lemma identLoop_cut (n : Nat) (f f' : Nat) (l : Lexer)
    (hp : (identLoop f l).pos ≤ n) (hf : l.length - l.pos ≤ f)
    (hf' : min n l.length - l.pos ≤ f') :
    identLoop f' (cut n l) = cut n (identLoop f l) := by
  induction f generalizing f' l with
  | zero =>
    show identLoop f' (cut n l) = cut n l
    cases f' with
    | zero => rfl
    | succ f' =>
      have hc : ¬ ((cut n l).pos < (cut n l).length) := by
        show ¬ (l.pos < min n l.length)
        omega
      simp only [identLoop, hc, decide_False, Bool.false_and]
      rfl
  | succ f ih =>
    by_cases c : (l.pos < l.length && (isLetter l.cur || isDigit l.cur || l.cur == 95)) = true
    · simp only [identLoop, c, if_true] at hp ⊢
      have hge := (identLoop_spec f { l with pos := l.pos + 1 }).2.1
      have hlt : l.pos < n := by
        simp only at hge
        omega
      simp only [Bool.and_eq_true, decide_eq_true_eq] at c
      cases f' with
      | zero =>
        have := c.1
        omega
      | succ f' =>
        have hc : ((cut n l).pos < (cut n l).length &&
            (isLetter (cut n l).cur || isDigit (cut n l).cur || (cut n l).cur == 95)) = true := by
          rw [cut_cur n l hlt]
          simp only [Bool.and_eq_true, decide_eq_true_eq]
          refine ⟨?_, c.2⟩
          show l.pos < min n l.length
          have := c.1
          omega
        simp only [identLoop, hc, if_true]
        rw [cut_step]
        exact ih _ _ hp (by simp only; omega) (by simp only; omega)
    · simp only [identLoop, c] at hp ⊢
      show identLoop f' (cut n l) = cut n l
      cases f' with
      | zero => rfl
      | succ f' =>
        have hc : ¬ (((cut n l).pos < (cut n l).length &&
            (isLetter (cut n l).cur || isDigit (cut n l).cur || (cut n l).cur == 95)) = true) := by
          intro hc
          simp only [Bool.and_eq_true, decide_eq_true_eq] at hc c
          have h1 : l.pos < min n l.length := hc.1
          rw [cut_cur n l (by omega)] at hc
          exact c ⟨by omega, hc.2⟩
        simp only [identLoop, hc]
        rfl

lemma isPrefixOf_take (kw t : GoString) (m : Nat) :
    kw.isPrefixOf (t.take m) = (kw.isPrefixOf t && decide (kw.length ≤ m)) := by
  induction kw generalizing t m with
  | nil => simp
  | cons k kw ih =>
    cases t with
    | nil => simp
    | cons x t =>
      cases m with
      | zero => simp
      | succ m =>
        simp only [List.take_succ_cons, List.isPrefixOf, ih, List.length_cons,
          Nat.add_le_add_iff_right, Bool.and_assoc]

lemma hasPrefix_cut (n : Nat) (l : Lexer) (kw : GoString) :
    hasPrefix ((cut n l).input.drop (cut n l).pos) kw
      = (hasPrefix (l.input.drop l.pos) kw && decide (kw.length ≤ n - l.pos)) := by
  show hasPrefix ((l.input.take n).drop l.pos) kw = _
  unfold hasPrefix
  rw [List.drop_take, isPrefixOf_take]

lemma slice_take (s : GoString) (n i j : Nat) (h : j ≤ n) :
    slice (s.take n) i j = slice s i j := by
  unfold slice
  rw [List.take_take, min_eq_left h]

/-- Before the end of the input, the token is not the end of the input. -/
lemma lexNext_not_eof (e : Lexer) (hlt : e.pos < e.length) :
    (lexNext e).currentItem.Token ≠ EOFToken := by
  generalize hr : lexNext e = r
  rw [lexNext, if_neg (by omega)] at hr
  by_cases c2 : hasPrefix (List.drop e.pos e.input) (bytes "definition") = true
  · rw [if_pos c2] at hr; subst hr; intro h; cases h
  rw [if_neg c2] at hr
  by_cases c3 : hasPrefix (List.drop e.pos e.input) (bytes "relation") = true
  · rw [if_pos c3] at hr; subst hr; intro h; cases h
  rw [if_neg c3] at hr
  by_cases c4 : (e.cur == 58) = true
  · rw [if_pos c4] at hr; subst hr; intro h; cases h
  rw [if_neg c4] at hr
  by_cases c5 : (e.cur == 124) = true
  · rw [if_pos c5] at hr; subst hr; intro h; cases h
  rw [if_neg c5] at hr
  by_cases c6 : (e.cur == 123) = true
  · rw [if_pos c6] at hr; subst hr; intro h; cases h
  rw [if_neg c6] at hr
  by_cases c7 : (e.cur == 125) = true
  · rw [if_pos c7] at hr; subst hr; intro h; cases h
  rw [if_neg c7] at hr
  by_cases c8 : (e.cur == 35) = true
  · rw [if_pos c8] at hr; subst hr; intro h; cases h
  rw [if_neg c8] at hr
  by_cases c9 : (e.cur == 42) = true
  · rw [if_pos c9] at hr; subst hr; intro h; cases h
  rw [if_neg c9] at hr
  by_cases c10 : isLetter e.cur = true
  · rw [if_pos c10] at hr; subst hr; intro h; cases h
  · rw [if_neg c10] at hr; subst hr; intro h; cases h

/-- The cases of `NextToken` read the input up to the cursor that they leave: on the input
cut at a position that is not before that cursor, they do the same. -/
lemma lexNext_cut (n : Nat) (e : Lexer) (h : InBounds e) (hp : (lexNext e).pos ≤ n) :
    lexNext (cut n e) = cut n (lexNext e) := by
  by_cases c1 : e.pos ≥ e.length
  · have c1' : (cut n e).pos ≥ (cut n e).length := by
      show e.pos ≥ min n e.length
      omega
    rw [lexNext, if_pos c1', lexNext, if_pos c1]
    rfl
  have hn : e.pos < n := by
    have := (lexNext_later e h).2 (lexNext_not_eof e (by omega))
    omega
  have c1' : ¬ (cut n e).pos ≥ (cut n e).length := by
    show ¬ (e.pos ≥ min n e.length)
    omega
  have hcur := cut_cur n e hn
  have hfuel : (cut n e).length - (cut n e).pos = min n e.length - e.pos := rfl
  rw [lexNext, if_neg c1', hasPrefix_cut, hasPrefix_cut, hcur, hfuel]
  generalize hr : lexNext e = r at hp ⊢
  rw [lexNext, if_neg c1] at hr
  by_cases c2 : hasPrefix (List.drop e.pos e.input) (bytes "definition") = true
  · rw [if_pos c2] at hr
    subst hr
    have hp' : e.pos + (bytes "definition").length ≤ n := hp
    have hd : decide ((bytes "definition").length ≤ n - e.pos) = true := by
      simp only [decide_eq_true_eq]
      omega
    rw [c2, hd, if_pos (by decide)]
    rfl
  rw [if_neg c2] at hr
  rw [Bool.not_eq_true] at c2
  rw [c2, Bool.false_and, if_neg (by decide)]
  by_cases c3 : hasPrefix (List.drop e.pos e.input) (bytes "relation") = true
  · rw [if_pos c3] at hr
    subst hr
    have hp' : e.pos + (bytes "relation").length ≤ n := hp
    have hd : decide ((bytes "relation").length ≤ n - e.pos) = true := by
      simp only [decide_eq_true_eq]
      omega
    rw [c3, hd, if_pos (by decide)]
    rfl
  rw [if_neg c3] at hr
  rw [Bool.not_eq_true] at c3
  rw [c3, Bool.false_and, if_neg (by decide)]
  by_cases c4 : (e.cur == 58) = true
  · rw [if_pos c4] at hr ⊢
    subst hr
    rfl
  rw [if_neg c4] at hr ⊢
  by_cases c5 : (e.cur == 124) = true
  · rw [if_pos c5] at hr ⊢
    subst hr
    rfl
  rw [if_neg c5] at hr ⊢
  by_cases c6 : (e.cur == 123) = true
  · rw [if_pos c6] at hr ⊢
    subst hr
    rfl
  rw [if_neg c6] at hr ⊢
  by_cases c7 : (e.cur == 125) = true
  · rw [if_pos c7] at hr ⊢
    subst hr
    rfl
  rw [if_neg c7] at hr ⊢
  by_cases c8 : (e.cur == 35) = true
  · rw [if_pos c8] at hr ⊢
    subst hr
    rfl
  rw [if_neg c8] at hr ⊢
  by_cases c9 : (e.cur == 42) = true
  · rw [if_pos c9] at hr ⊢
    subst hr
    rfl
  rw [if_neg c9] at hr ⊢
  by_cases c10 : isLetter e.cur = true
  · rw [if_pos c10] at hr ⊢
    subst hr
    have hp' : (identLoop (e.length - e.pos) e).pos ≤ n := hp
    have hil := identLoop_cut n (e.length - e.pos) (min n e.length - e.pos) e hp' (le_refl _)
      (le_refl _)
    rw [hil]
    have hs : slice (cut n e).input (cut n e).pos (cut n (identLoop (e.length - e.pos) e)).pos
        = slice e.input e.pos (identLoop (e.length - e.pos) e).pos :=
      slice_take e.input n e.pos _ hp'
    dsimp only
    rw [hs]
    rfl
  · rw [if_neg c10] at hr ⊢
    subst hr
    rfl

/-- `NextToken` reads the input up to the cursor that it leaves: on the input cut at a
position that is not before that cursor, it returns the same token and leaves the same
cursor. -/
lemma NextToken_cut (n : Nat) (l : Lexer) (h : InBounds l) (hp : l.NextToken.pos ≤ n) :
    (cut n l).NextToken = cut n l.NextToken := by
  rw [NextToken_eq_lexNext] at hp ⊢
  rw [NextToken_eq_lexNext]
  obtain ⟨h1, _⟩ := eatSpace_later l h
  have h2 := (lexNext_later l.eatSpace h1.1).1.2.2
  rw [eatSpace_cut n l (by omega)]
  exact lexNext_cut n l.eatSpace h1.1 hp

/-- At the end of its input the lexer returns the end of the input. -/
lemma NextToken_at_end (l : Lexer) (h : l.pos ≥ l.length) :
    l.NextToken.currentItem.Token = EOFToken := by
  rw [NextToken_eq_lexNext]
  have he : l.eatSpace = l := by
    unfold Lexer.eatSpace
    have : l.length - l.pos = 0 := by omega
    rw [this]
    rfl
  rw [he, lexNext, if_pos h]

/-- `NextToken` does not read the current item. -/
lemma NextToken_item (l : Lexer) (it : Item) :
    ({ l with currentItem := it } : Lexer).NextToken = l.NextToken := by
  have h := NextToken_shift [] it l
  have e1 : shift [] it l = { l with currentItem := it } := by
    simp [shift]
  have e2 : shift [] l.NextToken.currentItem l.NextToken = l.NextToken := by
    simp [shift]
  rw [e1, e2] at h
  exact h

/-- The cases of `readZRelation`, on the tokens that it reads. -/
lemma readZRelation_eq (l : Lexer) :
    l.readZRelation =
      if l.currentItem.Value ≠ bytes "relation" then
        some (l, {},
          some (bytes "expected 'relation', but got '" ++ l.currentItem.Value ++ bytes "'"))
      else if l.NextToken.currentItem.Token ≠ IdentifierToken then
        some (l.NextToken, {}, l.NextToken.readAndMatchToken IdentifierToken)
      else if l.NextToken.NextToken.currentItem.Token ≠ ColonToken then
        some (l.NextToken.NextToken, { Name := l.NextToken.currentItem.Value },
          l.NextToken.NextToken.readAndMatchToken ColonToken)
      else
        snameLoop
          (l.NextToken.NextToken.NextToken.length - l.NextToken.NextToken.NextToken.pos + 1)
          l.NextToken.NextToken.NextToken { Name := l.NextToken.currentItem.Value } := by
  unfold Lexer.readZRelation
  dsimp only
  generalize l.NextToken.NextToken.NextToken = c
  generalize l.NextToken.NextToken = b
  generalize l.NextToken = a
  unfold Lexer.readAndMatchToken
  by_cases v : l.currentItem.Value ≠ bytes "relation"
  · rw [if_pos v, if_pos v]
  rw [if_neg v, if_neg v]
  by_cases t1 : a.currentItem.Token = IdentifierToken
  · rw [if_pos t1, if_neg (not_not.2 t1)]
    dsimp only
    by_cases t2 : b.currentItem.Token = ColonToken
    · rw [if_pos t2, if_neg (not_not.2 t2)]
    · rw [if_neg t2, if_pos t2]
  · rw [if_neg t1, if_pos t1]

/-- The cases of `readZDef`, on the tokens that it reads. -/
lemma readZDef_eq (l : Lexer) :
    l.readZDef =
      if l.currentItem.Token ≠ DefinitionToken then
        some (l, {}, l.readAndMatchToken DefinitionToken)
      else if l.NextToken.currentItem.Token ≠ IdentifierToken then
        some (l.NextToken, {}, l.NextToken.readAndMatchToken IdentifierToken)
      else if l.NextToken.NextToken.currentItem.Token ≠ LeftBraceToken then
        some (l.NextToken.NextToken, { Name := l.NextToken.currentItem.Value },
          l.NextToken.NextToken.readAndMatchToken LeftBraceToken)
      else
        match bodyLoop
          (l.NextToken.NextToken.NextToken.length - l.NextToken.NextToken.NextToken.pos + 1)
          l.NextToken.NextToken.NextToken { Name := l.NextToken.currentItem.Value } with
        | none => none
        | some (l1, zdef, some err) => some (l1, zdef, some err)
        | some (l1, zdef, none) => some (l1, zdef, l1.readAndMatchToken RightBraceToken) := by
  unfold Lexer.readZDef Lexer.readZBody
  dsimp only
  generalize l.NextToken.NextToken.NextToken = c
  generalize l.NextToken.NextToken = b
  generalize l.NextToken = a
  by_cases t0 : l.currentItem.Token = DefinitionToken
  · rw [if_neg (not_not.2 t0)]
    have e0 : l.readAndMatchToken DefinitionToken = none := by
      unfold Lexer.readAndMatchToken
      rw [if_pos t0]
    rw [e0]
    dsimp only
    by_cases t1 : a.currentItem.Token = IdentifierToken
    · rw [if_neg (not_not.2 t1)]
      have e1 : a.readAndMatchToken IdentifierToken = none := by
        unfold Lexer.readAndMatchToken
        rw [if_pos t1]
      rw [e1]
      dsimp only
      by_cases t2 : b.currentItem.Token = LeftBraceToken
      · rw [if_neg (not_not.2 t2)]
        have e2 : b.readAndMatchToken LeftBraceToken = none := by
          unfold Lexer.readAndMatchToken
          rw [if_pos t2]
        rw [e2]
        dsimp only
        cases hbl : bodyLoop (c.length - c.pos + 1) c { Name := a.currentItem.Value } with
        | none => rfl
        | some q =>
          obtain ⟨l1, zdef, e⟩ := q
          cases e with
          | some err => rfl
          | none =>
            dsimp only
            cases hm : l1.readAndMatchToken RightBraceToken with
            | none => rfl
            | some err => rfl
      · rw [if_pos t2]
        cases hm : b.readAndMatchToken LeftBraceToken with
        | none =>
          unfold Lexer.readAndMatchToken at hm
          rw [if_neg t2] at hm
          cases hm
        | some err => rfl
    · rw [if_pos t1]
      cases hm : a.readAndMatchToken IdentifierToken with
      | none =>
        unfold Lexer.readAndMatchToken at hm
        rw [if_neg t1] at hm
        cases hm
      | some err => rfl
  · rw [if_pos t0]
    cases hm : l.readAndMatchToken DefinitionToken with
    | none =>
      unfold Lexer.readAndMatchToken at hm
      rw [if_neg t0] at hm
      cases hm
    | some err => rfl

lemma snameLoop_later (f : Nat) (l : Lexer) (z : ZRelation) (hb : InBounds l)
    (r : Lexer × ZRelation × Option GoString) (h : snameLoop f l z = some r) : Later l r.1 := by
  obtain ⟨r', hr', hL⟩ := snameLoop_total (l.length - l.pos + 1) l z hb (le_refl _)
  have := snameLoop_enough f l z hb r h
  rw [hr'] at this
  cases this
  exact hL

lemma bodyLoop_later (f : Nat) (l : Lexer) (zdef : ZDef) (hb : InBounds l)
    (r : Lexer × ZDef × Option GoString) (h : bodyLoop f l zdef = some r) : Later l r.1 := by
  obtain ⟨r', hr', hL⟩ := bodyLoop_total (l.length - l.pos + 1) l zdef hb (le_refl _)
  have := bodyLoop_enough f l zdef hb r h
  rw [hr'] at this
  cases this
  exact hL

lemma readZRelation_later (l : Lexer) (hb : InBounds l)
    (r : Lexer × ZRelation × Option GoString) (h : l.readZRelation = some r) : Later l r.1 := by
  obtain ⟨r', hr', hL, _⟩ := readZRelation_total l hb
  rw [hr'] at h
  cases h
  exact hL

lemma readZDef_later (l : Lexer) (hb : InBounds l)
    (r : Lexer × ZDef × Option GoString) (h : l.readZDef = some r) : Later l r.1 := by
  obtain ⟨r', hr', hL, _⟩ := readZDef_total l hb
  rw [hr'] at h
  cases h
  exact hL

/-- The three calls of `NextToken` that the parser makes in a row, on the input cut at a
position that is not before the cursor that they leave. -/
lemma NextToken_cut3 (n : Nat) (l : Lexer) (hb : InBounds l) :
    (l.NextToken.pos ≤ n → (cut n l).NextToken = cut n l.NextToken) ∧
    (l.NextToken.NextToken.pos ≤ n →
      (cut n l).NextToken.NextToken = cut n l.NextToken.NextToken) ∧
    (l.NextToken.NextToken.NextToken.pos ≤ n →
      (cut n l).NextToken.NextToken.NextToken = cut n l.NextToken.NextToken.NextToken) ∧
    l.NextToken.pos ≤ l.NextToken.NextToken.pos ∧
    l.NextToken.NextToken.pos ≤ l.NextToken.NextToken.NextToken.pos ∧
    InBounds l.NextToken.NextToken.NextToken := by
  obtain ⟨a1, _⟩ := NextToken_later l hb
  obtain ⟨b1, _⟩ := NextToken_later _ a1.1
  obtain ⟨c1, _⟩ := NextToken_later _ b1.1
  have k1 : l.NextToken.pos ≤ n → (cut n l).NextToken = cut n l.NextToken :=
    NextToken_cut n l hb
  have k2 : l.NextToken.NextToken.pos ≤ n →
      (cut n l).NextToken.NextToken = cut n l.NextToken.NextToken := by
    intro h2
    rw [k1 (le_trans b1.2.2 h2)]
    exact NextToken_cut n _ a1.1 h2
  have k3 : l.NextToken.NextToken.NextToken.pos ≤ n →
      (cut n l).NextToken.NextToken.NextToken = cut n l.NextToken.NextToken.NextToken := by
    intro h3
    rw [k2 (le_trans c1.2.2 h3)]
    exact NextToken_cut n _ b1.1 h3
  exact ⟨k1, k2, k3, b1.2.2, c1.2.2, c1.1⟩

lemma cut_item (n : Nat) (l : Lexer) : (cut n l).currentItem = l.currentItem := rfl

lemma cut_match (n : Nat) (l : Lexer) (t : Token) :
    (cut n l).readAndMatchToken t = l.readAndMatchToken t := rfl

/-- One `<Sname>` is read in the same way on the input cut at a position that is not before
the cursor that the reading leaves. -/
lemma readSname_cut (n : Nat) (l : Lexer) (z : ZRelation) (hb : InBounds l)
    (hp : (readSname l z).1.pos ≤ n) :
    readSname (cut n l) z
      = (cut n (readSname l z).1, (readSname l z).2.1, (readSname l z).2.2) := by
  obtain ⟨k1, k2, k3, m1, m2, _⟩ := NextToken_cut3 n l hb
  rw [readSname_eq] at hp
  rw [readSname_eq (cut n l), readSname_eq l, cut_item]
  generalize (cut n l).NextToken.NextToken.NextToken = cc at *
  generalize (cut n l).NextToken.NextToken = cb at *
  generalize (cut n l).NextToken = ca at *
  generalize l.NextToken.NextToken.NextToken = c at *
  generalize l.NextToken.NextToken = b at *
  generalize l.NextToken = a at *
  by_cases c1 : a.currentItem.Token = HashToken
  · rw [if_pos c1] at hp ⊢
    by_cases c2 : b.currentItem.Token = IdentifierToken
    · rw [if_pos c2] at hp ⊢
      have hp' : c.pos ≤ n := hp
      have e3 := k3 hp'
      have e2 := k2 (by omega)
      have e1 := k1 (by omega)
      subst e3 e2 e1
      rw [cut_item, cut_item, if_pos c1, if_pos c2]
    · rw [if_neg c2] at hp ⊢
      have hp' : b.pos ≤ n := hp
      have e2 := k2 hp'
      have e1 := k1 (by omega)
      subst e2 e1
      rw [cut_item, cut_item, if_pos c1, if_neg c2, cut_match]
  · rw [if_neg c1] at hp ⊢
    by_cases c3 : a.currentItem.Token = ColonToken
    · rw [if_pos c3] at hp ⊢
      by_cases c2 : b.currentItem.Token = WildCard
      · rw [if_pos c2] at hp ⊢
        have hp' : c.pos ≤ n := hp
        have e3 := k3 hp'
        have e2 := k2 (by omega)
        have e1 := k1 (by omega)
        subst e3 e2 e1
        rw [cut_item, cut_item, if_neg c1, if_pos c3, if_pos c2]
      · rw [if_neg c2] at hp ⊢
        have hp' : b.pos ≤ n := hp
        have e2 := k2 hp'
        have e1 := k1 (by omega)
        subst e2 e1
        rw [cut_item, cut_item, if_neg c1, if_pos c3, if_neg c2, cut_match]
    · rw [if_neg c3] at hp ⊢
      have hp' : a.pos ≤ n := hp
      have e1 := k1 hp'
      subst e1
      rw [cut_item, if_neg c1, if_neg c3]

/-- The loop of `readZRelation` does the same on the input cut at a position that is not
before the cursor that it leaves. -/
lemma snameLoop_cut (n : Nat) (f : Nat) (l : Lexer) (z : ZRelation) (hb : InBounds l)
    (r : Lexer × ZRelation × Option GoString) (h : snameLoop f l z = some r)
    (hp : r.1.pos ≤ n) :
    snameLoop f (cut n l) z = some (cut n r.1, r.2.1, r.2.2) := by
  induction f generalizing l z with
  | zero =>
    rw [snameLoop] at h ⊢
    rw [cut_item]
    by_cases c : l.currentItem.Token = IdentifierToken
    · rw [if_pos c] at h
      cases h
    · rw [if_neg c] at h ⊢
      cases h
      rfl
  | succ f ih =>
    rw [snameLoop] at h ⊢
    rw [cut_item]
    by_cases c : l.currentItem.Token = IdentifierToken
    · rw [if_pos c] at h ⊢
      obtain ⟨hs1, _⟩ := readSname_later l z hb
      have hcut := readSname_cut n l z hb
      rcases hrs : readSname l z with ⟨l1, z1, e⟩
      rw [hrs] at h hs1 hcut
      cases e with
      | some err =>
        cases h
        rw [hcut hp]
      | none =>
        dsimp only at h
        by_cases co : l1.currentItem.Token = OrToken
        · rw [if_pos co] at h
          have n1 := (NextToken_later l1 hs1.1).1
          have hL := snameLoop_later _ _ _ n1.1 _ h
          have hl2 : l1.NextToken.pos ≤ n := le_trans hL.2.2 hp
          have hl1 : l1.pos ≤ n := le_trans n1.2.2 hl2
          rw [hcut hl1]
          dsimp only
          rw [cut_item, if_pos co, NextToken_cut n l1 hs1.1 hl2]
          exact ih _ _ n1.1 h
        · rw [if_neg co] at h
          cases h
          rw [hcut hp]
          dsimp only
          rw [cut_item, if_neg co]
    · rw [if_neg c] at h ⊢
      cases h
      rfl

/-- The function `readZRelation` does the same on the input cut at a position that is not
before the cursor that it leaves. -/
lemma readZRelation_cut (n : Nat) (l : Lexer) (hb : InBounds l)
    (r : Lexer × ZRelation × Option GoString) (h : l.readZRelation = some r)
    (hp : r.1.pos ≤ n) :
    (cut n l).readZRelation = some (cut n r.1, r.2.1, r.2.2) := by
  obtain ⟨k1, k2, k3, m1, m2, b3⟩ := NextToken_cut3 n l hb
  have hsl := fun z r h => snameLoop_later (l.NextToken.NextToken.NextToken.length -
    l.NextToken.NextToken.NextToken.pos + 1) l.NextToken.NextToken.NextToken z b3 r h
  rw [readZRelation_eq] at h ⊢
  rw [cut_item]
  generalize (cut n l).NextToken.NextToken.NextToken = cc at *
  generalize (cut n l).NextToken.NextToken = cb at *
  generalize (cut n l).NextToken = ca at *
  generalize l.NextToken.NextToken.NextToken = c at *
  generalize l.NextToken.NextToken = b at *
  generalize l.NextToken = a at *
  by_cases v : l.currentItem.Value ≠ bytes "relation"
  · rw [if_pos v] at h ⊢
    cases h
    rfl
  rw [if_neg v] at h ⊢
  by_cases t1 : a.currentItem.Token ≠ IdentifierToken
  · rw [if_pos t1] at h
    cases h
    have e1 := k1 hp
    subst e1
    rw [cut_item, if_pos t1, cut_match]
  rw [if_neg t1] at h
  by_cases t2 : b.currentItem.Token ≠ ColonToken
  · rw [if_pos t2] at h
    cases h
    have hp' : b.pos ≤ n := hp
    have e2 := k2 hp'
    have e1 := k1 (by omega)
    subst e2 e1
    rw [cut_item, cut_item, if_neg t1, if_pos t2, cut_match]
  rw [if_neg t2] at h
  have hL := hsl _ _ h
  have hc : c.pos ≤ n := le_trans hL.2.2 hp
  have e3 := k3 hc
  have e2 := k2 (by omega)
  have e1 := k1 (by omega)
  subst e3 e2 e1
  rw [cut_item, cut_item, if_neg t1, if_neg t2]
  exact snameLoop_enough _ _ _ (cut_inBounds n c b3 hc) _ (snameLoop_cut n _ c _ b3 r h hp)

/-- The loop of `readZBody` does the same on the input cut at a position that is not before
the cursor that it leaves. -/
lemma bodyLoop_cut (n : Nat) (f : Nat) (l : Lexer) (zdef : ZDef) (hb : InBounds l)
    (r : Lexer × ZDef × Option GoString) (h : bodyLoop f l zdef = some r)
    (hp : r.1.pos ≤ n) :
    bodyLoop f (cut n l) zdef = some (cut n r.1, r.2.1, r.2.2) := by
  induction f generalizing l zdef with
  | zero =>
    rw [bodyLoop] at h ⊢
    rw [cut_item]
    by_cases c : l.currentItem.Token = RelationToken
    · rw [if_pos c] at h
      cases h
    · rw [if_neg c] at h ⊢
      cases h
      rfl
  | succ f ih =>
    rw [bodyLoop] at h ⊢
    rw [cut_item]
    by_cases c : l.currentItem.Token = RelationToken
    · rw [if_pos c] at h ⊢
      cases hrs : l.readZRelation with
      | none =>
        rw [hrs] at h
        cases h
      | some q =>
        obtain ⟨l1, rel, e⟩ := q
        rw [hrs] at h
        have hL1 := readZRelation_later l hb _ hrs
        cases e with
        | some err =>
          cases h
          rw [readZRelation_cut n l hb _ hrs hp]
        | none =>
          dsimp only at h
          have hL := bodyLoop_later _ _ _ hL1.1 _ h
          have hl1 : l1.pos ≤ n := le_trans hL.2.2 hp
          rw [readZRelation_cut n l hb _ hrs hl1]
          dsimp only
          exact ih _ _ hL1.1 h
    · rw [if_neg c] at h ⊢
      cases h
      rfl

/-- The function `readZDef` does the same on the input cut at a position that is not before
the cursor that it leaves. -/
lemma readZDef_cut (n : Nat) (l : Lexer) (hb : InBounds l)
    (r : Lexer × ZDef × Option GoString) (h : l.readZDef = some r) (hp : r.1.pos ≤ n) :
    (cut n l).readZDef = some (cut n r.1, r.2.1, r.2.2) := by
  obtain ⟨k1, k2, k3, m1, m2, b3⟩ := NextToken_cut3 n l hb
  have hbl := fun z r h => bodyLoop_later (l.NextToken.NextToken.NextToken.length -
    l.NextToken.NextToken.NextToken.pos + 1) l.NextToken.NextToken.NextToken z b3 r h
  rw [readZDef_eq] at h ⊢
  rw [cut_item]
  generalize (cut n l).NextToken.NextToken.NextToken = cc at *
  generalize (cut n l).NextToken.NextToken = cb at *
  generalize (cut n l).NextToken = ca at *
  generalize l.NextToken.NextToken.NextToken = c at *
  generalize l.NextToken.NextToken = b at *
  generalize l.NextToken = a at *
  by_cases t0 : l.currentItem.Token ≠ DefinitionToken
  · rw [if_pos t0] at h ⊢
    cases h
    rfl
  rw [if_neg t0] at h ⊢
  by_cases t1 : a.currentItem.Token ≠ IdentifierToken
  · rw [if_pos t1] at h
    cases h
    have e1 := k1 hp
    subst e1
    rw [cut_item, if_pos t1, cut_match]
  rw [if_neg t1] at h
  by_cases t2 : b.currentItem.Token ≠ LeftBraceToken
  · rw [if_pos t2] at h
    cases h
    have hp' : b.pos ≤ n := hp
    have e2 := k2 hp'
    have e1 := k1 (by omega)
    subst e2 e1
    rw [cut_item, cut_item, if_neg t1, if_pos t2, cut_match]
  rw [if_neg t2] at h
  cases hr : bodyLoop (c.length - c.pos + 1) c { Name := a.currentItem.Value } with
  | none =>
    rw [hr] at h
    cases h
  | some q =>
    have hL := hbl _ _ hr
    obtain ⟨l1, zdef, e⟩ := q
    rw [hr] at h
    have hl1 : l1.pos ≤ n := by
      cases e with
      | some err => cases h; exact hp
      | none => cases h; exact hp
    have hc : c.pos ≤ n := le_trans hL.2.2 hl1
    have e3 := k3 hc
    have e2 := k2 (by omega)
    have e1 := k1 (by omega)
    subst e3 e2 e1
    rw [cut_item, cut_item, if_neg t1, if_neg t2]
    rw [bodyLoop_enough _ _ _ (cut_inBounds n c b3 hc) _ (bodyLoop_cut n _ c _ b3 _ hr hl1)]
    cases e with
    | some err =>
      cases h
      rfl
    | none =>
      cases h
      rfl

lemma lexNext_brace (e : Lexer) : BraceBefore (lexNext e) := by
  generalize hr : lexNext e = r
  rw [lexNext] at hr
  by_cases c1 : e.pos ≥ e.length
  · rw [if_pos c1] at hr; subst hr; intro h; cases h
  rw [if_neg c1] at hr
  by_cases c2 : hasPrefix (List.drop e.pos e.input) (bytes "definition") = true
  · rw [if_pos c2] at hr; subst hr; intro h; cases h
  rw [if_neg c2] at hr
  by_cases c3 : hasPrefix (List.drop e.pos e.input) (bytes "relation") = true
  · rw [if_pos c3] at hr; subst hr; intro h; cases h
  rw [if_neg c3] at hr
  by_cases c4 : (e.cur == 58) = true
  · rw [if_pos c4] at hr; subst hr; intro h; cases h
  rw [if_neg c4] at hr
  by_cases c5 : (e.cur == 124) = true
  · rw [if_pos c5] at hr; subst hr; intro h; cases h
  rw [if_neg c5] at hr
  by_cases c6 : (e.cur == 123) = true
  · rw [if_pos c6] at hr; subst hr; intro h; cases h
  rw [if_neg c6] at hr
  by_cases c7 : (e.cur == 125) = true
  · rw [if_pos c7] at hr
    subst hr
    intro _
    refine ⟨Nat.succ_pos _, ?_⟩
    show e.input[e.pos + 1 - 1]? = some 125
    have hc : e.input.getD e.pos 0 = 125 := beq_iff_eq.1 c7
    rw [List.getD_eq_getElem?_getD] at hc
    rw [Nat.add_sub_cancel]
    cases hg : e.input[e.pos]? with
    | none => rw [hg] at hc; cases hc
    | some x => rw [hg] at hc; exact congrArg some hc
  rw [if_neg c7] at hr
  by_cases c8 : (e.cur == 35) = true
  · rw [if_pos c8] at hr; subst hr; intro h; cases h
  rw [if_neg c8] at hr
  by_cases c9 : (e.cur == 42) = true
  · rw [if_pos c9] at hr; subst hr; intro h; cases h
  rw [if_neg c9] at hr
  by_cases c10 : isLetter e.cur = true
  · rw [if_pos c10] at hr; subst hr; intro h; cases h
  · rw [if_neg c10] at hr; subst hr; intro h; cases h

lemma NextToken_brace (l : Lexer) : BraceBefore l.NextToken := by
  rw [NextToken_eq_lexNext]
  exact lexNext_brace _

/-- What holds of every lexer that `NextToken` returns holds of the lexer after the loop of
`readZRelation`, if it holds before the loop. -/
lemma snameLoop_keeps (P : Lexer → Prop) (hP : ∀ l : Lexer, P l.NextToken) (f : Nat)
    (l : Lexer) (z : ZRelation) (hl : P l)
    (r : Lexer × ZRelation × Option GoString) (h : snameLoop f l z = some r) : P r.1 := by
  induction f generalizing l z with
  | zero =>
    rw [snameLoop] at h
    split at h
    · cases h
    · cases h; exact hl
  | succ f ih =>
    rw [snameLoop] at h
    split at h
    · have hs : P (readSname l z).1 := by
        rcases readSname_shape l z with e | e | e <;> rw [e] <;> exact hP _
      rcases hrs : readSname l z with ⟨l1, z1, e⟩
      rw [hrs] at h hs
      cases e with
      | some err => cases h; exact hs
      | none =>
        dsimp only at h
        split at h
        · exact ih _ _ (hP _) h
        · cases h; exact hs
    · cases h; exact hl

lemma readZRelation_keeps (P : Lexer → Prop) (hP : ∀ l : Lexer, P l.NextToken)
    (l : Lexer) (hl : P l)
    (r : Lexer × ZRelation × Option GoString) (h : l.readZRelation = some r) : P r.1 := by
  rw [readZRelation_eq] at h
  split at h
  · cases h; exact hl
  · split at h
    · cases h; exact hP _
    · split at h
      · cases h; exact hP _
      · exact snameLoop_keeps P hP _ _ _ (hP _) r h

lemma bodyLoop_keeps (P : Lexer → Prop) (hP : ∀ l : Lexer, P l.NextToken) (f : Nat)
    (l : Lexer) (zdef : ZDef) (hl : P l)
    (r : Lexer × ZDef × Option GoString) (h : bodyLoop f l zdef = some r) : P r.1 := by
  induction f generalizing l zdef with
  | zero =>
    rw [bodyLoop] at h
    split at h
    · cases h
    · cases h; exact hl
  | succ f ih =>
    rw [bodyLoop] at h
    split at h
    · cases hrs : l.readZRelation with
      | none => rw [hrs] at h; cases h
      | some q =>
        obtain ⟨l1, rel, e⟩ := q
        rw [hrs] at h
        have hq := readZRelation_keeps P hP l hl _ hrs
        cases e with
        | some err => cases h; exact hq
        | none => exact ih _ _ hq h
    · cases h; exact hl

/-- A definition that `readZDef` reads without error ends on its closing brace, and what
holds of every lexer that `NextToken` returns holds of the lexer that `readZDef` leaves. -/
lemma readZDef_keeps (P : Lexer → Prop) (hP : ∀ l : Lexer, P l.NextToken)
    (l : Lexer) (l1 : Lexer) (d : ZDef) (h : l.readZDef = some (l1, d, none)) :
    P l1 ∧ l1.currentItem.Token = RightBraceToken := by
  rw [readZDef_eq] at h
  split at h
  · rename_i t0
    exfalso
    unfold Lexer.readAndMatchToken at h
    rw [if_neg t0] at h
    cases h
  · split at h
    · rename_i t1
      exfalso
      unfold Lexer.readAndMatchToken at h
      rw [if_neg t1] at h
      cases h
    · split at h
      · rename_i t2
        exfalso
        unfold Lexer.readAndMatchToken at h
        rw [if_neg t2] at h
        cases h
      · cases hbl : bodyLoop (l.NextToken.NextToken.NextToken.length -
            l.NextToken.NextToken.NextToken.pos + 1) l.NextToken.NextToken.NextToken
            { Name := l.NextToken.currentItem.Value } with
        | none => rw [hbl] at h; cases h
        | some q =>
          obtain ⟨l2, zdef, e⟩ := q
          rw [hbl] at h
          have hq := bodyLoop_keeps P hP _ _ _ (hP _) _ hbl
          cases e with
          | some err => cases h
          | none =>
            dsimp only at h
            simp only [Option.some.injEq, Prod.mk.injEq] at h
            obtain ⟨h1, _, h3⟩ := h
            subst h1
            refine ⟨hq, ?_⟩
            unfold Lexer.readAndMatchToken at h3
            split at h3
            · assumption
            · cases h3

/-- When the loop of `ReadZSchema` returns an error, the input has a position `n`, not
before the cursor at which the loop started, such that on the input cut at `n` the loop
returns the same definitions without error, and such that the definition that starts at `n`
is the one that fails. Either the loop has read no definition and `n` is where it started,
or `n` stands just after a closing brace. -/
lemma schemaLoop_error_cut (f : Nat) (l0 : Lexer) (acc : List ZDef) (hb : InBounds l0)
    (lf : Lexer) (zdefs : List ZDef) (err : GoString)
    (h : schemaLoop f l0.NextToken acc = some (lf, zdefs, some err)) :
    ∃ n, l0.pos ≤ n ∧ n ≤ l0.length ∧
      (∃ f' lf', schemaLoop f' (cut n l0).NextToken acc = some (lf', zdefs, none)) ∧
      ((zdefs = acc ∧ n = l0.pos) ∨ (0 < n ∧ l0.input[n - 1]? = some 125)) ∧
      ({ l0 with pos := n } : Lexer).NextToken.currentItem.Token ≠ EOFToken ∧
      ∃ l1 d, ({ l0 with pos := n } : Lexer).NextToken.readZDef = some (l1, d, some err) := by
  induction f generalizing l0 acc with
  | zero =>
    rw [schemaLoop] at h
    by_cases c : l0.NextToken.currentItem.Token ≠ EOFToken
    · rw [if_pos c] at h
      cases h
    · rw [if_neg c] at h
      cases h
  | succ f ih =>
    rw [schemaLoop] at h
    by_cases c : l0.NextToken.currentItem.Token ≠ EOFToken
    · rw [if_pos c] at h
      obtain ⟨a1, _⟩ := NextToken_later l0 hb
      cases hrd : l0.NextToken.readZDef with
      | none =>
        rw [hrd] at h
        cases h
      | some q =>
        obtain ⟨l1, d, e⟩ := q
        rw [hrd] at h
        have hL1 := readZDef_later _ a1.1 _ hrd
        cases e with
        | some err' =>
          cases h
          refine ⟨l0.pos, le_refl _, hb.2, ⟨0, (cut l0.pos l0).NextToken, ?_⟩, Or.inl ⟨rfl, rfl⟩,
            c, _, _, hrd⟩
          have ht : (cut l0.pos l0).NextToken.currentItem.Token = EOFToken := by
            apply NextToken_at_end
            show l0.pos ≥ min l0.pos l0.length
            omega
          rw [schemaLoop, if_neg (not_not.2 ht)]
        | none =>
          dsimp only at h
          obtain ⟨n, hn1, hn2, ⟨f', lf', hs⟩, hbr, hne, l2, d2, hfail⟩ :=
            ih l1 (acc ++ [d]) hL1.1 h
          have hlen : l1.length = l0.length :=
            (Later_length _ _ a1.1 hL1).trans (Later_length _ _ hb a1)
          have hinp : l1.input = l0.input := hL1.2.1.trans a1.2.1
          have hl1 : l1.pos ≤ n := hn1
          have hpos1 : l0.NextToken.pos ≤ l1.pos := hL1.2.2
          have hpos0 : l0.pos ≤ l0.NextToken.pos := a1.2.2
          have hsame : ({ l0 with pos := n } : Lexer).NextToken
              = ({ l1 with pos := n } : Lexer).NextToken := by
            have e : ({ l1 with pos := n } : Lexer)
                = { ({ l0 with pos := n } : Lexer) with currentItem := l1.currentItem } := by
              simp only [Lexer.mk.injEq, and_true, true_and]
              exact ⟨hinp, hlen⟩
            rw [e, NextToken_item]
          rw [← hsame] at hne hfail
          have hbr' : 0 < n ∧ l0.input[n - 1]? = some 125 := by
            rcases hbr with ⟨_, e⟩ | hbr
            · obtain ⟨k1, k2⟩ := readZDef_keeps BraceBefore NextToken_brace _ _ _ hrd
              have := k1 k2
              rw [hinp] at this
              rw [e]
              exact this
            · rw [hinp] at hbr
              exact hbr
          refine ⟨n, by omega, by omega, ⟨f' + 1, lf', ?_⟩, Or.inr hbr', hne, l2, d2, hfail⟩
          rw [schemaLoop, NextToken_cut n l0 hb (by omega), cut_item, if_pos c,
            readZDef_cut n _ a1.1 _ hrd hl1]
          exact hs
    · rw [if_neg c] at h
      cases h

/-- C23: on a syntax error `ReadZSchema` returns the definitions that were completely parsed
before the failing definition. For every input on which the parser returns the definitions
`zdefs` with an error, the input has a position `n` such that the text before `n`, parsed
alone, gives exactly `zdefs` and no error, such that this text is empty when `zdefs` is
empty and ends with a closing brace otherwise, and such that the text from `n` on is not
empty of tokens and begins with a definition on which `readZDef` fails with that error. -/
theorem failed_parse_returns_complete_definitions (input : GoString) (zdefs : List ZDef)
    (err : GoString) (h : Parse input = some (zdefs, some err)) :
    ∃ n, n ≤ input.length ∧ Parse (input.take n) = some (zdefs, none) ∧
      ((zdefs = [] ∧ n = 0) ∨ (0 < n ∧ input[n - 1]? = some 125)) ∧
      ({ NewLexer input with pos := n } : Lexer).NextToken.currentItem.Token ≠ EOFToken ∧
      ∃ l1 d, ({ NewLexer input with pos := n } : Lexer).NextToken.readZDef
        = some (l1, d, some err) := by
  unfold Parse Lexer.ReadZSchema at h
  cases hr : schemaLoop ((NewLexer input).NextToken.length - (NewLexer input).NextToken.pos + 1)
      (NewLexer input).NextToken [] with
  | none =>
    rw [hr] at h
    cases h
  | some r =>
    obtain ⟨lf, zd, e⟩ := r
    rw [hr] at h
    simp only [Option.map_some', Option.some.injEq, Prod.mk.injEq] at h
    obtain ⟨h1, h2⟩ := h
    subst h1 h2
    obtain ⟨n, _, hn, ⟨f', lf', hs⟩, hbr, hne, l1, d, hfail⟩ :=
      schemaLoop_error_cut _ (NewLexer input) [] (NewLexer_inBounds input) lf zd err hr
    have hn' : n ≤ input.length := hn
    refine ⟨n, hn', ?_, hbr, hne, l1, d, hfail⟩
    have hcut : NewLexer (input.take n) = cut n (NewLexer input) := by
      simp only [NewLexer, cut, Lexer.mk.injEq, true_and, and_true, List.length_take]
    have hb := (NextToken_later _ (cut_inBounds n (NewLexer input) (NewLexer_inBounds input)
      (Nat.zero_le n))).1.1
    unfold Parse Lexer.ReadZSchema
    rw [hcut, schemaLoop_enough _ _ _ hb _ hs]
    rfl

/-- C23 on `definition a { } definition b {`: the parser returns the definition `a` and
the error of the missing closing brace, and the text before some position gives `a` alone
without error. -/
theorem failed_parse_returns_complete_definitions_witness :
    Parse (bytes "definition a \x7b \x7d definition b \x7b")
      = some ([{ Name := bytes "a" }], some (bytes "expected token '\x7d', but got ''")) ∧
    ∃ n, n ≤ (bytes "definition a \x7b \x7d definition b \x7b").length ∧
      Parse ((bytes "definition a \x7b \x7d definition b \x7b").take n)
        = some ([{ Name := bytes "a" }], none) ∧
      ((([{ Name := bytes "a" }] : List ZDef) = [] ∧ n = 0) ∨
        (0 < n ∧ (bytes "definition a \x7b \x7d definition b \x7b")[n - 1]? = some 125)) ∧
      ({ NewLexer (bytes "definition a \x7b \x7d definition b \x7b") with pos := n } :
        Lexer).NextToken.currentItem.Token ≠ EOFToken ∧
      ∃ l1 d, ({ NewLexer (bytes "definition a \x7b \x7d definition b \x7b") with pos := n } :
        Lexer).NextToken.readZDef
        = some (l1, d, some (bytes "expected token '\x7d', but got ''")) :=
  ⟨by decide,
    failed_parse_returns_complete_definitions
      (bytes "definition a \x7b \x7d definition b \x7b") [{ Name := bytes "a" }]
      (bytes "expected token '\x7d', but got ''") (by decide)⟩

end Zreader
